import Mathlib

/-! # Line-width enforcement of uncrustify (`src/width.cpp`)

A shallow embedding of the code-width pass.  The chunk stream, a doubly linked
list in the source, is a `List Chunk`; a `Chunk *` is an index into that list and
the null chunk is the index `length` (every index past the end reads as the null
chunk).  When a newline chunk is inserted at position `k`, every pointer `p` with
`k ≤ p` moves to `p + 1`; the functions that mutate the stream therefore hand back
the new position of the pointers their caller still uses.

The process-wide change counter `cpd.changes` is the field `changes` of `State`.
-/

namespace Width

/-! ## Data model -/

/-- Modelled from the spec: the enumeration `E_Token` (declared outside `width.cpp`),
the "tagged kind" of section 3, with the kinds that `width.cpp` names; `CT_NONE` is the
kind of the null chunk and `CT_OTHER` stands for every kind the file never names. -/
inductive E_Token where
  | CT_NONE | CT_OTHER
  | CT_NEWLINE | CT_NL_CONT
  | CT_COMMENT | CT_COMMENT_CPP | CT_COMMENT_MULTI
  | CT_SPACE | CT_WORD
  | CT_VBRACE_CLOSE | CT_BRACE_CLOSE | CT_ANGLE_CLOSE
  | CT_PAREN_OPEN | CT_PAREN_CLOSE
  | CT_SPAREN_OPEN | CT_SPAREN_CLOSE
  | CT_FPAREN_OPEN | CT_FPAREN_CLOSE
  | CT_SEMICOLON | CT_VSEMICOLON | CT_COMMA
  | CT_BOOL | CT_COMPARE | CT_SHIFT | CT_ARITH | CT_CARET | CT_ASSIGN
  | CT_STRING | CT_FOR_COLON | CT_QUESTION | CT_COND_COLON
  | CT_QUALIFIER | CT_CLASS | CT_STRUCT | CT_TYPE | CT_TYPENAME | CT_VOLATILE
  | CT_FOR | CT_FUNC_PROTO | CT_FUNC_DEF | CT_FUNC_CALL
  deriving DecidableEq, Repr

open E_Token

/-- Modelled from the spec: the flag bits of a chunk (section 3, "flags") that `width.cpp`
tests: `PCF_IN_FOR`, `PCF_IN_FCN_DEF`, `PCF_IN_FCN_CALL`, `PCF_IN_TEMPLATE`,
`PCF_IN_SPAREN`, `PCF_ONE_LINER`. -/
structure Flags where
  in_for : Bool := false
  in_fcn_def : Bool := false
  in_fcn_call : Bool := false
  in_template : Bool := false
  in_sparen : Bool := false
  one_liner : Bool := false
  deriving DecidableEq, Repr

/-- Modelled from the spec: the class `Chunk` (declared outside `width.cpp`) with the
attributes of section 3 that the pass reads or writes. -/
structure Chunk where
  type : E_Token := CT_NONE
  parent_type : E_Token := CT_NONE
  text : String := ""
  column : Nat := 0
  brace_level : Nat := 0
  level : Nat := 0
  flags : Flags := {}
  nl_count : Nat := 0
  deriving DecidableEq, Repr

/-- Modelled from the spec: the options of section 6 that the pass consults (`options::`,
declared outside `width.cpp`).  Each `pos_*_lead` field is the value of the test
`options::pos_*() & TP_LEAD`; the defaults are those of the formatter. -/
structure Config where
  code_width : Nat
  ls_code_width : Bool := false
  ls_func_split_full : Bool := false
  ls_for_split_full : Bool := false
  indent_columns : Nat := 8
  indent_continue : Int := 0
  indent_paren_nl : Bool := false
  pos_arith_lead : Bool := false
  pos_assign_lead : Bool := false
  pos_compare_lead : Bool := false
  pos_conditional_lead : Bool := false
  pos_shift_lead : Bool := false
  pos_bool_lead : Bool := false
  deriving DecidableEq, Repr

/-- The chunk stream together with the change counter `cpd.changes`. -/
structure State where
  chunks : List Chunk
  changes : Nat := 0
  deriving DecidableEq, Repr

/-! ## Chunk primitives (library code outside `width.cpp`) -/

/-- Modelled from the spec: the null sentinel of the chunk list (section 3, "doubly-linked
neighbors with a distinguished null sentinel"); it has kind `CT_NONE`, an empty text
and every number zero. -/
def nullChunk : Chunk := {}

/-- The chunk a pointer designates: the list element, or the null chunk past the end. -/
def chunkAt (s : List Chunk) (i : Nat) : Chunk := s.getD i nullChunk

/-- Modelled from the spec: `chunk.next()` of section 6; the successor, or the null chunk
(index `length`) at the tail and on the null chunk itself. -/
def GetNext (s : List Chunk) (i : Nat) : Nat :=
  if i + 1 < s.length then i + 1 else s.length

/-- Modelled from the spec: `chunk.prev()` of section 6; the predecessor, or the null chunk
(index `length`) at the head and on the null chunk itself. -/
def GetPrev (s : List Chunk) (i : Nat) : Nat :=
  if 0 < i ∧ i < s.length then i - 1 else s.length

/-- Modelled from the spec: `Chunk::Len()`, "the number of columns the token occupies",
the length of the text. -/
def Chunk.Len (c : Chunk) : Nat := c.text.length

/-- Modelled from the spec: `Chunk::IsNewline()`; a newline chunk is a `CT_NEWLINE` or a
continued newline `CT_NL_CONT`. -/
def Chunk.IsNewline (c : Chunk) : Bool :=
  c.type == CT_NEWLINE || c.type == CT_NL_CONT

/-- Modelled from the spec: `Chunk::IsComment()`; one of the three comment kinds. -/
def Chunk.IsComment (c : Chunk) : Bool :=
  c.type == CT_COMMENT || c.type == CT_COMMENT_CPP || c.type == CT_COMMENT_MULTI

/-- Modelled from the spec: `Chunk::IsCommentOrNewline()`. -/
def Chunk.IsCommentOrNewline (c : Chunk) : Bool := c.IsComment || c.IsNewline

/-- Modelled from the spec: `Chunk::IsSemicolon()`; a real or a virtual semicolon. -/
def Chunk.IsSemicolon (c : Chunk) : Bool :=
  c.type == CT_SEMICOLON || c.type == CT_VSEMICOLON

/-- Modelled from the spec: `Chunk::IsLastChunkOnLine()`; the chunk is the tail of the list
or its successor is a newline. -/
def IsLastChunkOnLine (s : List Chunk) (i : Nat) : Bool :=
  decide (i + 1 = s.length) || (chunkAt s (GetNext s i)).IsNewline

/-- Modelled from the spec: `get_next_non_comment_non_newline()` of section 6
(`Chunk::GetNextNcNnl`): the first later chunk that is neither a comment nor a newline,
or the null chunk. -/
def GetNextNcNnl (s : List Chunk) (i : Nat) : Nat :=
  if i < s.length then
    i + 1 + (s.drop (i + 1)).findIdx (fun c => !c.IsCommentOrNewline)
  else s.length

/-- Modelled from the spec: the level test of `get_next_of_type` and `get_prev_of_type`
(section 6); the level is an `int` in the library, and a negative one (`ANY_LEVEL`)
matches every level. -/
def levelMatches (level : Int) (c : Chunk) : Bool :=
  decide (level < 0) || decide ((c.level : Int) = level)

/-- Modelled from the spec: `get_next_of_type(kind, level)` of section 6
(`Chunk::GetNextType`): the first later chunk of that kind at that level, or null. -/
def GetNextType (s : List Chunk) (i : Nat) (t : E_Token) (level : Int) : Nat :=
  if i < s.length then
    i + 1 + (s.drop (i + 1)).findIdx (fun c => c.type == t && levelMatches level c)
  else s.length

/-- Modelled from the spec: the backward search of `get_prev_of_type` (section 6); `k`
chunks remain before the cursor. -/
def prevTypeFrom (s : List Chunk) (t : E_Token) (level : Int) : Nat → Nat
  | 0 => s.length
  | k + 1 =>
    if (chunkAt s k).type == t && levelMatches level (chunkAt s k) then k
    else prevTypeFrom s t level k

/-- Modelled from the spec: `get_prev_of_type(kind, level)` of section 6
(`Chunk::GetPrevType`): the nearest earlier chunk of that kind at that level, or null. -/
def GetPrevType (s : List Chunk) (i : Nat) (t : E_Token) (level : Int) : Nat :=
  if i < s.length then prevTypeFrom s t level i else s.length

/-- Modelled from the spec: the newline chunk that `insert_newline_before` creates
(section 4.2, "insert a newline chunk"): one physical newline, carrying the levels and
flags of the chunk `prev` that it follows. -/
def mkNewline (prev : Chunk) : Chunk :=
  { type := CT_NEWLINE, parent_type := CT_NONE, text := "\n", column := prev.column,
    brace_level := prev.brace_level, level := prev.level, flags := prev.flags,
    nl_count := 1 }

/-- Modelled from the spec: `insert_newline_before(chunk)` of section 6, "idempotent when a
newline is already present": nothing changes when the previous chunk is a newline,
otherwise one newline chunk is put immediately before `pc` (before the null sentinel
that is the end of the stream). -/
def newline_add_before (s : List Chunk) (pc : Nat) : List Chunk :=
  if (chunkAt s (GetPrev s pc)).IsNewline then s
  else s.take pc ++ mkNewline (chunkAt s (GetPrev s pc)) :: s.drop pc

/-- Where the pointer `p` is after a call that turned stream `before` into `after` by
inserting (or not) one chunk at position `k`. -/
def relocate (before after : List Chunk) (k p : Nat) : Nat :=
  if before.length < after.length ∧ k ≤ p then p + 1 else p

/-- Modelled from the spec: the column shift of `reindent` (section 6) for the chunks after
`pc` on the same line: every chunk up to the next newline moves by `delta`. -/
def shiftLine (delta : Int) : List Chunk → List Chunk
  | [] => []
  | c :: rest =>
    if c.IsNewline then c :: rest
    else { c with column := (c.column + delta).toNat } :: shiftLine delta rest

/-- Modelled from the spec: `reindent(chunk, col)` of section 6, "sets the continuation
column": `pc` gets column `col` and the rest of its line moves by the same amount. -/
def reindent_line (s : List Chunk) (pc : Nat) (col : Nat) : List Chunk :=
  if pc < s.length then
    s.take pc ++ { chunkAt s pc with column := col } ::
      shiftLine ((col : Int) - (chunkAt s pc).column) (s.drop (pc + 1))
  else s

/-! ## `width.cpp` -/

/-- An entry of the best-so-far record of the backward scan (`struct cw_entry`);
`pc = none` is the null pointer that `memset` leaves. -/
structure cw_entry where
  pc : Option Nat := none
  pri : Nat := 0
  deriving DecidableEq, Repr

/-- The test `is_past_width`: `(pc->column + pc->Len() - 1) > code_width` in `size_t`
arithmetic (64 bits). -/
def is_past_width (cfg : Config) (c : Chunk) : Bool :=
  decide (cfg.code_width < (c.column + c.Len + (2 ^ 64 - 1)) % 2 ^ 64)

/-- The function `split_before_chunk`: unless `pc` or its predecessor is a newline, add a
newline before `pc`, reindent `pc` and count one change.  The column
`pc->brace_level * indent_columns + abs(indent_continue) + 1` is computed in `size_t`
arithmetic (64 bits), as `brace_level` is a `size_t`. -/
def split_before_chunk (cfg : Config) (st : State) (pc : Nat) : State :=
  if !(chunkAt st.chunks pc).IsNewline
      && !(chunkAt st.chunks (GetPrev st.chunks pc)).IsNewline then
    let s1 := newline_add_before st.chunks pc
    let pc1 := relocate st.chunks s1 pc pc
    { chunks := reindent_line s1 pc1
        (((chunkAt s1 pc1).brace_level * cfg.indent_columns
          + cfg.indent_continue.natAbs + 1) % 2 ^ 64),
      changes := st.changes + 1 }
  else st

/-- The table `pri_table`, in the order of the source. -/
def pri_table : List (E_Token × Nat) :=
  [ (CT_SEMICOLON, 1), (CT_COMMA, 2), (CT_BOOL, 3), (CT_COMPARE, 4), (CT_SHIFT, 5),
    (CT_ARITH, 6), (CT_CARET, 7), (CT_ASSIGN, 8), (CT_STRING, 9), (CT_FOR_COLON, 10),
    (CT_QUESTION, 20), (CT_COND_COLON, 20), (CT_FPAREN_OPEN, 21), (CT_QUALIFIER, 25),
    (CT_CLASS, 25), (CT_STRUCT, 25), (CT_TYPE, 25), (CT_TYPENAME, 25), (CT_VOLATILE, 25) ]

/-- The function `get_split_pri`: the priority of the first table entry for `tok`, else 0. -/
def get_split_pri (tok : E_Token) : Nat :=
  match pri_table.find? (fun e => e.1 == tok) with
  | some e => e.2
  | none => 0

/-- The rejection filters of `try_split_here` (everything before "Check levels first"):
`true` when `pc` gets as far as the level and priority comparison. -/
def passes_filters (cfg : Config) (s : List Chunk) (pc : Nat) : Bool :=
  let c := chunkAt s pc
  let pc_pri := get_split_pri c.type
  let prev := GetPrev s pc
  let next := chunkAt s (GetNext s pc)
  if pc_pri == 0 then false
  else if decide (s.length ≤ prev) || ((chunkAt s prev).IsNewline && c.type != CT_STRING) then
    false
  else if c.type == CT_FPAREN_OPEN && next.type == CT_FPAREN_CLOSE then false
  else if c.type == CT_STRING && next.type != CT_STRING then false
  else if !cfg.ls_code_width && decide (20 ≤ pc_pri) then false
  else if pc_pri == 25 && (next.type != CT_WORD && get_split_pri next.type != 25) then false
  else true

/-- The function `try_split_here`: after the filters, `pc` replaces the recorded entry when
the record is empty or `pc` has a lower level, and otherwise when its priority is lower. -/
def try_split_here (cfg : Config) (s : List Chunk) (ent : cw_entry) (pc : Nat) : cw_entry :=
  if passes_filters cfg s pc then
    let pc_pri := get_split_pri (chunkAt s pc).type
    let change : Bool :=
      match ent.pc with
      | none => true
      | some e =>
        if (chunkAt s pc).level < (chunkAt s e).level then true
        else decide (pc_pri < ent.pri)
    if change then { pc := some pc, pri := pc_pri } else ent
  else ent

/-- The backward scan of `split_line` (the `while` loop over `pc->GetPrev()`): `k` chunks
remain before the cursor, so the chunk visited is the one at index `k - 1`; the scan ends
at the head of the list or at a newline, and under `ls_code_width` as soon as the record is
not empty. -/
def scan_back (cfg : Config) (s : List Chunk) : Nat → cw_entry → cw_entry
  | 0, ent => ent
  | k + 1, ent =>
    if (chunkAt s k).IsNewline then ent
    else if (chunkAt s k).type != CT_SPACE then
      let ent1 := try_split_here cfg s ent k
      if ent1.pc.isSome && cfg.ls_code_width then ent1
      else scan_back cfg s k ent1
    else scan_back cfg s k ent

/-- The candidate that the scan started from `start` ends with (`ent.pc`). -/
def best_split (cfg : Config) (s : List Chunk) (start : Nat) : Option Nat :=
  if start < s.length then (scan_back cfg s start {}).pc else none

/-- The test of the `pos_xxx` rules in `split_line`: break before the candidate instead of
after it. -/
def breaks_before (cfg : Config) (c : Chunk) : Bool :=
  (c.type == CT_SHIFT && cfg.pos_shift_lead)
  || ((c.type == CT_ARITH || c.type == CT_CARET) && cfg.pos_arith_lead)
  || (c.type == CT_ASSIGN && cfg.pos_assign_lead)
  || (c.type == CT_COMPARE && cfg.pos_compare_lead)
  || ((c.type == CT_COND_COLON || c.type == CT_QUESTION) && cfg.pos_conditional_lead)
  || (c.type == CT_BOOL && cfg.pos_bool_lead)

/-- The kinds of `start` before which the fallback of `split_line` does not break
(the "NO GO" test). -/
def no_go (c : Chunk) : Bool :=
  c.type == CT_PAREN_CLOSE || c.type == CT_PAREN_OPEN
  || c.type == CT_FPAREN_CLOSE || c.type == CT_FPAREN_OPEN
  || c.type == CT_SPAREN_CLOSE || c.type == CT_SPAREN_OPEN
  || c.type == CT_ANGLE_CLOSE || c.type == CT_BRACE_CLOSE
  || c.type == CT_COMMA || c.IsSemicolon || c.Len == 0

/-- The last stage of `split_line`, from `cw_entry ent;` to the end: scan backward for the
best candidate, pick the side by the `pos_xxx` rules, fall back to `start`, and add the
newline.  Returns the new state and the new position of `start` (the value returned by
`split_line`). -/
def split_line_generic (cfg : Config) (st : State) (start : Nat) : State × Nat :=
  let s := st.chunks
  let target : Option Nat :=
    match best_split cfg s start with
    | none => none
    | some e => if breaks_before cfg (chunkAt s e) then some e else some (GetNext s e)
  let go (pc : Nat) : State × Nat :=
    let prev := GetPrev s pc
    if decide (prev < s.length) && !(chunkAt s pc).IsNewline
        && !(chunkAt s prev).IsNewline then
      let st1 := split_before_chunk cfg st pc
      (st1, relocate s st1.chunks pc start)
    else (st, start)
  match target with
  | some pc =>
    if pc < s.length then go pc
    else if no_go (chunkAt s start) then (st, start) else go start
  | none => if no_go (chunkAt s start) then (st, start) else go start

/-- First loop of `split_for_stmt`: walk backward over the `k` chunks before the cursor
to the nearest `CT_SPAREN_OPEN`, adding up `nl_count` on the way.  Returns `open_paren`
(`none` for the null pointer) and `nl_cnt`. -/
def find_open_paren (s : List Chunk) : Nat → Nat → Option Nat × Nat
  | 0, nl_cnt => (none, nl_cnt)
  | k + 1, nl_cnt =>
    if (chunkAt s k).type == CT_SPAREN_OPEN then (some k, nl_cnt)
    else find_open_paren s k (nl_cnt + (chunkAt s k).nl_count)

/-- The test `pc->Is(CT_SEMICOLON) && pc->GetParentType() == CT_FOR`. -/
def is_for_semi (c : Chunk) : Bool :=
  c.type == CT_SEMICOLON && c.parent_type == CT_FOR

/-- Backward semicolon scan of `split_for_stmt`: `k` chunks remain before the cursor;
`semis` holds `st[0 .. count-1]` in collection order. -/
def semis_backward (s : List Chunk) (max_cnt : Nat) : Nat → List Nat → List Nat
  | 0, semis => semis
  | k + 1, semis =>
    if semis.length < max_cnt && (chunkAt s k).flags.in_sparen then
      semis_backward s max_cnt k (if is_for_semi (chunkAt s k) then semis ++ [k] else semis)
    else semis

/-- Forward semicolon scan of `split_for_stmt`, the cursor at `pc`; one unit of fuel per
chunk visited. -/
def semis_forward (s : List Chunk) (max_cnt : Nat) : Nat → Nat → List Nat → List Nat
  | 0, _, semis => semis
  | fuel + 1, pc, semis =>
    let nxt := GetNext s pc
    if semis.length < max_cnt && decide (nxt < s.length) && (chunkAt s nxt).flags.in_sparen then
      semis_forward s max_cnt fuel nxt (if is_for_semi (chunkAt s nxt) then semis ++ [nxt] else semis)
    else semis

/-- The semicolons collected by `split_for_stmt` (`st[0 .. count-1]`): `start` itself, then
the backward scan, then the forward scan. -/
def collect_semis (cfg : Config) (s : List Chunk) (start : Nat) : List Nat :=
  let max_cnt := if cfg.ls_for_split_full then 2 else 1
  let semis0 := if is_for_semi (chunkAt s start) then [start] else []
  let semis1 := if start < s.length then semis_backward s max_cnt start semis0 else semis0
  semis_forward s max_cnt s.length start semis1

/-- The loop `while (--count >= 0) split_before_chunk(st[count]->GetNext())`; the list is
`st` reversed, so its head is `st[count]`.  The entries were collected in the stream the
function was called on; `f` sends a position of that stream to the current one, and the
result holds the final such map, by which the caller relocates `start` and `open_paren`. -/
def split_semis (cfg : Config) : List Nat → (Nat → Nat) → State → State × (Nat → Nat)
  | [], f, st => (st, f)
  | p :: rest, f, st =>
    let k := GetNext st.chunks (f p)
    let st1 := split_before_chunk cfg st k
    split_semis cfg rest (fun q => relocate st.chunks st1.chunks k (f q)) st1

/-- The two forward loops of `split_for_stmt` (`tok` is `CT_COMMA`, then `CT_ASSIGN`):
from the cursor `pc` up to `start`, split after every `tok` at paren level.  The Boolean
is `true` when the loop left the function through `return`. -/
def for_scan (cfg : Config) (tok : E_Token) :
    Nat → State → Nat → Nat → Nat → State × Nat × Bool
  | 0, st, _, _, start => (st, start, false)
  | fuel + 1, st, open_paren, pc, start =>
    let pc1 := GetNext st.chunks pc
    if pc1 = start then (st, start, false)
    else if (chunkAt st.chunks pc1).type == tok
        && (chunkAt st.chunks pc1).level == (chunkAt st.chunks open_paren).level + 1 then
      let k := GetNext st.chunks pc1
      let st1 := split_before_chunk cfg st k
      let start1 := relocate st.chunks st1.chunks k start
      let open1 := relocate st.chunks st1.chunks k open_paren
      if !is_past_width cfg (chunkAt st1.chunks pc1) then (st1, start1, true)
      else for_scan cfg tok fuel st1 open1 pc1 start1
    else for_scan cfg tok fuel st open_paren pc1 start

/-- The first part of `split_for_stmt`, up to the end of the `while (--count >= 0)` loop:
find the open paren, collect the semicolons and split after each of them.  Returns the
state, the new position of `start`, and `open_paren` (new position) with `nl_cnt`. -/
def split_for_semis (cfg : Config) (st : State) (start : Nat) :
    State × Nat × Option Nat × Nat :=
  let fo := if start < st.chunks.length then find_open_paren st.chunks start 0 else (none, 0)
  match fo.1 with
  | none => (st, start, none, fo.2)
  | some open_paren =>
    let semis := collect_semis cfg st.chunks start
    let r := split_semis cfg semis.reverse id st
    (r.1, r.2 start, some (r.2 open_paren), fo.2)

/-- The function `split_for_stmt`.  Returns the new state and the new position of `start`.
The two forward loops get two units of fuel per chunk: a step either advances toward
`start` or is followed by a step onto the newline just inserted. -/
def split_for_stmt (cfg : Config) (st : State) (start : Nat) : State × Nat :=
  match split_for_semis cfg st start with
  | (st1, start1, none, _) => (st1, start1)
  | (st1, start1, some open_paren, nl_cnt) =>
    if !is_past_width cfg (chunkAt st1.chunks start1) || decide (0 < nl_cnt) then (st1, start1)
    else
      let r := for_scan cfg CT_COMMA (2 * st1.chunks.length + 2) st1 open_paren open_paren start1
      if r.2.2 then (r.1, r.2.1)
      else
        let r2 := for_scan cfg CT_ASSIGN (2 * r.1.chunks.length + 2) r.1 open_paren open_paren r.2.1
        (r2.1, r2.2.1)

/-- Backward search of `split_fcn_params_full` for the opening function parenthesis:
`k` chunks remain before the cursor; the level test is `fpo->level == start->level - 1`
on `size_t`, which no chunk passes when `start->level` is 0. -/
def find_fpo_full (s : List Chunk) (start_level : Nat) : Nat → Nat
  | 0 => s.length
  | k + 1 =>
    if (chunkAt s k).type == CT_FPAREN_OPEN && (chunkAt s k).level + 1 == start_level then k
    else find_fpo_full s start_level k

/-- The forward loop of `split_fcn_params_full`: break after every comma at the level of
the parameters, until a chunk at the level of `fpo` or the end of the stream. -/
def full_loop (cfg : Config) : Nat → State → Nat → Nat → Nat → State × Nat
  | 0, st, _, _, start => (st, start)
  | fuel + 1, st, fpo, pc, start =>
    if st.chunks.length ≤ pc then (st, start)
    else if (chunkAt st.chunks pc).level ≤ (chunkAt st.chunks fpo).level then (st, start)
    else if (chunkAt st.chunks pc).level == (chunkAt st.chunks fpo).level + 1
        && (chunkAt st.chunks pc).type == CT_COMMA then
      let k := GetNext st.chunks pc
      let st1 := split_before_chunk cfg st k
      let pc1 := relocate st.chunks st1.chunks k pc
      full_loop cfg fuel st1 (relocate st.chunks st1.chunks k fpo)
        (GetNextNcNnl st1.chunks pc1) (relocate st.chunks st1.chunks k start)
    else full_loop cfg fuel st fpo (GetNextNcNnl st.chunks pc) start

/-- The function `split_fcn_params_full`.  Returns the new state and the new position of
`start`. -/
def split_fcn_params_full (cfg : Config) (st : State) (start : Nat) : State × Nat :=
  let s := st.chunks
  let fpo := if start < s.length then find_fpo_full s (chunkAt s start).level start else s.length
  full_loop cfg (s.length + 1) st fpo (GetNextNcNnl s fpo) start

/-- The recomputation of `min_col` at a function parenthesis in `split_fcn_params_greedy`;
`next` is `pc->GetNext()`.  `min_col` is a `size_t`, so the sum is taken in 64 bits. -/
def paren_min_col (cfg : Config) (next : Chunk) : Nat :=
  (next.brace_level * cfg.indent_columns + 1
    + (if cfg.indent_continue = 0 then cfg.indent_columns else cfg.indent_continue.natAbs))
    % 2 ^ 64

/-- The `for` loop of `split_fcn_params_greedy`, one unit of fuel per iteration.  `pc` is the
cursor, `endp` the chunk after `fpc`; `fpc` and `start` are carried along so that the caller
gets their new positions.  Returns the state and the new positions of `fpc` and `start`. -/
def greedy_loop (cfg : Config) :
    Nat → State → Nat → Nat → Nat → Nat → Option Nat → Nat → Nat → State × Nat × Nat
  | 0, st, _, _, fpc, start, _, _, _ => (st, fpc, start)
  | fuel + 1, st, pc, endp, fpc, start, splitpoint, min_col, added_newlines =>
    let s := st.chunks
    let c := chunkAt s pc
    let next := chunkAt s (GetNext s pc)
    if pc = endp then (st, fpc, start)
    else if c.IsNewline then
      greedy_loop cfg fuel st (GetNext s pc) endp fpc start none min_col added_newlines
    else
      let is_fparen := c.type == CT_FPAREN_OPEN || c.type == CT_FPAREN_CLOSE
      if !is_fparen && c.type != CT_COMMA then
        greedy_loop cfg fuel st (GetNext s pc) endp fpc start splitpoint min_col added_newlines
      else
        let ok_to_split_here : Bool :=
          if c.type == CT_FPAREN_OPEN then !(next.type == CT_FPAREN_CLOSE)
          else if c.type == CT_FPAREN_CLOSE then false
          else true
        let min_col1 :=
          if is_fparen && !cfg.indent_paren_nl then paren_min_col cfg next else min_col
        match splitpoint with
        | none =>
          greedy_loop cfg fuel st (GetNext s pc) endp fpc start
            (if ok_to_split_here then some pc else none) min_col1 added_newlines
        | some sp =>
          if !is_past_width cfg c && (decide (pc ≠ fpc) || decide (0 < added_newlines)) then
            greedy_loop cfg fuel st (GetNext s pc) endp fpc start
              (if ok_to_split_here then some pc else some sp) min_col1 added_newlines
          else
            let k := GetNext s sp
            if !(chunkAt s k).IsNewline then
              let s1 := newline_add_before s k
              let s2 := reindent_line s1 (relocate s s1 k k) min_col1
              greedy_loop cfg fuel { chunks := s2, changes := st.changes + 1 }
                (GetNext s2 sp) (relocate s s1 k endp) (relocate s s1 k fpc)
                (relocate s s1 k start) (some sp) min_col1 (added_newlines + 1)
            else
              greedy_loop cfg fuel st (GetNext s sp) endp fpc start (some sp) min_col1
                added_newlines

/-- The function `split_fcn_params_greedy`; every insertion is after `fpo`, whose position
does not change.  Four units of fuel per chunk: a chunk is visited at most twice and every
inserted newline once.  Returns the state and the new positions of `fpc` and `start`. -/
def split_fcn_params_greedy (cfg : Config) (st : State) (fpo fpc start : Nat) :
    State × Nat × Nat :=
  let s := st.chunks
  greedy_loop cfg (4 * s.length + 4) st fpo (GetNext s fpc) fpc start (some fpo)
    (chunkAt s (GetNextNcNnl s fpo)).column 0

/-- What a call that may end the process gives back: the state and the returned chunk, or
`exit(EX_SOFTWARE)` with the state reached. -/
inductive Outcome where
  | ok (st : State) (ret : Nat)
  | fatal (st : State)
  deriving DecidableEq, Repr

/-- The function `split_fcn_params`.  The level handed to `GetPrevType` is
`start->level - 1` computed on `size_t` and passed as `int`, so level 0 gives -1
(any level). -/
def split_fcn_params (cfg : Config) (st : State) (start : Nat) : Outcome :=
  let s := st.chunks
  let c := chunkAt s start
  let fpo :=
    if c.type == CT_FPAREN_OPEN then start
    else GetPrevType s start CT_FPAREN_OPEN
      (if c.IsSemicolon || c.type == CT_FPAREN_CLOSE then (c.level : Int) else (c.level : Int) - 1)
  if s.length ≤ fpo then Outcome.fatal st
  else
    let fpc := GetNextType s fpo CT_FPAREN_CLOSE (chunkAt s fpo).level
    if s.length ≤ fpc then Outcome.fatal st
    else
      let r := split_fcn_params_greedy cfg st fpo fpc start
      if (chunkAt r.1.chunks fpo).level = (chunkAt r.1.chunks r.2.2).level then
        Outcome.ok r.1 (GetNext r.1.chunks r.2.1)
      else Outcome.ok r.1 r.2.1

/-- Backward walk of `split_template` to the nearest newline or comma: `k` chunks remain
before the cursor; the result is null when the head is passed. -/
def find_template_prev (s : List Chunk) : Nat → Nat
  | 0 => s.length
  | k + 1 =>
    if (chunkAt s k).IsNewline || (chunkAt s k).type == CT_COMMA then k
    else find_template_prev s k

/-- The function `split_template`.  Returns the new state and the new position of `start`.
`min_col` is 1 plus the value of an `unsigned` or `int` option, which fits a `size_t`. -/
def split_template (cfg : Config) (st : State) (start : Nat) : State × Nat :=
  let s := st.chunks
  let prev := if start < s.length then find_template_prev s start else s.length
  if decide (prev < s.length) && !(chunkAt s prev).IsNewline then
    let pc := GetNext s prev
    let s1 := newline_add_before s pc
    let min_col :=
      1 + (if cfg.indent_continue = 0 then cfg.indent_columns else cfg.indent_continue.natAbs)
    ({ chunks := reindent_line s1 (relocate s s1 pc pc) min_col, changes := st.changes + 1 },
      relocate s s1 pc start)
  else (st, start)

/-- The formatter passes that `split_line` calls on a one-liner, taken as parameters:
`undo_one_liner(start)` gives the stream and the chunk to resume at, and
`newlines_cleanup_braces(false)` gives the stream and the new position of that chunk. -/
structure Ext where
  undo_one_liner : List Chunk → Nat → List Chunk × Nat
  newlines_cleanup_braces : List Chunk → Nat → List Chunk × Nat

/-- The test of the "FUNC SPLIT" branch of `split_line`. -/
def in_func_split (c : Chunk) : Bool :=
  c.flags.in_fcn_def
  || (c.flags.in_fcn_call && c.level == c.brace_level + 1)
  || (!c.flags.in_fcn_call
      && ((c.type == CT_FPAREN_OPEN || c.IsSemicolon)
        && (c.parent_type == CT_FUNC_PROTO || c.parent_type == CT_FUNC_DEF
          || c.parent_type == CT_FUNC_CALL)))

/-- The function `split_line`.  The returned chunk of `Outcome.ok` is the value the source
returns, as a position in the new stream. -/
def split_line (cfg : Config) (ext : Ext) (st : State) (start : Nat) : Outcome :=
  let c := chunkAt st.chunks start
  if c.flags.one_liner then
    let r1 := ext.undo_one_liner st.chunks start
    let r2 := ext.newlines_cleanup_braces r1.1 r1.2
    Outcome.ok { chunks := r2.1, changes := st.changes + 1 } r2.2
  else if cfg.ls_code_width then
    let r := split_line_generic cfg st start
    Outcome.ok r.1 r.2
  else if c.flags.in_for then
    let r := split_for_stmt cfg st start
    if !is_past_width cfg (chunkAt r.1.chunks r.2) then Outcome.ok r.1 r.2
    else
      let g := split_line_generic cfg r.1 r.2
      Outcome.ok g.1 g.2
  else if in_func_split c then
    if cfg.ls_func_split_full then
      let r := split_fcn_params_full cfg st start
      if !is_past_width cfg (chunkAt r.1.chunks r.2) then Outcome.ok r.1 r.2
      else split_fcn_params cfg r.1 r.2
    else split_fcn_params cfg st start
  else if c.flags.in_template then
    let r := split_template cfg st start
    Outcome.ok r.1 r.2
  else
    let r := split_line_generic cfg st start
    Outcome.ok r.1 r.2

/-- Where the loop of `do_code_width` stands. -/
inductive Status where
  | running | finished | exited
  deriving DecidableEq, Repr

/-- The loop state of `do_code_width`: the stream with the counter, and the cursor `pc`. -/
structure Driver where
  st : State
  pc : Nat
  status : Status := Status.running
  deriving DecidableEq, Repr

/-- One iteration of the `for` loop of `do_code_width`, increment included.  A chunk returned
by `split_line` is never the C++ null pointer; a returned null chunk ends the loop at the
next test, like the `break` of the source. -/
def do_code_width_step (cfg : Config) (ext : Ext) (d : Driver) : Driver :=
  match d.status with
  | Status.running =>
    let s := d.st.chunks
    let c := chunkAt s d.pc
    if s.length ≤ d.pc then { d with status := Status.finished }
    else if !c.IsCommentOrNewline && c.type != CT_SPACE && is_past_width cfg c then
      if c.type == CT_VBRACE_CLOSE && IsLastChunkOnLine s d.pc then
        { d with pc := GetNext s d.pc }
      else
        match split_line cfg ext d.st d.pc with
        | Outcome.ok st1 newpc => { st := st1, pc := GetNext st1.chunks newpc }
        | Outcome.fatal st1 => { st := st1, pc := d.pc, status := Status.exited }
    else { d with pc := GetNext s d.pc }
  | _ => d

/-- The loop of `do_code_width` run for `n` iterations from the head of the stream. -/
def do_code_width_run (cfg : Config) (ext : Ext) (st : State) (n : Nat) : Driver :=
  (do_code_width_step cfg ext)^[n] { st := st, pc := 0 }

/-- The function `do_code_width` with `fuel` loop iterations: the final state when the loop
has ended by then (normally or through `exit`), `none` when it is still running. -/
def do_code_width (cfg : Config) (ext : Ext) (fuel : Nat) (st : State) : Option State :=
  let d := do_code_width_run cfg ext st fuel
  if d.status = Status.running then none else some d.st

/-! ## The loops of `split_for_stmt` and `split_fcn_params_greedy` on their variables

The semicolon collection of `split_for_stmt` once more on the array `st[2]` with its
counter, and the loop of `split_fcn_params_greedy` as one iteration on a record of its
variables.  `greedy_loop_from_succ` and `collect_semis_st_holds` tie them to `greedy_loop`
and `collect_semis` above. -/

/-- The array `Chunk *st[2]` of `split_for_stmt`; a slot is `none` until it is written. -/
structure SemiArray where
  slot0 : Option Nat := none
  slot1 : Option Nat := none
  deriving DecidableEq, Repr

/-- The write `st[i] = pc`; `none` when `i` is no index of the two-slot array. -/
def SemiArray.set (a : SemiArray) (i : Nat) (pc : Nat) : Option SemiArray :=
  match i with
  | 0 => some { a with slot0 := some pc }
  | 1 => some { a with slot1 := some pc }
  | _ => none

/-- The read `st[i]`; `none` when `i` is no index of the two-slot array or the slot was
never written. -/
def SemiArray.get (a : SemiArray) (i : Nat) : Option Nat :=
  match i with
  | 0 => a.slot0
  | 1 => a.slot1
  | _ => none

/-- The statement `st[count++] = pc` on the array with its counter. -/
def st_push (ac : SemiArray × Nat) (pc : Nat) : Option (SemiArray × Nat) :=
  (ac.1.set ac.2 pc).map (fun a => (a, ac.2 + 1))

/-- The backward semicolon scan of `split_for_stmt` on the array `st` and the counter
`count`; `none` when a write leaves the array. -/
def semis_backward_st (s : List Chunk) (max_cnt : Nat) :
    Nat → SemiArray × Nat → Option (SemiArray × Nat)
  | 0, ac => some ac
  | k + 1, ac =>
    if ac.2 < max_cnt && (chunkAt s k).flags.in_sparen then
      if is_for_semi (chunkAt s k) then
        match st_push ac k with
        | none => none
        | some ac1 => semis_backward_st s max_cnt k ac1
      else semis_backward_st s max_cnt k ac
    else some ac

/-- The forward semicolon scan of `split_for_stmt` on the array `st` and the counter
`count`; `none` when a write leaves the array. -/
def semis_forward_st (s : List Chunk) (max_cnt : Nat) :
    Nat → Nat → SemiArray × Nat → Option (SemiArray × Nat)
  | 0, _, ac => some ac
  | fuel + 1, pc, ac =>
    let nxt := GetNext s pc
    if ac.2 < max_cnt && decide (nxt < s.length) && (chunkAt s nxt).flags.in_sparen then
      if is_for_semi (chunkAt s nxt) then
        match st_push ac nxt with
        | none => none
        | some ac1 => semis_forward_st s max_cnt fuel nxt ac1
      else semis_forward_st s max_cnt fuel nxt ac
    else some ac

/-- The collection of the semicolons by `split_for_stmt` on the array `st` and the counter
`count`, from `int count = 0; Chunk *st[2];` to the end of the forward scan. -/
def collect_semis_st (cfg : Config) (s : List Chunk) (start : Nat) :
    Option (SemiArray × Nat) :=
  let max_cnt := if cfg.ls_for_split_full then 2 else 1
  let a0 : Option (SemiArray × Nat) :=
    if is_for_semi (chunkAt s start) then st_push ({}, 0) start else some ({}, 0)
  let a1 :=
    if start < s.length then a0.bind (semis_backward_st s max_cnt start) else a0
  a1.bind (semis_forward_st s max_cnt s.length start)

/-- The loop `while (--count >= 0) split_before_chunk(st[count]->GetNext())` on the array:
`none` when the slot read is outside the array or was never written. -/
def split_semis_st (cfg : Config) (a : SemiArray) :
    Nat → (Nat → Nat) → State → Option (State × (Nat → Nat))
  | 0, f, st => some (st, f)
  | count + 1, f, st =>
    match a.get count with
    | none => none
    | some p =>
      let k := GetNext st.chunks (f p)
      let st1 := split_before_chunk cfg st k
      split_semis_st cfg a count (fun q => relocate st.chunks st1.chunks k (f q)) st1

/-- The variables of the `for` loop of `split_fcn_params_greedy`: the stream with the
counter, the cursor `pc`, `end`, `fpc`, `start` (carried along for the caller),
`splitpoint` (`none` for the null pointer), `min_col` and `added_newlines`. -/
structure Greedy where
  st : State
  pc : Nat
  endp : Nat
  fpc : Nat
  start : Nat
  splitpoint : Option Nat
  min_col : Nat
  added_newlines : Nat
  deriving DecidableEq, Repr

/-- One iteration of the `for` loop of `split_fcn_params_greedy`, increment included, on
the loop variables; `none` when the loop test `pc != end` fails. -/
def greedy_step (cfg : Config) (g : Greedy) : Option Greedy :=
  let s := g.st.chunks
  let c := chunkAt s g.pc
  let next := chunkAt s (GetNext s g.pc)
  if g.pc = g.endp then none
  else if c.IsNewline then some { g with pc := GetNext s g.pc, splitpoint := none }
  else
    let is_fparen := c.type == CT_FPAREN_OPEN || c.type == CT_FPAREN_CLOSE
    if !is_fparen && c.type != CT_COMMA then some { g with pc := GetNext s g.pc }
    else
      let ok_to_split_here : Bool :=
        if c.type == CT_FPAREN_OPEN then !(next.type == CT_FPAREN_CLOSE)
        else if c.type == CT_FPAREN_CLOSE then false
        else true
      let min_col1 :=
        if is_fparen && !cfg.indent_paren_nl then paren_min_col cfg next else g.min_col
      match g.splitpoint with
      | none =>
        some { g with pc := GetNext s g.pc,
                      splitpoint := if ok_to_split_here then some g.pc else none,
                      min_col := min_col1 }
      | some sp =>
        if !is_past_width cfg c
            && (decide (g.pc ≠ g.fpc) || decide (0 < g.added_newlines)) then
          some { g with pc := GetNext s g.pc,
                        splitpoint := if ok_to_split_here then some g.pc else some sp,
                        min_col := min_col1 }
        else
          let k := GetNext s sp
          if !(chunkAt s k).IsNewline then
            let s1 := newline_add_before s k
            let s2 := reindent_line s1 (relocate s s1 k k) min_col1
            some { st := { chunks := s2, changes := g.st.changes + 1 },
                   pc := GetNext s2 sp, endp := relocate s s1 k g.endp,
                   fpc := relocate s s1 k g.fpc, start := relocate s s1 k g.start,
                   splitpoint := some sp, min_col := min_col1,
                   added_newlines := g.added_newlines + 1 }
          else
            some { g with pc := GetNext s sp, splitpoint := some sp, min_col := min_col1 }

/-- The loop of `split_fcn_params_greedy` started on the loop variables `g`. -/
def greedy_loop_from (cfg : Config) (fuel : Nat) (g : Greedy) : State × Nat × Nat :=
  greedy_loop cfg fuel g.st g.pc g.endp g.fpc g.start g.splitpoint g.min_col g.added_newlines

/-- The loop variables with which `split_fcn_params_greedy` enters its loop. -/
def greedy_init (st : State) (fpo fpc start : Nat) : Greedy :=
  { st := st, pc := fpo, endp := GetNext st.chunks fpc, fpc := fpc, start := start,
    splitpoint := some fpo, min_col := (chunkAt st.chunks (GetNextNcNnl st.chunks fpo)).column,
    added_newlines := 0 }

/-- The chunks on which the loop of `split_fcn_params_greedy` decides: a comma or a function
parenthesis. -/
def greedy_decides (c : Chunk) : Bool :=
  c.type == CT_FPAREN_OPEN || c.type == CT_FPAREN_CLOSE || c.type == CT_COMMA

/-- The value of `ok_to_split_here` at the chunk at `pc`: a comma, or a function open paren
that is not directly followed by a function close paren. -/
def ok_to_split_at (s : List Chunk) (pc : Nat) : Bool :=
  (chunkAt s pc).type == CT_COMMA
  || ((chunkAt s pc).type == CT_FPAREN_OPEN
      && !((chunkAt s (GetNext s pc)).type == CT_FPAREN_CLOSE))

/-- The value of `min_col` after the recomputation at the chunk at `pc`. -/
def next_min_col (cfg : Config) (s : List Chunk) (pc min_col : Nat) : Nat :=
  if ((chunkAt s pc).type == CT_FPAREN_OPEN || (chunkAt s pc).type == CT_FPAREN_CLOSE)
      && !cfg.indent_paren_nl then
    paren_min_col cfg (chunkAt s (GetNext s pc))
  else min_col

/-- The test under which the loop only remembers the chunk at the cursor: `splitpoint` is
null, or the chunk is not past the width and is not `fpc` or a newline was added already. -/
def greedy_remembers (cfg : Config) (g : Greedy) : Bool :=
  match g.splitpoint with
  | none => true
  | some _ =>
    !is_past_width cfg (chunkAt g.st.chunks g.pc)
      && (decide (g.pc ≠ g.fpc) || decide (0 < g.added_newlines))

/-- The stream after the split branch of the loop has put a newline after the chunk at `sp`
and reindented the chunk after it to `col`. -/
def split_after (s : List Chunk) (sp col : Nat) : List Chunk :=
  reindent_line (newline_add_before s (GetNext s sp))
    (relocate s (newline_add_before s (GetNext s sp)) (GetNext s sp) (GetNext s sp)) col

/-- The splitpoint from which the iteration at `g` resumes, when it takes the split branch
of the loop of `split_fcn_params_greedy` (the code after the `continue` statements);
`none` in an iteration that only moves on. -/
def rewind_of (cfg : Config) (g : Greedy) : Option Nat :=
  if g.pc = g.endp then none
  else if (chunkAt g.st.chunks g.pc).IsNewline then none
  else if !greedy_decides (chunkAt g.st.chunks g.pc) then none
  else if greedy_remembers cfg g then none
  else g.splitpoint

/-- The loop of `split_fcn_params_greedy` run from the loop variables `g` with `fuel`
iterations: the loop variables when the test `pc != end` fails, with the splitpoints from
which the loop resumed, in order; `none` when the loop is still running after `fuel`
iterations. -/
def greedy_run (cfg : Config) : Nat → Greedy → Option (Greedy × List Nat)
  | 0, _ => none
  | fuel + 1, g =>
    match greedy_step cfg g with
    | none => some (g, [])
    | some g1 =>
      (greedy_run cfg fuel g1).map (fun r => (r.1, (rewind_of cfg g).toList ++ r.2))

/-- The loop variables after `n` iterations from `g`; `none` when the loop has ended
before. -/
def greedy_after (cfg : Config) : Nat → Greedy → Option Greedy
  | 0, g => some g
  | n + 1, g =>
    match greedy_step cfg g with
    | none => none
    | some g1 => greedy_after cfg n g1

/-! ## Observations and predicates used by the statements -/

/-- The observable token sequence of a stream: text, kind and level of every chunk that
is not a newline, in order. -/
def tokens (s : List Chunk) : List (String × E_Token × Nat) :=
  (s.filter (fun c => !c.IsNewline)).map (fun c => (c.text, c.type, c.level))

/-- The stream of an outcome. -/
def Outcome.state : Outcome → State
  | Outcome.ok st _ => st
  | Outcome.fatal st => st

/-- An observation of the stream that neither primitive of the formatter changes. -/
structure Stable {α : Type} (f : List Chunk → α) : Prop where
  nl : ∀ s pc, f (newline_add_before s pc) = f s
  re : ∀ s pc col, f (reindent_line s pc col) = f s

/-- An observation that the two formatter passes of the one-liner branch leave alone. -/
structure ExtStable {α : Type} (f : List Chunk → α) (ext : Ext) : Prop where
  undo : ∀ s i, f (ext.undo_one_liner s i).1 = f s
  cleanup : ∀ s i, f (ext.newlines_cleanup_braces s i).1 = f s

/-- The test under which the loop of `do_code_width` calls `split_line` on the chunk at
`i`: not a comment, newline or space, past the width, and not a virtual brace close that
ends its line. -/
def offending (cfg : Config) (s : List Chunk) (i : Nat) : Bool :=
  let c := chunkAt s i
  !c.IsCommentOrNewline && c.type != CT_SPACE && is_past_width cfg c
    && !(c.type == CT_VBRACE_CLOSE && IsLastChunkOnLine s i)

/-- The texts of a stream, in order. -/
def texts (s : List Chunk) : List String := s.map (fun c => c.text)

/-- The kinds of a stream, in order. -/
def kinds (s : List Chunk) : List E_Token := s.map (fun c => c.type)

/-- What a finished run is compared on: the texts of the stream and the change counter. -/
def summary (r : Option State) : Option (List String × Nat) :=
  r.map (fun st => (texts st.chunks, st.changes))

/-- The chunk at `i` lies on the line segment that the backward scan from `start` visits:
it is before `start` and no newline stands from it up to `start`. -/
def on_line (s : List Chunk) (start i : Nat) : Prop :=
  i < start ∧ ∀ j, j < start → i ≤ j → (chunkAt s j).IsNewline = false

instance (s : List Chunk) (start i : Nat) : Decidable (on_line s start i) := by
  unfold on_line; infer_instance

/-- An acceptable candidate of the scan from `start`: a chunk of the scanned line segment
that passes the rejection filters of the scorer. -/
def candidate (cfg : Config) (s : List Chunk) (start i : Nat) : Prop :=
  on_line s start i ∧ passes_filters cfg s i = true

instance (cfg : Config) (s : List Chunk) (start i : Nat) :
    Decidable (candidate cfg s start i) := by
  unfold candidate; infer_instance

/-- The table priority of the chunk at `i`. -/
def priAt (s : List Chunk) (i : Nat) : Nat := get_split_pri (chunkAt s i).type

/-- The record of the scan is sound when `k` chunks remain: a recorded chunk is an acceptable
candidate at or after `k`, recorded with its table priority. -/
def ValidEnt (cfg : Config) (s : List Chunk) (start k : Nat) (ent : cw_entry) : Prop :=
  ∀ e, ent.pc = some e → k ≤ e ∧ candidate cfg s start e ∧ ent.pri = priAt s e

/-- The property that the scan keeps in strict mode when all candidates share one level:
the record is sound, it is empty only if no candidate was met, and a recorded chunk has
the least priority of the candidates met. -/
def MinPri (cfg : Config) (s : List Chunk) (start k : Nat) (ent : cw_entry) : Prop :=
  ValidEnt cfg s start k ent
  ∧ (ent.pc = none → ∀ x, k ≤ x → ¬ candidate cfg s start x)
  ∧ (∀ e, ent.pc = some e → ∀ x, k ≤ x → candidate cfg s start x → priAt s e ≤ priAt s x)

/-- The property that the scan keeps in strict mode once it has passed the candidate `a`:
the record is sound and, from `a` on, holds a chunk that is not deeper than `a`. -/
def NotDeeper (cfg : Config) (s : List Chunk) (start a k : Nat) (ent : cw_entry) : Prop :=
  ValidEnt cfg s start k ent
  ∧ (k ≤ a → ∃ e, ent.pc = some e ∧ (chunkAt s e).level ≤ (chunkAt s a).level)

/-- A chunk with its column forgotten. -/
def noCol (c : Chunk) : Chunk := { c with column := 0 }

/-- The position at which the positional policy of `split_line` puts the newline for the
candidate at `e`: before the candidate under the `pos_xxx` lead rules, else after it. -/
def break_pos (cfg : Config) (s : List Chunk) (e : Nat) : Nat :=
  if breaks_before cfg (chunkAt s e) then e else e + 1

/-- The stream `s` with one new newline chunk at position `k`, right after the chunk at
`k - 1`. -/
def with_newline_at (s : List Chunk) (k : Nat) : List Chunk :=
  s.take k ++ mkNewline (chunkAt s (k - 1)) :: s.drop k

/-- The dispatch of `split_line` goes straight to the backward scan: `start` is no one-liner
and either `ls_code_width` is on or `start` is in no for statement, function or template. -/
def straight_to_scan (cfg : Config) (c : Chunk) : Prop :=
  c.flags.one_liner = false
  ∧ (cfg.ls_code_width = true
    ∨ (c.flags.in_for = false ∧ in_func_split c = false ∧ c.flags.in_template = false))

instance (cfg : Config) (c : Chunk) : Decidable (straight_to_scan cfg c) := by
  unfold straight_to_scan; infer_instance

/-- The kinds of the stream a finished run ends with. -/
def final_kinds (r : Option State) : Option (List E_Token) :=
  r.map (fun st => kinds st.chunks)

/-- The number of places in a sequence of kinds where a newline directly follows a comma or
an assignment. -/
def count_nl_after : List E_Token → Nat
  | a :: b :: rest =>
    (if (a == CT_COMMA || a == CT_ASSIGN) && (b == CT_NEWLINE || b == CT_NL_CONT) then 1 else 0)
      + count_nl_after (b :: rest)
  | _ => 0

/-- The number of newline chunks of a stream that directly follow a comma or an
assignment. -/
def nl_after_comma_assign (s : List Chunk) : Nat := count_nl_after (kinds s)

/-- The kinds listed in `pri_table`. -/
def listed_kinds : List E_Token := pri_table.map (fun e => e.1)

/-- The stream `s` with the newline chunk that `newline_add_before` makes put at position
`pc`. -/
def with_newline_before (s : List Chunk) (pc : Nat) : List Chunk :=
  s.take pc ++ mkNewline (chunkAt s (GetPrev s pc)) :: s.drop pc

/-- The continuation column to which `split_before_chunk` reindents a chunk:
`c.brace_level * indent_columns + |indent_continue| + 1` as a `size_t` (64 bits). -/
def continuation_col (cfg : Config) (c : Chunk) : Nat :=
  (c.brace_level * cfg.indent_columns + cfg.indent_continue.natAbs + 1) % 2 ^ 64

/-- The kinds before which the fallback of `split_line` does not break, as the spec lists
them: any open or close paren, angle close, brace close, comma, semicolon. -/
def no_break_before_kinds : List E_Token :=
  [ CT_PAREN_OPEN, CT_PAREN_CLOSE, CT_FPAREN_OPEN, CT_FPAREN_CLOSE, CT_SPAREN_OPEN,
    CT_SPAREN_CLOSE, CT_ANGLE_CLOSE, CT_BRACE_CLOSE, CT_COMMA, CT_SEMICOLON, CT_VSEMICOLON ]

/-- Follows the spec, section 4.8 step 3: "If `ls_func_split_full` is on, call the full
splitter; if now fits, return `start`.  Otherwise call the greedy splitter and return
whatever chunk it indicates for resumption." -/
def func_split_by_spec (cfg : Config) (st : State) (start : Nat) : Outcome :=
  if cfg.ls_func_split_full then
    let r := split_fcn_params_full cfg st start
    if is_past_width cfg (chunkAt r.1.chunks r.2) then split_fcn_params cfg r.1 r.2
    else Outcome.ok r.1 r.2
  else split_fcn_params cfg st start

/-- The column to which `split_template` reindents the chunk after the comma:
`1 + (indent_continue == 0 ? indent_columns : |indent_continue|)`. -/
def template_col (cfg : Config) : Nat :=
  1 + (if cfg.indent_continue = 0 then cfg.indent_columns else cfg.indent_continue.natAbs)

/-- The chunk at `j` is a newline or a comma, where the backward walk of `split_template`
stops. -/
def template_stop (s : List Chunk) (j : Nat) : Bool :=
  (chunkAt s j).IsNewline || (chunkAt s j).type == CT_COMMA

/-- The property that the scan keeps in strict mode when all candidates share one level:
`MinPri`, and the recorded chunk is the one nearest to `start` among the candidates met
that have its priority. -/
def LatestMin (cfg : Config) (s : List Chunk) (start k : Nat) (ent : cw_entry) : Prop :=
  MinPri cfg s start k ent
  ∧ (∀ e, ent.pc = some e → ∀ x, k ≤ x → candidate cfg s start x →
      priAt s x = priAt s e → x ≤ e)

/-- Follows the claim on the acceptance rule of the scorer, for a chunk `c` that passes the
filters: the record is replaced "if and only if best.chunk is null, or c.level <
best.chunk.level, or c.level == best.chunk.level and priority(c) < best.priority". -/
def replaces_by_spec (s : List Chunk) (best : cw_entry) (c : Nat) : Bool :=
  match best.pc with
  | none => true
  | some e =>
    decide ((chunkAt s c).level < (chunkAt s e).level)
    || (decide ((chunkAt s c).level = (chunkAt s e).level) && decide (priAt s c < best.pri))

/-- Follows the claim on the semicolons of `split_for_stmt`: at most `N` semicolons whose
parent is the for statement (`N` is 2 if `ls_for_split_full`, else 1), "taking start itself
first if it is such a semicolon, then scanning backward from start while IN_SPAREN is set,
then forward from start while IN_SPAREN is set". -/
def semis_by_spec (cfg : Config) (s : List Chunk) (start : Nat) : List Nat :=
  let n := if cfg.ls_for_split_full then 2 else 1
  let in_sparen := fun j => (chunkAt s j).flags.in_sparen
  let for_semi := fun j => is_for_semi (chunkAt s j)
  let self := if is_for_semi (chunkAt s start) then [start] else []
  let backward := ((List.range start).reverse.takeWhile in_sparen).filter for_semi
  let forward :=
    ((List.range' (start + 1) (s.length - (start + 1))).takeWhile in_sparen).filter for_semi
  (self ++ backward ++ forward).take n

/-- A statement open paren precedes the chunk `start` of the stream. -/
def sparen_open_before (s : List Chunk) (start : Nat) : Prop :=
  start < s.length ∧ ∃ j, j < start ∧ (chunkAt s j).type = CT_SPAREN_OPEN

instance (s : List Chunk) (start : Nat) : Decidable (sparen_open_before s start) := by
  unfold sparen_open_before; infer_instance

/-- The array and its counter hold the list `semis`: `st[0 .. count-1]` are its entries. -/
def HoldsSemis (ac : SemiArray × Nat) (semis : List Nat) : Prop :=
  ac.2 = semis.length ∧ ∀ i, i < ac.2 → ac.1.get i = semis[i]?

/-- The position of the chunk at `p` once a chunk has been inserted right after the chunk
at `q`. -/
def shift_after (q p : Nat) : Nat := if q < p then p + 1 else p

/-- Follows the claim on the decision step of the greedy splitter, at a comma or function
paren `c` (the chunk at the cursor): it "only records c as the next splitpoint (when c is a
comma or an open paren not directly followed by its close paren) if splitpoint is null, or
c is not past width and (c is not fpc or added_newlines > 0); otherwise it inserts a
newline directly after the recorded splitpoint unless one is already there, reindents the
chunk after it to min_col, increments the change counter and added_newlines, and resumes
the iteration at splitpoint".  The result is the loop variables at the next iteration, which
after a resumption is on the chunk after `splitpoint`. -/
def greedy_decision_by_spec (cfg : Config) (g : Greedy) : Greedy :=
  let s := g.st.chunks
  let c := chunkAt s g.pc
  let min_col := next_min_col cfg s g.pc g.min_col
  let records : Bool :=
    match g.splitpoint with
    | none => true
    | some _ =>
      !is_past_width cfg c && (decide (g.pc ≠ g.fpc) || decide (0 < g.added_newlines))
  let recordable : Bool :=
    c.type == CT_COMMA
    || (c.type == CT_FPAREN_OPEN && (chunkAt s (g.pc + 1)).type != CT_FPAREN_CLOSE)
  match records, g.splitpoint with
  | false, some sp =>
    if (chunkAt s (sp + 1)).IsNewline then { g with pc := sp + 1, min_col := min_col }
    else
      { st := { chunks := reindent_line (with_newline_at s (sp + 1)) (sp + 2) min_col,
                changes := g.st.changes + 1 },
        pc := sp + 1, endp := shift_after sp g.endp, fpc := shift_after sp g.fpc,
        start := shift_after sp g.start, splitpoint := some sp, min_col := min_col,
        added_newlines := g.added_newlines + 1 }
  | _, _ =>
    { g with pc := g.pc + 1,
             splitpoint := if recordable then some g.pc else g.splitpoint,
             min_col := min_col }

/-- From state `st` to state `st1` the change counter has grown by exactly the number of
chunks that the stream has gained. -/
def Balanced (st st1 : State) : Prop :=
  st1.changes + st.chunks.length = st.changes + st1.chunks.length

/-- The kinds after which the greedy splitter puts a newline: a comma or a function open
paren. -/
def splittable_kind (c : Chunk) : Bool :=
  c.type == CT_COMMA || c.type == CT_FPAREN_OPEN

/-- What the loop of `split_fcn_params_greedy` keeps true of its variables: the cursor is at
or before `end`, which is in the stream or its end; a recorded splitpoint is a comma or a
function open paren at or before the cursor, and the chunks strictly between it and the
cursor are neither newlines nor places that the loop would record. -/
structure GreedyInv (g : Greedy) : Prop where
  pc_le : g.pc ≤ g.endp
  endp_le : g.endp ≤ g.st.chunks.length
  sp_le : ∀ q, g.splitpoint = some q → q ≤ g.pc
  sp_kind : ∀ q, g.splitpoint = some q → splittable_kind (chunkAt g.st.chunks q) = true
  gap : ∀ q, g.splitpoint = some q → ∀ j, q < j → j < g.pc →
    (chunkAt g.st.chunks j).IsNewline = false ∧ ok_to_split_at g.st.chunks j = false

/-- The number of newline chunks of a stream. -/
def newline_count (s : List Chunk) : Nat := (s.filter (fun c => c.IsNewline)).length

/-- The iteration of the loop of `do_code_width` at `d` calls `split_line` on a chunk that
carries the `ONE_LINER` flag. -/
def splits_one_liner (cfg : Config) (d : Driver) : Bool :=
  decide (d.status = Status.running) && decide (d.pc < d.st.chunks.length)
    && offending cfg d.st.chunks d.pc && (chunkAt d.st.chunks d.pc).flags.one_liner

/-- No chunk of the stream carries the `ONE_LINER` flag. -/
def no_one_liner (s : List Chunk) : Bool := s.all (fun c => !c.flags.one_liner)

/-- The number of commas and function open parens among the `n` chunks from position
`lo` on. -/
def count_splittable (s : List Chunk) (lo : Nat) : Nat → Nat
  | 0 => 0
  | n + 1 => (if splittable_kind (chunkAt s lo) then 1 else 0) + count_splittable s (lo + 1) n

/-- The number of commas and function open parens at the positions from `lo` up to, not
including, `hi`. -/
def splittable_between (s : List Chunk) (lo hi : Nat) : Nat := count_splittable s lo (hi - lo)

/-- The position below which the loop of `split_fcn_params_greedy` does not go back: the
recorded splitpoint, or the cursor when none is recorded. -/
def greedy_low (g : Greedy) : Nat :=
  match g.splitpoint with
  | some q => q
  | none => g.pc

/-- A bound under every splitpoint from which the loop resumes from now on. -/
def greedy_lb (g : Greedy) : Nat :=
  if (chunkAt g.st.chunks g.pc).IsNewline then g.pc + 1 else greedy_low g

/-- A bound on the number of iterations that the loop of `split_fcn_params_greedy` has
left: two for every chunk from the cursor to `end`, one for every chunk from the recorded
splitpoint to the cursor, two for every comma or function open paren from there on. -/
def greedy_measure (g : Greedy) : Nat :=
  2 * (g.endp - g.pc) + (g.pc - greedy_low g)
    + 2 * splittable_between g.st.chunks (greedy_low g) g.endp

/-- What the loop of `split_fcn_params_greedy` keeps true of `fpc` and `end`: `fpc` is a
function close paren of the stream and `end` is the position after it. -/
structure GreedyEnd (g : Greedy) : Prop where
  fpc_lt : g.fpc < g.st.chunks.length
  endp_eq : g.endp = g.fpc + 1
  fpc_kind : (chunkAt g.st.chunks g.fpc).type = CT_FPAREN_CLOSE

/-- What a finished run `gf`, with resumption points `l`, has done since the loop variables
were `g`: every added newline is one chunk more, there are no more of them than commas and
function open parens from `greedy_low g` to `end`, and the resumption points are at or
after `greedy_lb g` and strictly increasing. -/
structure GreedyPost (g gf : Greedy) (l : List Nat) : Prop where
  finished : gf.pc = gf.endp
  inserted : gf.added_newlines + g.st.chunks.length = g.added_newlines + gf.st.chunks.length
  counted : gf.st.changes + g.added_newlines = g.st.changes + gf.added_newlines
  bounded : gf.added_newlines
    ≤ g.added_newlines + splittable_between g.st.chunks (greedy_low g) g.endp
  above : ∀ x ∈ l, greedy_lb g ≤ x
  increasing : l.Pairwise (fun a b => a < b)

/-! ## Concrete streams and option settings -/

/-- A one-liner pair that changes nothing, for the concrete runs below (none of their
chunks is a one-liner). -/
def idExt : Ext :=
  { undo_one_liner := fun s i => (s, i), newlines_cleanup_braces := fun s i => (s, i) }

/-- A chunk at brace level 0 with no flag set. -/
def tok (t : E_Token) (text : String) (column : Nat) (level : Nat := 0)
    (parent_type : E_Token := CT_NONE) : Chunk :=
  { type := t, parent_type := parent_type, text := text, column := column, level := level }

/-- A chunk inside the parentheses of a `for` statement: level 1, `PCF_IN_FOR` and
`PCF_IN_SPAREN` set. -/
def for_tok (t : E_Token) (text : String) (column : Nat) (parent_type : E_Token := CT_NONE) :
    Chunk :=
  { type := t, parent_type := parent_type, text := text, column := column, level := 1,
    flags := { in_for := true, in_sparen := true } }

/-- Width 12, indent 8, strict mode. -/
def cfg12 : Config := { code_width := 12 }

/-- Width 20, indent 8, strict mode, every other option at its default. -/
def cfg20 : Config := { code_width := 20 }

/-- Relaxed mode at width 20: `ls_code_width` on. -/
def cfg20_relaxed : Config := { code_width := 20, ls_code_width := true }

/-- Lead placement for arithmetic operators at width 20, strict mode. -/
def cfg20_lead : Config := { code_width := 20, pos_arith_lead := true }

/-- Width 22, indent 8, strict mode. -/
def cfg22 : Config := { code_width := 22 }

/-- Relaxed mode at width 12: `ls_code_width` on. -/
def cfg12_relaxed : Config := { code_width := 12, ls_code_width := true }

/-- The line `x, y = cccccccccccccccccccc` (the last word is 20 columns wide). -/
def idem_in : List Chunk :=
  [ tok CT_WORD "x" 1, tok CT_COMMA "," 2, tok CT_WORD "y" 4, tok CT_ASSIGN "=" 6,
    tok CT_WORD "cccccccccccccccccccc" 8 ]

/-- The line `x, y = c` of `idem_in` with `y` at brace level `2 ^ 61`, where the product
`brace_level * indent_columns` no longer fits a `size_t`. -/
def deep_in : List Chunk :=
  [ tok CT_WORD "x" 1, tok CT_COMMA "," 2, { tok CT_WORD "y" 4 with brace_level := 2 ^ 61 },
    tok CT_ASSIGN "=" 6, tok CT_WORD "cccccccccccccccccccc" 8 ]

/-- The line `void f() LONGATTRIBUTE;`, a function prototype whose semicolon has the
prototype as parent. -/
def proto_in : List Chunk :=
  [ tok CT_TYPE "void" 1, tok CT_FUNC_PROTO "f" 6, tok CT_FPAREN_OPEN "(" 7 0 CT_FUNC_PROTO,
    tok CT_FPAREN_CLOSE ")" 8 0 CT_FUNC_PROTO, tok CT_WORD "LONGATTRIBUTE" 10,
    tok CT_SEMICOLON ";" 23 0 CT_FUNC_PROTO ]

/-- The call `f(aaaaaaaaaaaa, b);` at brace level 0; the chunks between the parentheses
carry `PCF_IN_FCN_CALL` and level 1. -/
def call_in : List Chunk :=
  [ tok CT_FUNC_CALL "f" 1, tok CT_FPAREN_OPEN "(" 2 0 CT_FUNC_CALL,
    { tok CT_WORD "aaaaaaaaaaaa" 3 1 with flags := { in_fcn_call := true } },
    { tok CT_COMMA "," 15 1 with flags := { in_fcn_call := true } },
    { tok CT_WORD "b" 17 1 with flags := { in_fcn_call := true } },
    tok CT_FPAREN_CLOSE ")" 18 0 CT_FUNC_CALL, tok CT_SEMICOLON ";" 19 ]

/-- The prototype `int ffffffffffffffff();`, the semicolon has the prototype as parent. -/
def empty_in : List Chunk :=
  [ tok CT_TYPE "int" 1, tok CT_FUNC_PROTO "ffffffffffffffff" 5,
    tok CT_FPAREN_OPEN "(" 21 0 CT_FUNC_PROTO, tok CT_FPAREN_CLOSE ")" 22 0 CT_FUNC_PROTO,
    tok CT_SEMICOLON ";" 23 0 CT_FUNC_PROTO ]

/-- The line `a = "ssssssssssssssssss";`. -/
def str_in : List Chunk :=
  [ tok CT_WORD "a" 1, tok CT_ASSIGN "=" 3, tok CT_STRING "\"ssssssssssssssssss\"" 5,
    tok CT_SEMICOLON ";" 25 ]

/-- The line `"ab" "cd" "eeeeeeeeeeeeeeeee"` of three adjacent string literals. -/
def concat_in : List Chunk :=
  [ tok CT_STRING "\"ab\"" 1, tok CT_STRING "\"cd\"" 6,
    tok CT_STRING "\"eeeeeeeeeeeeeeeee\"" 11 ]

/-- The line `x = (b, c) dddddddddddddddddddddd`: the comma is at level 1, the assignment at
level 0, and the last word, at position 7, is past the width. -/
def paren_in : List Chunk :=
  [ tok CT_WORD "x" 1, tok CT_ASSIGN "=" 3, tok CT_PAREN_OPEN "(" 5, tok CT_WORD "b" 6 1,
    tok CT_COMMA "," 7 1, tok CT_WORD "c" 9 1, tok CT_PAREN_CLOSE ")" 10,
    tok CT_WORD "dddddddddddddddddddddd" 12 ]

/-- The line `(b, c) = dddddddddddddddddddddd`: the comma, at level 1, comes before the
assignment, at level 0; the last word, at position 6, is past the width. -/
def paren_first_in : List Chunk :=
  [ tok CT_PAREN_OPEN "(" 1, tok CT_WORD "b" 2 1, tok CT_COMMA "," 3 1, tok CT_WORD "c" 5 1,
    tok CT_PAREN_CLOSE ")" 6, tok CT_ASSIGN "=" 8, tok CT_WORD "dddddddddddddddddddddd" 10 ]

/-- The line `r = aaaaaaaa + bbbbbbbbbbbb`, the last word, at position 4, past the width. -/
def arith_in : List Chunk :=
  [ tok CT_WORD "r" 1, tok CT_ASSIGN "=" 3, tok CT_WORD "aaaaaaaa" 5, tok CT_ARITH "+" 14,
    tok CT_WORD "bbbbbbbbbbbb" 16 ]

/-- The header `for (i = 0, j = 1; i < nnnnnnnnnnnn; ++i)`; the comparison, at position 11,
is the first chunk past width 20. -/
def for_in : List Chunk :=
  [ tok CT_FOR "for" 1, tok CT_SPAREN_OPEN "(" 5 0 CT_FOR,
    for_tok CT_WORD "i" 6, for_tok CT_ASSIGN "=" 8, for_tok CT_OTHER "0" 10,
    for_tok CT_COMMA "," 11, for_tok CT_WORD "j" 13, for_tok CT_ASSIGN "=" 15,
    for_tok CT_OTHER "1" 17, for_tok CT_SEMICOLON ";" 18 CT_FOR,
    for_tok CT_WORD "i" 20, for_tok CT_COMPARE "<" 22, for_tok CT_WORD "nnnnnnnnnnnn" 24,
    for_tok CT_SEMICOLON ";" 36 CT_FOR, for_tok CT_OTHER "++" 38, for_tok CT_WORD "i" 40,
    tok CT_SPAREN_CLOSE ")" 41 0 CT_FOR ]

/-- The line `aaaaaaaaaaaaaaaaaaaa;` (the semicolon, at position 1, is past width 20 and
nothing before it is a candidate), a newline, and the line `x = yyyyyyyyyyyyyyyyyyyy`. -/
def nogo_in : List Chunk :=
  [ tok CT_WORD "aaaaaaaaaaaaaaaaaaaa" 1, tok CT_SEMICOLON ";" 21, tok CT_NEWLINE "\n" 22,
    tok CT_WORD "x" 1, tok CT_ASSIGN "=" 3, tok CT_WORD "yyyyyyyyyyyyyyyyyyyy" 5 ]

/-- The template header `template<typename AAAA, typename BBBB>`; the last word, at
position 5, is past width 20. -/
def template_in : List Chunk :=
  [ tok CT_OTHER "template" 1, tok CT_OTHER "<" 9, tok CT_TYPENAME "typename" 10 1,
    tok CT_WORD "AAAA" 19 1, tok CT_COMMA "," 23 1, tok CT_TYPENAME "typename" 25 1,
    tok CT_WORD "BBBB" 34 1, tok CT_ANGLE_CLOSE ">" 38 ]

/-- The call `f(aaaa, bbbb, cccc);` at brace level 0; the chunks between the parentheses
carry `PCF_IN_FCN_CALL` and level 1. -/
def call3_in : List Chunk :=
  [ tok CT_FUNC_CALL "f" 1, tok CT_FPAREN_OPEN "(" 2 0 CT_FUNC_CALL,
    { tok CT_WORD "aaaa" 3 1 with flags := { in_fcn_call := true } },
    { tok CT_COMMA "," 7 1 with flags := { in_fcn_call := true } },
    { tok CT_WORD "bbbb" 9 1 with flags := { in_fcn_call := true } },
    { tok CT_COMMA "," 13 1 with flags := { in_fcn_call := true } },
    { tok CT_WORD "cccc" 15 1 with flags := { in_fcn_call := true } },
    tok CT_FPAREN_CLOSE ")" 19 0 CT_FUNC_CALL, tok CT_SEMICOLON ";" 20 ]

/-- The line `r = aaaa + bbbb + cccccccc`: two `+` at level 0, at positions 3 and 5; the last
word, at position 6, is past width 20. -/
def sum_in : List Chunk :=
  [ tok CT_WORD "r" 1, tok CT_ASSIGN "=" 3, tok CT_WORD "aaaa" 5, tok CT_ARITH "+" 10,
    tok CT_WORD "bbbb" 12, tok CT_ARITH "+" 17, tok CT_WORD "cccccccc" 19 ]

/-- Width 20, strict mode, `ls_for_split_full` on. -/
def cfg20_for_full : Config := { code_width := 20, ls_for_split_full := true }

/-- The loop variables of `split_fcn_params_greedy` on `f(aaaaaaaaaaaa, b);` when the
cursor is on the comma: the open paren is the recorded splitpoint. -/
def greedy_at_comma : Greedy :=
  { st := ⟨call_in, 0⟩, pc := 3, endp := 6, fpc := 5, start := 3, splitpoint := some 1,
    min_col := 9, added_newlines := 0 }

/-! ## Frame lemmas: what no splitter changes -/

theorem tokens_append (a b : List Chunk) : tokens (a ++ b) = tokens a ++ tokens b := by
  simp [tokens]

theorem tokens_cons (c : Chunk) (l : List Chunk) :
    tokens (c :: l)
      = (if c.IsNewline then [] else [(c.text, c.type, c.level)]) ++ tokens l := by
  cases h : c.IsNewline <;> simp [tokens, h]

theorem tokens_cons_newline (c : Chunk) (l : List Chunk) (h : c.IsNewline = true) :
    tokens (c :: l) = tokens l := by
  simp [tokens_cons, h]

theorem mkNewline_IsNewline (p : Chunk) : (mkNewline p).IsNewline = true := by
  simp [mkNewline, Chunk.IsNewline]

theorem tokens_newline_add_before (s : List Chunk) (pc : Nat) :
    tokens (newline_add_before s pc) = tokens s := by
  unfold newline_add_before
  split
  · rfl
  · rw [tokens_append, tokens_cons_newline _ _ (mkNewline_IsNewline _), ← tokens_append,
      List.take_append_drop]

theorem tokens_set_column (c : Chunk) (col : Nat) (l : List Chunk) :
    tokens ({ c with column := col } :: l) = tokens [c] ++ tokens l := by
  rw [tokens_cons, tokens_cons c]
  simp [Chunk.IsNewline, tokens]

theorem tokens_shiftLine (d : Int) (l : List Chunk) : tokens (shiftLine d l) = tokens l := by
  induction l with
  | nil => rfl
  | cons c rest ih =>
    unfold shiftLine
    split
    · rfl
    · rw [tokens_set_column, ih, ← tokens_append]; rfl

theorem chunkAt_eq_getElem (s : List Chunk) (i : Nat) (h : i < s.length) :
    chunkAt s i = s[i] := by
  simp [chunkAt, List.getD, h]

theorem tokens_reindent_line (s : List Chunk) (pc col : Nat) :
    tokens (reindent_line s pc col) = tokens s := by
  unfold reindent_line
  split
  · rename_i h
    have hs : s = s.take pc ++ s[pc] :: s.drop (pc + 1) := by
      simp
    conv_rhs => rw [hs]
    rw [tokens_append, tokens_append, chunkAt_eq_getElem s pc h, tokens_set_column,
      tokens_shiftLine, ← tokens_append]
    rfl
  · rfl

theorem tokens_split_before_chunk (cfg : Config) (st : State) (pc : Nat) :
    tokens (split_before_chunk cfg st pc).chunks = tokens st.chunks := by
  unfold split_before_chunk
  split
  · simp only [tokens_reindent_line, tokens_newline_add_before]
  · rfl

theorem tokens_stable : Stable tokens :=
  ⟨tokens_newline_add_before, tokens_reindent_line⟩

section stable
variable {α : Type} {f : List Chunk → α} (hf : Stable f)
include hf

theorem stable_split_before_chunk (cfg : Config) (st : State) (pc : Nat) :
    f (split_before_chunk cfg st pc).chunks = f st.chunks := by
  unfold split_before_chunk
  split
  · simp only [hf.re, hf.nl]
  · rfl

theorem stable_split_line_generic (cfg : Config) (st : State) (start : Nat) :
    f (split_line_generic cfg st start).1.chunks = f st.chunks := by
  unfold split_line_generic
  simp only
  split <;> (repeat' split) <;> simp [stable_split_before_chunk hf]

theorem stable_split_semis (cfg : Config) (l : List Nat) (g : Nat → Nat) (st : State) :
    f (split_semis cfg l g st).1.chunks = f st.chunks := by
  induction l generalizing g st with
  | nil => rfl
  | cons p rest ih =>
    simp only [split_semis]
    rw [ih, stable_split_before_chunk hf]

theorem stable_for_scan (cfg : Config) (tok : E_Token) (fuel : Nat) (st : State)
    (op pc start : Nat) :
    f (for_scan cfg tok fuel st op pc start).1.chunks = f st.chunks := by
  induction fuel generalizing st op pc start with
  | zero => rfl
  | succ n ih =>
    simp only [for_scan]
    split
    · rfl
    · split
      · split
        · simp [stable_split_before_chunk hf]
        · rw [ih, stable_split_before_chunk hf]
      · rw [ih]

theorem stable_split_for_semis (cfg : Config) (st : State) (start : Nat) :
    f (split_for_semis cfg st start).1.chunks = f st.chunks := by
  unfold split_for_semis
  simp only
  split
  · rfl
  · simp [stable_split_semis hf]

theorem stable_split_for_stmt (cfg : Config) (st : State) (start : Nat) :
    f (split_for_stmt cfg st start).1.chunks = f st.chunks := by
  have h := stable_split_for_semis hf cfg st start
  unfold split_for_stmt
  split
  · rename_i e; rw [e] at h; exact h
  · rename_i e; rw [e] at h
    simp only
    split
    · exact h
    · split
      · rw [stable_for_scan hf, h]
      · rw [stable_for_scan hf, stable_for_scan hf, h]

theorem stable_full_loop (cfg : Config) (fuel : Nat) (st : State) (fpo pc start : Nat) :
    f (full_loop cfg fuel st fpo pc start).1.chunks = f st.chunks := by
  induction fuel generalizing st fpo pc start with
  | zero => rfl
  | succ n ih =>
    simp only [full_loop]
    repeat' split
    · rfl
    · rfl
    · rw [ih, stable_split_before_chunk hf]
    · rw [ih]

theorem stable_split_fcn_params_full (cfg : Config) (st : State) (start : Nat) :
    f (split_fcn_params_full cfg st start).1.chunks = f st.chunks := by
  unfold split_fcn_params_full
  simp only [stable_full_loop hf]

theorem stable_greedy_loop (cfg : Config) (fuel : Nat) (st : State)
    (pc endp fpc start : Nat) (sp : Option Nat) (min_col added : Nat) :
    f (greedy_loop cfg fuel st pc endp fpc start sp min_col added).1.chunks = f st.chunks := by
  induction fuel generalizing st pc endp fpc start sp min_col added with
  | zero => rfl
  | succ n ih =>
    simp only [greedy_loop]
    repeat' split
    all_goals first
      | rfl
      | (rw [ih]; done)
      | (rw [ih]; simp only [hf.re, hf.nl])

theorem stable_split_fcn_params_greedy (cfg : Config) (st : State) (fpo fpc start : Nat) :
    f (split_fcn_params_greedy cfg st fpo fpc start).1.chunks = f st.chunks := by
  unfold split_fcn_params_greedy
  simp only [stable_greedy_loop hf]

theorem stable_split_template (cfg : Config) (st : State) (start : Nat) :
    f (split_template cfg st start).1.chunks = f st.chunks := by
  unfold split_template
  simp only
  split_ifs <;> simp only [hf.re, hf.nl]

theorem stable_split_fcn_params (cfg : Config) (st : State) (start : Nat) :
    f (split_fcn_params cfg st start).state.chunks = f st.chunks := by
  unfold split_fcn_params
  simp only
  repeat' split
  all_goals simp [Outcome.state, stable_split_fcn_params_greedy hf]

end stable

theorem stable_split_line {α : Type} {f : List Chunk → α} (hf : Stable f) (cfg : Config)
    (ext : Ext) (he : ExtStable f ext) (st : State) (start : Nat) :
    f (split_line cfg ext st start).state.chunks = f st.chunks := by
  unfold split_line
  simp only
  split_ifs
  all_goals first
    | rw [stable_split_fcn_params hf, stable_split_fcn_params_full hf]
    | rw [stable_split_fcn_params hf]
    | simp only [Outcome.state, he.undo, he.cleanup, stable_split_line_generic hf,
        stable_split_for_stmt hf, stable_split_fcn_params_full hf, stable_split_template hf]

theorem stable_do_code_width_step {α : Type} {f : List Chunk → α} (hf : Stable f)
    (cfg : Config) (ext : Ext) (he : ExtStable f ext) (d : Driver) :
    f (do_code_width_step cfg ext d).st.chunks = f d.st.chunks := by
  unfold do_code_width_step
  have h := stable_split_line hf cfg ext he d.st d.pc
  split
  · simp only
    split_ifs
    · rfl
    · rfl
    · split
      · rename_i e; rw [e] at h; exact h
      · rename_i e; rw [e] at h; exact h
    · rfl
  · rfl

theorem stable_do_code_width_run {α : Type} {f : List Chunk → α} (hf : Stable f)
    (cfg : Config) (ext : Ext) (he : ExtStable f ext) (st : State) (n : Nat) :
    f (do_code_width_run cfg ext st n).st.chunks = f st.chunks := by
  induction n with
  | zero => rfl
  | succ n ih =>
    unfold do_code_width_run at ih ⊢
    rw [Function.iterate_succ_apply', stable_do_code_width_step hf cfg ext he, ih]

/-- C1. Token preservation: when the two one-liner passes keep the token sequence (their
contract), the sequence of non-newline chunks (text, kind, level) is the same after every
iteration of the loop of `do_code_width` as before the pass, and so in the final stream. -/
theorem C1_token_preservation (cfg : Config) (ext : Ext) (st : State)
    (hundo : ∀ s i, tokens (ext.undo_one_liner s i).1 = tokens s)
    (hcleanup : ∀ s i, tokens (ext.newlines_cleanup_braces s i).1 = tokens s) :
    (∀ n, tokens (do_code_width_run cfg ext st n).st.chunks = tokens st.chunks)
    ∧ (∀ fuel out, do_code_width cfg ext fuel st = some out →
        tokens out.chunks = tokens st.chunks) := by
  have h := fun n => stable_do_code_width_run tokens_stable cfg ext ⟨hundo, hcleanup⟩ st n
  refine ⟨h, ?_⟩
  intro fuel out hout
  unfold do_code_width at hout
  simp only at hout
  split at hout
  · cases hout
  · cases hout; exact h fuel

theorem C1_token_preservation_witness :
    tokens (do_code_width_run cfg20 idExt ⟨idem_in, 0⟩ 10).st.chunks = tokens idem_in :=
  (C1_token_preservation cfg20 idExt ⟨idem_in, 0⟩ (fun _ _ => rfl) (fun _ _ => rfl)).1 10

theorem run_of_no_offending (cfg : Config) (ext : Ext) (st : State)
    (h : ∀ i, i < st.chunks.length → offending cfg st.chunks i = false) (k : Nat)
    (hk : k ≤ st.chunks.length) :
    do_code_width_run cfg ext st k = { st := st, pc := k } := by
  induction k with
  | zero => rfl
  | succ k ih =>
    have hlt : k < st.chunks.length := hk
    unfold do_code_width_run at ih ⊢
    rw [Function.iterate_succ_apply', ih (Nat.le_of_lt hlt)]
    have hoff := h k hlt
    have hnext : GetNext st.chunks k = k + 1 := by
      unfold GetNext; split <;> omega
    unfold offending at hoff
    simp only at hoff
    unfold do_code_width_step
    simp only [Nat.not_le.mpr hlt, if_false]
    split_ifs with h1 h2
    · rw [hnext]
    · exfalso
      rw [h1] at hoff
      simp only [Bool.true_and, Bool.not_eq_false', Bool.not_eq_true] at hoff
      exact h2 (by simpa using hoff)
    · rw [hnext]

/-- C2, amended. Running `do_code_width` on a stream in which no chunk makes the loop call
`split_line` (none is past the width, but for virtual brace closes ending a line) ends
after one sweep with the stream and the change counter unchanged; so a second run changes
nothing whenever the first one left no such chunk. -/
theorem C2_settled_stream_unchanged (cfg : Config) (ext : Ext) (st : State)
    (h : ∀ i, i < st.chunks.length → offending cfg st.chunks i = false) :
    do_code_width cfg ext (st.chunks.length + 1) st = some st := by
  unfold do_code_width
  have hr := run_of_no_offending cfg ext st h st.chunks.length (Nat.le_refl _)
  have : do_code_width_run cfg ext st (st.chunks.length + 1)
      = { st := st, pc := st.chunks.length, status := Status.finished } := by
    unfold do_code_width_run at hr ⊢
    rw [Function.iterate_succ_apply', hr]
    unfold do_code_width_step
    simp
  rw [this]
  simp

theorem C2_settled_witness :
    do_code_width cfg20 idExt 6 ⟨[tok CT_WORD "x" 1, tok CT_ASSIGN "=" 3, tok CT_WORD "y" 5,
      tok CT_NEWLINE "\n" 6, tok CT_WORD "z" 1], 3⟩
      = some ⟨[tok CT_WORD "x" 1, tok CT_ASSIGN "=" 3, tok CT_WORD "y" 5,
      tok CT_NEWLINE "\n" 6, tok CT_WORD "z" 1], 3⟩ :=
  C2_settled_stream_unchanged cfg20 idExt _ (by decide!)

/-- C2, as stated, fails: on `x, y = cccccccccccccccccccc` (width 20) the first run breaks
after the comma and leaves the long word past the width; a second run on that output breaks
again after `=`, one more newline and one more change. -/
theorem C2_counterexample :
    summary (do_code_width cfg20 idExt 10 ⟨idem_in, 0⟩)
      = some (["x", ",", "\n", "y", "=", "cccccccccccccccccccc"], 1)
    ∧ summary ((do_code_width cfg20 idExt 10 ⟨idem_in, 0⟩).bind (do_code_width cfg20 idExt 10))
      = some (["x", ",", "\n", "y", "=", "\n", "cccccccccccccccccccc"], 2) := by
  decide!

theorem iterate_eventually_periodic {α : Type} (F : α → α) (x : α) (P : α → Prop)
    (a p : Nat) (hp : 0 < p) (hcycle : F^[a + p] x = F^[a] x)
    (hinit : ∀ i, i < a + p → P (F^[i] x)) : ∀ n, P (F^[n] x) := by
  intro n
  induction n using Nat.strong_induction_on with
  | _ n ih =>
    by_cases hn : n < a + p
    · exact hinit n hn
    · have e : F^[n] x = F^[n - p] x := by
        have h1 : n = (n - (a + p)) + (a + p) := by omega
        have h2 : n - p = (n - (a + p)) + a := by omega
        rw [h2, Function.iterate_add_apply, ← hcycle, ← Function.iterate_add_apply, ← h1]
      rw [e]
      exact ih (n - p) (by omega)

/-- C3, on the code: for `void f() LONGATTRIBUTE;` at width 12 the loop of `do_code_width`
never ends.  Once the line is broken before `LONGATTRIBUTE`, `split_line` called on the
semicolon (position 7) goes to `split_fcn_params`, which returns the chunk after the
closing parenthesis (position 5), before the semicolon; the loop walks forward to the
semicolon again, and the state after 8 iterations is the state after 6. -/
theorem C3_driver_never_ends :
    (do_code_width_run cfg12 idExt ⟨proto_in, 0⟩ 7).pc = 7
    ∧ split_line cfg12 idExt (do_code_width_run cfg12 idExt ⟨proto_in, 0⟩ 7).st 7
        = Outcome.ok (do_code_width_run cfg12 idExt ⟨proto_in, 0⟩ 7).st 5
    ∧ ∀ n, (do_code_width_run cfg12 idExt ⟨proto_in, 0⟩ n).status = Status.running := by
  refine ⟨by decide!, by decide!, ?_⟩
  refine iterate_eventually_periodic (do_code_width_step cfg12 idExt)
    { st := ⟨proto_in, 0⟩, pc := 0 } (fun d => d.status = Status.running) 6 2 (by omega) ?_ ?_
  · show do_code_width_run cfg12 idExt ⟨proto_in, 0⟩ 8
      = do_code_width_run cfg12 idExt ⟨proto_in, 0⟩ 6
    decide!
  · intro i hi
    show (do_code_width_run cfg12 idExt ⟨proto_in, 0⟩ i).status = Status.running
    have : i = 0 ∨ i = 1 ∨ i = 2 ∨ i = 3 ∨ i = 4 ∨ i = 5 ∨ i = 6 ∨ i = 7 := by omega
    rcases this with h | h | h | h | h | h | h | h <;> subst h <;> decide!

/-! ## The scorer and the backward scan -/

theorem try_split_here_cases (cfg : Config) (s : List Chunk) (ent : cw_entry) (k : Nat) :
    try_split_here cfg s ent k = ent
    ∨ (passes_filters cfg s k = true
        ∧ try_split_here cfg s ent k = { pc := some k, pri := priAt s k }) := by
  unfold try_split_here
  split
  · rename_i h
    simp only
    split
    · right; exact ⟨h, rfl⟩
    · left; rfl
  · left; rfl

theorem try_split_here_of_not_passes (cfg : Config) (s : List Chunk) (ent : cw_entry) (k : Nat)
    (h : passes_filters cfg s k = false) : try_split_here cfg s ent k = ent := by
  unfold try_split_here
  simp [h]

theorem passes_filters_pri_pos (cfg : Config) (s : List Chunk) (k : Nat)
    (h : passes_filters cfg s k = true) : 0 < priAt s k := by
  unfold passes_filters at h
  simp only at h
  split at h
  · cases h
  · rename_i h0
    unfold priAt
    simp only [beq_iff_eq] at h0
    omega

theorem try_split_here_space (cfg : Config) (s : List Chunk) (ent : cw_entry) (k : Nat)
    (h : (chunkAt s k).type = CT_SPACE) : try_split_here cfg s ent k = ent := by
  apply try_split_here_of_not_passes
  cases hp : passes_filters cfg s k
  · rfl
  · have := passes_filters_pri_pos cfg s k hp
    unfold priAt at this
    rw [h] at this
    exact absurd this (by decide)

theorem ValidEnt_mono (cfg : Config) (s : List Chunk) (start k m : Nat) (ent : cw_entry)
    (hm : m ≤ k) (h : ValidEnt cfg s start k ent) : ValidEnt cfg s start m ent := by
  intro e he
  obtain ⟨h1, h2, h3⟩ := h e he
  exact ⟨by omega, h2, h3⟩

theorem ValidEnt_try (cfg : Config) (s : List Chunk) (start k : Nat) (ent : cw_entry)
    (hk : k < start) (hnl : ∀ j, j < start → k ≤ j → (chunkAt s j).IsNewline = false)
    (h : ValidEnt cfg s start (k + 1) ent) :
    ValidEnt cfg s start k (try_split_here cfg s ent k) := by
  rcases try_split_here_cases cfg s ent k with e | ⟨hp, e⟩
  · rw [e]; exact ValidEnt_mono cfg s start _ _ ent (Nat.le_succ k) h
  · rw [e]
    intro x hx
    simp only [Option.some.injEq] at hx
    subst hx
    exact ⟨Nat.le_refl _, ⟨⟨hk, hnl⟩, hp⟩, rfl⟩

theorem scan_back_valid (cfg : Config) (s : List Chunk) (start : Nat) (k : Nat)
    (ent : cw_entry) (hk : k ≤ start)
    (hnl : ∀ j, j < start → k ≤ j → (chunkAt s j).IsNewline = false)
    (h : ValidEnt cfg s start k ent) :
    ValidEnt cfg s start 0 (scan_back cfg s k ent) := by
  induction k generalizing ent with
  | zero => exact h
  | succ k ih =>
    unfold scan_back
    split
    · exact ValidEnt_mono cfg s start _ _ ent (Nat.zero_le _) h
    · rename_i hn
      have hnl1 : ∀ j, j < start → k ≤ j → (chunkAt s j).IsNewline = false := by
        intro j hj hkj
        by_cases e : j = k
        · subst e; simpa using hn
        · exact hnl j hj (by omega)
      have hv := ValidEnt_try cfg s start k ent hk hnl1 h
      split
      · simp only
        split
        · exact ValidEnt_mono cfg s start _ _ _ (Nat.zero_le _) hv
        · exact ih _ (Nat.le_of_lt hk) hnl1 hv
      · exact ih _ (Nat.le_of_lt hk) hnl1
          (ValidEnt_mono cfg s start _ _ ent (Nat.le_succ k) h)

/-- The candidate that the scan ends with is an acceptable candidate of the scanned line. -/
theorem best_split_candidate (cfg : Config) (s : List Chunk) (start e : Nat)
    (h : best_split cfg s start = some e) : candidate cfg s start e := by
  unfold best_split at h
  split at h
  · have hv := scan_back_valid cfg s start start {} (Nat.le_refl _)
      (fun j hj hji => absurd hj (by omega)) (fun x hx => by cases hx)
    exact (hv e h).2.1
  · cases h

/-- C7, amended. In strict mode (`ls_code_width` off) the candidate chosen by the backward
scan of `split_line` is never a chunk of priority 20 or more (ternary `?`, ternary colon,
function open paren, qualifier kinds): its priority lies between 1 and 19. -/
theorem C7_strict_scan_below_20 (cfg : Config) (s : List Chunk) (start e : Nat)
    (hstrict : cfg.ls_code_width = false) (h : best_split cfg s start = some e) :
    0 < priAt s e ∧ priAt s e < 20 := by
  have hc := (best_split_candidate cfg s start e h).2
  refine ⟨passes_filters_pri_pos cfg s e hc, ?_⟩
  unfold passes_filters at hc
  simp only [hstrict] at hc
  unfold priAt
  by_contra hge
  have hge : 20 ≤ get_split_pri (chunkAt s e).type := by omega
  simp [hge] at hc

/-- C9, amended. When the candidate chosen by the backward scan of `split_line` is a string
literal, the chunk after it is a string literal too, so the newline put after it stands
between two string literals. -/
theorem C9_string_candidate_concat (cfg : Config) (s : List Chunk) (start e : Nat)
    (h : best_split cfg s start = some e) (hstr : (chunkAt s e).type = CT_STRING) :
    (chunkAt s (GetNext s e)).type = CT_STRING := by
  have hc := (best_split_candidate cfg s start e h).2
  unfold passes_filters at hc
  simp only [hstr] at hc
  by_contra hne
  simp [hne] at hc

/-- Induction along the backward scan in strict mode: a property of the record that every
call of the scorer on a non-newline chunk carries from `k + 1` to `k` holds, when the scan
stops, at the start `m` of the scanned line. -/
theorem scan_back_strict_induction (cfg : Config) (s : List Chunk) (start : Nat)
    (hstrict : cfg.ls_code_width = false) (P : Nat → cw_entry → Prop)
    (hstep : ∀ k ent, k < start →
      (∀ j, j < start → k ≤ j → (chunkAt s j).IsNewline = false) →
      P (k + 1) ent → P k (try_split_here cfg s ent k))
    (k : Nat) (ent : cw_entry) (hk : k ≤ start)
    (hnl : ∀ j, j < start → k ≤ j → (chunkAt s j).IsNewline = false) (hP : P k ent) :
    ∃ m, m ≤ k ∧ (m = 0 ∨ (chunkAt s (m - 1)).IsNewline = true)
      ∧ P m (scan_back cfg s k ent) := by
  induction k generalizing ent with
  | zero => exact ⟨0, Nat.le_refl _, Or.inl rfl, hP⟩
  | succ k ih =>
    unfold scan_back
    split
    · rename_i hn
      exact ⟨k + 1, Nat.le_refl _, Or.inr (by simpa using hn), hP⟩
    · rename_i hn
      have hnl1 : ∀ j, j < start → k ≤ j → (chunkAt s j).IsNewline = false := by
        intro j hj hkj
        by_cases e : j = k
        · subst e; simpa using hn
        · exact hnl j hj (by omega)
      have hs := hstep k ent hk hnl1 hP
      split
      · simp only [hstrict, Bool.and_false, Bool.false_eq_true, if_false]
        obtain ⟨m, hm, h1, h2⟩ := ih _ (Nat.le_of_lt hk) hnl1 hs
        exact ⟨m, by omega, h1, h2⟩
      · rename_i hsp
        have hsp : (chunkAt s k).type = CT_SPACE := by simpa using hsp
        rw [try_split_here_space cfg s ent k hsp] at hs
        obtain ⟨m, hm, h1, h2⟩ := ih _ (Nat.le_of_lt hk) hnl1 hs
        exact ⟨m, by omega, h1, h2⟩

/-- Every acceptable candidate lies at or after the start of the scanned line. -/
theorem candidate_ge_line_start (cfg : Config) (s : List Chunk) (start m c : Nat)
    (hm : m ≤ start) (hml : m = 0 ∨ (chunkAt s (m - 1)).IsNewline = true)
    (hc : candidate cfg s start c) : m ≤ c := by
  rcases hml with h0 | hnl
  · omega
  · by_contra hlt
    have := hc.1.2 (m - 1) (by omega) (by omega)
    rw [this] at hnl
    cases hnl

/-- What the scorer does on a chunk that passes the filters when the record is empty. -/
theorem try_split_here_of_passes_none (cfg : Config) (s : List Chunk) (ent : cw_entry)
    (k : Nat) (h : passes_filters cfg s k = true) (hpc : ent.pc = none) :
    try_split_here cfg s ent k = { pc := some k, pri := priAt s k } := by
  unfold try_split_here
  simp [h, hpc, priAt]

/-- What the scorer does on a chunk that passes the filters when the record holds `e`. -/
theorem try_split_here_of_passes_some (cfg : Config) (s : List Chunk) (ent : cw_entry)
    (k e : Nat) (h : passes_filters cfg s k = true) (hpc : ent.pc = some e) :
    try_split_here cfg s ent k =
      if (chunkAt s k).level < (chunkAt s e).level ∨ priAt s k < ent.pri then
        { pc := some k, pri := priAt s k }
      else ent := by
  unfold try_split_here
  simp only [h, if_true, hpc]
  by_cases hl : (chunkAt s k).level < (chunkAt s e).level
  · simp [hl, priAt]
  · by_cases hp : get_split_pri (chunkAt s k).type < ent.pri
    · simp [hl, hp, priAt]
    · simp [hl, hp, priAt]

theorem MinPri_step (cfg : Config) (s : List Chunk) (start : Nat)
    (hlevel : ∀ a b, candidate cfg s start a → candidate cfg s start b →
      (chunkAt s a).level = (chunkAt s b).level)
    (k : Nat) (ent : cw_entry) (hk : k < start)
    (hnl : ∀ j, j < start → k ≤ j → (chunkAt s j).IsNewline = false)
    (h : MinPri cfg s start (k + 1) ent) :
    MinPri cfg s start k (try_split_here cfg s ent k) := by
  obtain ⟨hv, hnone, hsome⟩ := h
  refine ⟨ValidEnt_try cfg s start k ent hk hnl hv, ?_⟩
  cases hp : passes_filters cfg s k with
  | false =>
    rw [try_split_here_of_not_passes cfg s ent k hp]
    have hk_not : ¬ candidate cfg s start k := fun h => by
      rw [h.2] at hp; cases hp
    constructor
    · intro hpc x hx hcx
      by_cases e : x = k
      · subst e; exact hk_not hcx
      · exact hnone hpc x (by omega) hcx
    · intro e hpc x hx hcx
      by_cases e' : x = k
      · subst e'; exact absurd hcx hk_not
      · exact hsome e hpc x (by omega) hcx
  | true =>
    have hkc : candidate cfg s start k := ⟨⟨hk, hnl⟩, hp⟩
    cases hpc : ent.pc with
    | none =>
      rw [try_split_here_of_passes_none cfg s ent k hp hpc]
      constructor
      · intro h; cases h
      · intro e he x hx hcx
        simp only [Option.some.injEq] at he
        subst he
        by_cases e' : x = k
        · subst e'; exact Nat.le_refl _
        · exact absurd hcx (hnone hpc x (by omega))
    | some e =>
      rw [try_split_here_of_passes_some cfg s ent k e hp hpc]
      obtain ⟨_, hce, hpri⟩ := hv e hpc
      have hlev := hlevel k e hkc hce
      by_cases hch : (chunkAt s k).level < (chunkAt s e).level ∨ priAt s k < ent.pri
      · rw [if_pos hch]
        have hlt : priAt s k < priAt s e := by
          rcases hch with h1 | h1 <;> omega
        constructor
        · intro h; cases h
        · intro e2 he x hx hcx
          simp only [Option.some.injEq] at he
          subst he
          by_cases e' : x = k
          · subst e'; exact Nat.le_refl _
          · have := hsome e hpc x (by omega) hcx
            omega
      · rw [if_neg hch]
        constructor
        · intro h; rw [hpc] at h; cases h
        · intro e2 he x hx hcx
          rw [hpc] at he
          simp only [Option.some.injEq] at he
          subst he
          by_cases e' : x = k
          · subst e'
            have : ¬ priAt s x < ent.pri := fun h => hch (Or.inr h)
            omega
          · exact hsome e hpc x (by omega) hcx

/-- C5. Lower priority value wins: in strict mode, when all acceptable candidates of the
scanned line have the same level and there is at least one, the backward scan of
`split_line` chooses an acceptable candidate whose table priority is minimal among them. -/
theorem C5_lowest_priority_wins (cfg : Config) (s : List Chunk) (start : Nat)
    (hstrict : cfg.ls_code_width = false) (hstart : start < s.length)
    (hlevel : ∀ a b, candidate cfg s start a → candidate cfg s start b →
      (chunkAt s a).level = (chunkAt s b).level)
    (c : Nat) (hc : candidate cfg s start c) :
    ∃ e, best_split cfg s start = some e ∧ candidate cfg s start e
      ∧ ∀ c', candidate cfg s start c' → priAt s e ≤ priAt s c' := by
  have hP0 : MinPri cfg s start start {} := by
    refine ⟨fun x hx => (by cases hx), ?_, fun e he => (by cases he)⟩
    intro _ x hx hcx
    have := hcx.1.1
    omega
  obtain ⟨m, hm, hml, hv, hnone, hsome⟩ :=
    scan_back_strict_induction cfg s start hstrict (MinPri cfg s start)
      (MinPri_step cfg s start hlevel) start {} (Nat.le_refl _)
      (fun j hj hji => absurd hj (by omega)) hP0
  have hbest : best_split cfg s start = (scan_back cfg s start {}).pc := by
    unfold best_split; simp [hstart]
  have hge := fun x hx => candidate_ge_line_start cfg s start m x hm hml hx
  cases hpc : (scan_back cfg s start {}).pc with
  | none => exact absurd hc (hnone hpc c (hge c hc))
  | some e =>
    refine ⟨e, by rw [hbest, hpc], (hv e hpc).2.1, ?_⟩
    intro c' hc'
    exact hsome e hpc c' (hge c' hc') hc'

theorem NotDeeper_step (cfg : Config) (s : List Chunk) (start a : Nat)
    (ha : candidate cfg s start a)
    (hno : ∀ c d, candidate cfg s start c → c < a →
      (chunkAt s a).level < (chunkAt s c).level → candidate cfg s start d →
      (chunkAt s d).level ≤ (chunkAt s a).level → priAt s d ≤ priAt s c)
    (k : Nat) (ent : cw_entry) (hk : k < start)
    (hnl : ∀ j, j < start → k ≤ j → (chunkAt s j).IsNewline = false)
    (h : NotDeeper cfg s start a (k + 1) ent) :
    NotDeeper cfg s start a k (try_split_here cfg s ent k) := by
  obtain ⟨hv, hdom⟩ := h
  refine ⟨ValidEnt_try cfg s start k ent hk hnl hv, ?_⟩
  intro hka
  cases hp : passes_filters cfg s k with
  | false =>
    rw [try_split_here_of_not_passes cfg s ent k hp]
    have hne : k ≠ a := fun e => by
      rw [e, ha.2] at hp; cases hp
    exact hdom (by omega)
  | true =>
    have hkc : candidate cfg s start k := ⟨⟨hk, hnl⟩, hp⟩
    cases hpc : ent.pc with
    | none =>
      rw [try_split_here_of_passes_none cfg s ent k hp hpc]
      by_cases e : k = a
      · subst e; exact ⟨k, rfl, Nat.le_refl _⟩
      · obtain ⟨e', he', _⟩ := hdom (by omega)
        rw [hpc] at he'; cases he'
    | some e =>
      rw [try_split_here_of_passes_some cfg s ent k e hp hpc]
      obtain ⟨_, hce, hpri⟩ := hv e hpc
      by_cases hch : (chunkAt s k).level < (chunkAt s e).level ∨ priAt s k < ent.pri
      · rw [if_pos hch]
        refine ⟨k, rfl, ?_⟩
        by_cases e' : k = a
        · subst e'; exact Nat.le_refl _
        · obtain ⟨e2, he2, hle⟩ := hdom (by omega)
          rw [hpc] at he2
          simp only [Option.some.injEq] at he2
          subst he2
          by_contra hdeep
          have hdeep : (chunkAt s a).level < (chunkAt s k).level := by omega
          have := hno k e hkc (by omega) hdeep hce hle
          rcases hch with h1 | h1 <;> omega
      · rw [if_neg hch]
        refine ⟨e, hpc, ?_⟩
        by_cases e' : k = a
        · subst e'
          have : ¬ (chunkAt s k).level < (chunkAt s e).level := fun h => hch (Or.inl h)
          omega
        · obtain ⟨e2, he2, hle⟩ := hdom (by omega)
          rw [hpc] at he2
          simp only [Option.some.injEq] at he2
          subst he2
          exact hle

/-- C4, amended. Level dominance in strict mode: with `ls_code_width` off, let `a` be an
acceptable candidate of the scanned line such that no acceptable candidate that stands
before `a` on the line and is deeper than `a` has a priority value below that of an
acceptable candidate of level at most `a.level`.  Then the backward scan of `split_line`
chooses an acceptable candidate whose level is not greater than `a.level`. -/
theorem C4_level_dominance_strict (cfg : Config) (s : List Chunk) (start : Nat)
    (hstrict : cfg.ls_code_width = false) (hstart : start < s.length)
    (a : Nat) (ha : candidate cfg s start a)
    (hno : ∀ c d, candidate cfg s start c → c < a →
      (chunkAt s a).level < (chunkAt s c).level → candidate cfg s start d →
      (chunkAt s d).level ≤ (chunkAt s a).level → priAt s d ≤ priAt s c) :
    ∃ e, best_split cfg s start = some e ∧ candidate cfg s start e
      ∧ (chunkAt s e).level ≤ (chunkAt s a).level := by
  have hP0 : NotDeeper cfg s start a start {} := by
    refine ⟨fun x hx => (by cases hx), ?_⟩
    intro h
    have := ha.1.1
    omega
  obtain ⟨m, hm, hml, hv, hdom⟩ :=
    scan_back_strict_induction cfg s start hstrict (NotDeeper cfg s start a)
      (NotDeeper_step cfg s start a ha hno) start {} (Nat.le_refl _)
      (fun j hj hji => absurd hj (by omega)) hP0
  have hbest : best_split cfg s start = (scan_back cfg s start {}).pc := by
    unfold best_split; simp [hstart]
  obtain ⟨e, he, hle⟩ := hdom (candidate_ge_line_start cfg s start m a hm hml ha)
  exact ⟨e, by rw [hbest, he], (hv e he).2.1, hle⟩

theorem C4_level_dominance_strict_witness :
    (cfg20.ls_code_width = false ∧ candidate cfg20 paren_in 7 1)
    ∧ ∃ e, best_split cfg20 paren_in 7 = some e ∧ candidate cfg20 paren_in 7 e
      ∧ (chunkAt paren_in e).level ≤ (chunkAt paren_in 1).level :=
  ⟨by decide!, C4_level_dominance_strict cfg20 paren_in 7 rfl (by decide) 1 (by decide!)
    (fun c d _ hc1 hdeep _ _ => by
      have : c = 0 := by omega
      subst this
      exact absurd hdeep (by decide!))⟩

/-- C4, as stated, fails. In relaxed mode the scan stops at the first acceptable candidate:
on `x = (b, c) d...` it chooses the comma (level 1) although `=` (level 0) is acceptable.
In strict mode a deeper candidate with a lower priority value replaces a shallower one:
on `(b, c) = d...` the scan records `=` (level 0) and then replaces it by the comma
(level 1). -/
theorem C4_counterexample :
    (candidate cfg20_relaxed paren_in 7 1 ∧ candidate cfg20_relaxed paren_in 7 4
      ∧ (chunkAt paren_in 1).level < (chunkAt paren_in 4).level
      ∧ best_split cfg20_relaxed paren_in 7 = some 4
      ∧ ¬ (chunkAt paren_in 4).level ≤ (chunkAt paren_in 1).level)
    ∧ (candidate cfg20 paren_first_in 6 5 ∧ candidate cfg20 paren_first_in 6 2
      ∧ (chunkAt paren_first_in 5).level < (chunkAt paren_first_in 2).level
      ∧ best_split cfg20 paren_first_in 6 = some 2
      ∧ ¬ (chunkAt paren_first_in 2).level ≤ (chunkAt paren_first_in 5).level) := by
  decide!

theorem C5_lowest_priority_wins_witness :
    (cfg20.ls_code_width = false ∧ candidate cfg20 idem_in 4 3)
    ∧ ∃ e, best_split cfg20 idem_in 4 = some e ∧ candidate cfg20 idem_in 4 e
      ∧ ∀ c', candidate cfg20 idem_in 4 c' → priAt idem_in e ≤ priAt idem_in c' :=
  ⟨by decide!, C5_lowest_priority_wins cfg20 idem_in 4 rfl (by decide)
    (fun a b ha hb => by
      have h1 : a < 4 := ha.1.1
      have h2 : b < 4 := hb.1.1
      interval_cases a <;> interval_cases b <;> rfl) 3 (by decide!)⟩

/-! ## The positional policy -/

theorem noCol_shiftLine (d : Int) (l : List Chunk) :
    (shiftLine d l).map noCol = l.map noCol := by
  induction l with
  | nil => rfl
  | cons c rest ih =>
    unfold shiftLine
    split
    · rfl
    · simp only [List.map_cons, ih]
      rfl

theorem noCol_reindent_line (s : List Chunk) (pc col : Nat) :
    (reindent_line s pc col).map noCol = s.map noCol := by
  unfold reindent_line
  split
  · rename_i h
    have hs : s = s.take pc ++ s[pc] :: s.drop (pc + 1) := by simp
    conv_rhs => rw [hs]
    simp only [List.map_append, List.map_cons, noCol_shiftLine, chunkAt_eq_getElem s pc h]
    rfl
  · rfl

theorem length_reindent_line (s : List Chunk) (pc col : Nat) :
    (reindent_line s pc col).length = s.length := by
  have := congrArg List.length (noCol_reindent_line s pc col)
  simpa using this

/-- What `split_before_chunk` does when it does split: one newline chunk at `pc`, one more
change, and nothing else but columns. -/
theorem split_before_chunk_splits (cfg : Config) (st : State) (pc : Nat)
    (hpc : 0 < pc ∧ pc < st.chunks.length)
    (h1 : (chunkAt st.chunks pc).IsNewline = false)
    (h2 : (chunkAt st.chunks (pc - 1)).IsNewline = false) :
    (split_before_chunk cfg st pc).chunks.map noCol = (with_newline_at st.chunks pc).map noCol
    ∧ (split_before_chunk cfg st pc).changes = st.changes + 1
    ∧ (split_before_chunk cfg st pc).chunks.length = st.chunks.length + 1 := by
  have hprev : GetPrev st.chunks pc = pc - 1 := by
    unfold GetPrev; simp [hpc.1, hpc.2]
  have hnl : newline_add_before st.chunks pc = with_newline_at st.chunks pc := by
    unfold newline_add_before with_newline_at
    simp [hprev, h2]
  have e : split_before_chunk cfg st pc
      = { chunks := reindent_line (newline_add_before st.chunks pc)
            (relocate st.chunks (newline_add_before st.chunks pc) pc pc)
            (((chunkAt (newline_add_before st.chunks pc)
                (relocate st.chunks (newline_add_before st.chunks pc) pc pc)).brace_level
              * cfg.indent_columns + cfg.indent_continue.natAbs + 1) % 2 ^ 64),
          changes := st.changes + 1 } := by
    unfold split_before_chunk
    simp only [h1, hprev, h2, Bool.not_false, Bool.and_self, if_true]
  rw [e]
  refine ⟨?_, rfl, ?_⟩
  · simp only [noCol_reindent_line, hnl]
  · simp only [length_reindent_line, hnl]
    unfold with_newline_at
    simp
    omega

/-- A chunk that passes the filters has a predecessor, and that predecessor is a newline
only when the chunk is a string literal. -/
theorem passes_filters_prev (cfg : Config) (s : List Chunk) (k : Nat)
    (h : passes_filters cfg s k = true) :
    0 < k ∧ k < s.length
    ∧ ((chunkAt s k).type ≠ CT_STRING → (chunkAt s (k - 1)).IsNewline = false) := by
  unfold passes_filters at h
  simp only at h
  split at h
  · cases h
  · split at h
    · cases h
    · rename_i hprev
      simp only [Bool.or_eq_true, decide_eq_true_eq, Bool.and_eq_true, not_or, not_and,
        Bool.not_eq_true] at hprev
      obtain ⟨hp1, hp2⟩ := hprev
      have hk : 0 < k ∧ k < s.length := by
        unfold GetPrev at hp1
        split at hp1
        · assumption
        · omega
      have hpe : GetPrev s k = k - 1 := by
        unfold GetPrev; simp [hk.1, hk.2]
      refine ⟨hk.1, hk.2, ?_⟩
      intro hne
      rw [hpe] at hp2
      cases hn : (chunkAt s (k - 1)).IsNewline
      · rfl
      · have := hp2 hn
        simp at this
        exact absurd this hne

theorem breaks_before_not_string (cfg : Config) (c : Chunk) (h : breaks_before cfg c = true) :
    c.type ≠ CT_STRING := by
  intro hs
  unfold breaks_before at h
  rw [hs] at h
  simp at h

/-- C6. Positional policy: when the backward scan of `split_line`, started from a chunk
`start` that is not a newline, yields the candidate `e`, the generic stage inserts exactly
one newline chunk, immediately before `e` if `e` is a shift, arith/caret, assign, compare,
ternary or boolean operator whose `pos_*` option has the lead bit and immediately after
`e` in every other case, counts one change, changes nothing else but columns, and returns
`start` (moved one place by the insertion); `split_line` returns that same chunk when its
dispatch goes straight to the scan. -/
theorem C6_positional_policy (cfg : Config) (ext : Ext) (st : State) (start e : Nat)
    (hstart : start < st.chunks.length)
    (hnn : (chunkAt st.chunks start).IsNewline = false)
    (hbest : best_split cfg st.chunks start = some e) :
    (split_line_generic cfg st start).1.chunks.map noCol
        = (with_newline_at st.chunks (break_pos cfg st.chunks e)).map noCol
    ∧ (split_line_generic cfg st start).1.changes = st.changes + 1
    ∧ (split_line_generic cfg st start).2 = start + 1
    ∧ (straight_to_scan cfg (chunkAt st.chunks start) →
        split_line cfg ext st start
          = Outcome.ok (split_line_generic cfg st start).1 (start + 1)) := by
  obtain ⟨⟨hlt, hline⟩, hpass⟩ := best_split_candidate cfg st.chunks start e hbest
  obtain ⟨he0, helen, hprev⟩ := passes_filters_prev cfg st.chunks e hpass
  have hnext : GetNext st.chunks e = e + 1 := by
    unfold GetNext; split <;> omega
  have he_nn : (chunkAt st.chunks e).IsNewline = false := hline e hlt (Nat.le_refl _)
  have he1_nn : (chunkAt st.chunks (e + 1)).IsNewline = false := by
    by_cases h : e + 1 = start
    · rw [h]; exact hnn
    · exact hline (e + 1) (by omega) (by omega)
  -- the position of the newline and the facts that make `split_before_chunk` split there
  have hk : 0 < break_pos cfg st.chunks e ∧ break_pos cfg st.chunks e < st.chunks.length
      ∧ break_pos cfg st.chunks e ≤ start
      ∧ (chunkAt st.chunks (break_pos cfg st.chunks e)).IsNewline = false
      ∧ (chunkAt st.chunks (break_pos cfg st.chunks e - 1)).IsNewline = false := by
    unfold break_pos
    split
    · rename_i hb
      exact ⟨he0, helen, by omega, he_nn, hprev (breaks_before_not_string cfg _ hb)⟩
    · exact ⟨by omega, by omega, by omega, he1_nn, by simpa using he_nn⟩
  obtain ⟨hk0, hklen, hkstart, hk_nn, hkp_nn⟩ := hk
  have hgen : split_line_generic cfg st start
      = (split_before_chunk cfg st (break_pos cfg st.chunks e),
          relocate st.chunks (split_before_chunk cfg st (break_pos cfg st.chunks e)).chunks
            (break_pos cfg st.chunks e) start) := by
    have hprevk : GetPrev st.chunks (break_pos cfg st.chunks e)
        = break_pos cfg st.chunks e - 1 := by
      unfold GetPrev; simp [hk0, hklen]
    have hprevlt : break_pos cfg st.chunks e - 1 < st.chunks.length := by omega
    unfold split_line_generic
    simp only [hbest, hnext]
    have htarget : (if breaks_before cfg (chunkAt st.chunks e) = true then some e
        else some (e + 1)) = some (break_pos cfg st.chunks e) := by
      unfold break_pos; split <;> rfl
    rw [htarget]
    simp only [hklen, if_true, hprevk, hprevlt, decide_True, hk_nn, hkp_nn, Bool.not_false,
      Bool.and_self]
  obtain ⟨hmap, hch, hlen⟩ := split_before_chunk_splits cfg st (break_pos cfg st.chunks e)
    ⟨hk0, hklen⟩ hk_nn hkp_nn
  have hret : (split_line_generic cfg st start).2 = start + 1 := by
    rw [hgen]
    unfold relocate
    simp only
    rw [if_pos ⟨by omega, hkstart⟩]
  refine ⟨by rw [hgen]; exact hmap, by rw [hgen]; exact hch, hret, ?_⟩
  intro hdisp
  obtain ⟨hol, hrest⟩ := hdisp
  unfold split_line
  simp only [hol, Bool.false_eq_true, if_false]
  rcases hrest with hr | ⟨h1, h2, h3⟩
  · simp only [hr, if_true, hret]
  · cases hls : cfg.ls_code_width
    · simp only [h1, h2, h3, Bool.false_eq_true, if_false, hret]
    · simp only [if_true, hret]

theorem C6_positional_policy_witness :
    (best_split cfg20_lead arith_in 4 = some 3
      ∧ break_pos cfg20_lead arith_in 3 = 3 ∧ break_pos cfg20 arith_in 3 = 4)
    ∧ ((split_line_generic cfg20_lead ⟨arith_in, 0⟩ 4).1.chunks.map noCol
        = (with_newline_at arith_in (break_pos cfg20_lead arith_in 3)).map noCol
      ∧ (split_line_generic cfg20_lead ⟨arith_in, 0⟩ 4).1.changes = 0 + 1
      ∧ (split_line_generic cfg20_lead ⟨arith_in, 0⟩ 4).2 = 4 + 1
      ∧ (straight_to_scan cfg20_lead (chunkAt arith_in 4) →
          split_line cfg20_lead idExt ⟨arith_in, 0⟩ 4
            = Outcome.ok (split_line_generic cfg20_lead ⟨arith_in, 0⟩ 4).1 (4 + 1))) :=
  ⟨by decide!, C6_positional_policy cfg20_lead idExt ⟨arith_in, 0⟩ 4 3 (by decide) (by decide!)
    (by decide!)⟩

/-! ## Concrete runs -/

/-- C7, as stated, fails: in strict mode, on the call `f(aaaaaaaaaaaa, b);` at width 12, the
greedy function-parameter splitter breaks right after the function open paren (priority
21); the input has no newline, the output has one at position 2, after the paren at 1. -/
theorem C7_counterexample :
    cfg12.ls_code_width = false
    ∧ kinds call_in
        = [CT_FUNC_CALL, CT_FPAREN_OPEN, CT_WORD, CT_COMMA, CT_WORD, CT_FPAREN_CLOSE,
            CT_SEMICOLON]
    ∧ final_kinds (do_code_width cfg12 idExt 12 ⟨call_in, 0⟩)
        = some [CT_FUNC_CALL, CT_FPAREN_OPEN, CT_NEWLINE, CT_WORD, CT_COMMA, CT_NEWLINE,
            CT_WORD, CT_FPAREN_CLOSE, CT_SEMICOLON]
    ∧ get_split_pri CT_FPAREN_OPEN = 21 := by
  decide!

theorem C7_strict_scan_below_20_witness :
    (cfg20.ls_code_width = false ∧ best_split cfg20 idem_in 4 = some 1)
    ∧ (0 < priAt idem_in 1 ∧ priAt idem_in 1 < 20) :=
  ⟨by decide!, C7_strict_scan_below_20 cfg20 idem_in 4 1 rfl (by decide!)⟩

/-- C8, on the code: for the prototype `int ffffffffffffffff();` at width 22 the semicolon is
past the width, `split_line` hands it to the greedy function-parameter splitter, whose
start value of `splitpoint` is the open paren, and the forced split at the closing paren
puts a newline between `(` and `)`. -/
theorem C8_empty_paren_is_split :
    kinds empty_in = [CT_TYPE, CT_FUNC_PROTO, CT_FPAREN_OPEN, CT_FPAREN_CLOSE, CT_SEMICOLON]
    ∧ final_kinds (do_code_width cfg22 idExt 12 ⟨empty_in, 0⟩)
        = some [CT_TYPE, CT_FUNC_PROTO, CT_FPAREN_OPEN, CT_NEWLINE, CT_FPAREN_CLOSE,
            CT_SEMICOLON] := by
  decide!

/-- C9, as stated, fails: on `a = "ssssssssssssssssss";` at width 20 the scan chooses the
assignment and the newline is put right before the string literal, whose next chunk is the
semicolon; no string literal of the line is followed by another one. -/
theorem C9_counterexample :
    kinds str_in = [CT_WORD, CT_ASSIGN, CT_STRING, CT_SEMICOLON]
    ∧ final_kinds (do_code_width cfg20 idExt 12 ⟨str_in, 0⟩)
        = some [CT_WORD, CT_ASSIGN, CT_NEWLINE, CT_STRING, CT_SEMICOLON] := by
  decide!

theorem C9_string_candidate_concat_witness :
    (best_split cfg20 concat_in 2 = some 1 ∧ (chunkAt concat_in 1).type = CT_STRING)
    ∧ (chunkAt concat_in (GetNext concat_in 1)).type = CT_STRING :=
  ⟨by decide!, C9_string_candidate_concat cfg20 concat_in 2 1 (by decide!) (by decide!)⟩

/-! ## The for-statement splitter -/

theorem kinds_reindent_line (s : List Chunk) (pc col : Nat) :
    kinds (reindent_line s pc col) = kinds s := by
  have h := congrArg (List.map (fun c : Chunk => c.type)) (noCol_reindent_line s pc col)
  simpa [kinds, noCol, Function.comp_def] using h

theorem chunkAt_type (s : List Chunk) (i : Nat) :
    (chunkAt s i).type = (kinds s).getD i CT_NONE := by
  unfold chunkAt kinds
  by_cases h : i < s.length
  · simp [List.getD, h]
  · have h1 : s[i]? = none := List.getElem?_eq_none (by omega)
    simp [List.getD, h1, nullChunk]

theorem count_nl_after_insert (l1 l2 : List E_Token)
    (h1 : ∀ a, l1.getLast? = some a → (a == CT_COMMA || a == CT_ASSIGN) = false)
    (h2 : ∀ b, l2.head? = some b → (b == CT_NEWLINE || b == CT_NL_CONT) = false) :
    count_nl_after (l1 ++ CT_NEWLINE :: l2) = count_nl_after (l1 ++ l2) := by
  induction l1 with
  | nil =>
    cases l2 with
    | nil => rfl
    | cons b rest => simp [count_nl_after]
  | cons a t ih =>
    cases t with
    | nil =>
      have ha := h1 a rfl
      cases l2 with
      | nil => simp [count_nl_after, ha]
      | cons b rest =>
        have hb := h2 b rfl
        simp only [List.cons_append, List.nil_append, count_nl_after, ha, Bool.false_and,
          Bool.false_eq_true, if_false, Nat.zero_add]
        simp
    | cons b rest =>
      have := ih (fun x hx => h1 x (by simpa [List.getLast?_cons_cons] using hx))
      show _ + count_nl_after (b :: rest ++ CT_NEWLINE :: l2)
        = _ + count_nl_after (b :: rest ++ l2)
      rw [this]

/-- A call of `split_before_chunk` at `k` either changes nothing or puts one newline kind
at `k` and leaves the other kinds in place. -/
theorem split_before_chunk_kinds (cfg : Config) (st : State) (k : Nat) :
    split_before_chunk cfg st k = st
    ∨ (kinds (split_before_chunk cfg st k).chunks
          = (kinds st.chunks).take k ++ CT_NEWLINE :: (kinds st.chunks).drop k
        ∧ (chunkAt st.chunks k).IsNewline = false) := by
  unfold split_before_chunk
  split
  · rename_i h
    right
    simp only [Bool.and_eq_true, Bool.not_eq_true'] at h
    refine ⟨?_, h.1⟩
    simp only [kinds_reindent_line]
    unfold newline_add_before
    simp [h.2, kinds, mkNewline]
  · left; rfl

theorem getLast?_take_succ (l : List E_Token) (q : Nat) (hq : q < l.length) :
    (l.take (q + 1)).getLast? = some (l.getD q CT_NONE) := by
  rw [List.getLast?_eq_getElem?, List.length_take, Nat.min_eq_left (by omega)]
  simp only [Nat.add_sub_cancel]
  rw [List.getElem?_take_of_lt (by omega), List.getD_eq_getElem?_getD,
    List.getElem?_eq_getElem hq]
  rfl

theorem getD_insert {α : Type} (l : List α) (k p : Nat) (x d : α) (hk : k ≤ l.length) :
    (l.take k ++ x :: l.drop k).getD (if k ≤ p then p + 1 else p) d = l.getD p d := by
  induction l generalizing k p with
  | nil =>
    have : k = 0 := by simpa using hk
    subst this
    simp
  | cons a t ih =>
    cases k with
    | zero => simp
    | succ k' =>
      cases p with
      | zero => simp
      | succ p' =>
        have := ih k' p' (by simpa using hk)
        simp only [List.take_succ_cons, List.drop_succ_cons, List.cons_append,
          Nat.add_le_add_iff_right]
        split
        · rename_i h; rw [if_pos h] at this; simpa using this
        · rename_i h; rw [if_neg h] at this; simpa using this

theorem head?_drop_getD (l : List E_Token) (k : Nat) (b : E_Token)
    (h : (l.drop k).head? = some b) : l.getD k CT_NONE = b := by
  rw [List.head?_drop] at h
  rw [List.getD_eq_getElem?_getD, h]
  rfl

/-- Splitting after a semicolon adds no newline after a comma or an assignment. -/
theorem nl_after_split_after_semi (cfg : Config) (st : State) (q : Nat)
    (hq : q < st.chunks.length) (hsemi : (chunkAt st.chunks q).type = CT_SEMICOLON) :
    nl_after_comma_assign (split_before_chunk cfg st (GetNext st.chunks q)).chunks
      = nl_after_comma_assign st.chunks := by
  have hnext : GetNext st.chunks q = q + 1 := by
    unfold GetNext; split <;> omega
  rw [hnext]
  rcases split_before_chunk_kinds cfg st (q + 1) with h | ⟨h, hnn⟩
  · rw [h]
  · unfold nl_after_comma_assign
    rw [h, count_nl_after_insert, List.take_append_drop]
    · intro a ha
      rw [getLast?_take_succ _ _ (by simpa [kinds] using hq), ← chunkAt_type, hsemi] at ha
      simp only [Option.some.injEq] at ha
      subst ha
      rfl
    · intro b hb
      have := head?_drop_getD _ _ _ hb
      rw [← chunkAt_type] at this
      rw [← this]
      simpa [Chunk.IsNewline] using hnn

/-- Where a chunk is after a call of `split_before_chunk`: the relocated pointer designates
a chunk of the same kind. -/
theorem relocate_split_before_chunk (cfg : Config) (st : State) (k p : Nat)
    (hk : k ≤ st.chunks.length) (hp : p < st.chunks.length) :
    relocate st.chunks (split_before_chunk cfg st k).chunks k p
        < (split_before_chunk cfg st k).chunks.length
    ∧ (chunkAt (split_before_chunk cfg st k).chunks
          (relocate st.chunks (split_before_chunk cfg st k).chunks k p)).type
        = (chunkAt st.chunks p).type := by
  rcases split_before_chunk_kinds cfg st k with h | ⟨h, _⟩
  · rw [h]
    unfold relocate
    simp [hp]
  · have hlen : (split_before_chunk cfg st k).chunks.length = st.chunks.length + 1 := by
      have := congrArg List.length h
      simp [kinds] at this
      omega
    have hklen : k ≤ (kinds st.chunks).length := by simpa [kinds] using hk
    have hplen : p < (kinds st.chunks).length := by simpa [kinds] using hp
    have hins := getD_insert (kinds st.chunks) k p CT_NEWLINE CT_NONE hklen
    unfold relocate
    rw [chunkAt_type, chunkAt_type, h]
    by_cases hkp : k ≤ p
    · rw [if_pos ⟨by omega, hkp⟩]
      rw [if_pos hkp] at hins
      exact ⟨by omega, hins⟩
    · rw [if_neg (fun h => hkp h.2)]
      rw [if_neg hkp] at hins
      exact ⟨by omega, hins⟩

theorem lt_length_of_type (s : List Chunk) (p : Nat) (t : E_Token) (ht : t ≠ CT_NONE)
    (h : (chunkAt s p).type = t) : p < s.length := by
  by_contra hp
  have : chunkAt s p = nullChunk := by
    unfold chunkAt
    rw [List.getD_eq_getElem?_getD, List.getElem?_eq_none (by omega)]
    rfl
  rw [this] at h
  exact ht h.symm

theorem is_for_semi_type (c : Chunk) (h : is_for_semi c = true) : c.type = CT_SEMICOLON := by
  unfold is_for_semi at h
  simp only [Bool.and_eq_true, beq_iff_eq] at h
  exact h.1

theorem semis_backward_semis (s : List Chunk) (max_cnt k : Nat) (semis : List Nat)
    (h : ∀ p ∈ semis, (chunkAt s p).type = CT_SEMICOLON) :
    ∀ p ∈ semis_backward s max_cnt k semis, (chunkAt s p).type = CT_SEMICOLON := by
  induction k generalizing semis with
  | zero => exact h
  | succ k ih =>
    unfold semis_backward
    split
    · apply ih
      split
      · rename_i hs
        intro p hp
        rcases List.mem_append.mp hp with h1 | h1
        · exact h p h1
        · simp only [List.mem_singleton] at h1
          subst h1
          exact is_for_semi_type _ hs
      · exact h
    · exact h

theorem semis_forward_semis (s : List Chunk) (max_cnt fuel pc : Nat) (semis : List Nat)
    (h : ∀ p ∈ semis, (chunkAt s p).type = CT_SEMICOLON) :
    ∀ p ∈ semis_forward s max_cnt fuel pc semis, (chunkAt s p).type = CT_SEMICOLON := by
  induction fuel generalizing pc semis with
  | zero => exact h
  | succ n ih =>
    unfold semis_forward
    simp only
    split
    · apply ih
      split
      · rename_i hs
        intro p hp
        rcases List.mem_append.mp hp with h1 | h1
        · exact h p h1
        · simp only [List.mem_singleton] at h1
          subst h1
          exact is_for_semi_type _ hs
      · exact h
    · exact h

/-- Every chunk that `split_for_stmt` collects is a semicolon. -/
theorem collect_semis_semis (cfg : Config) (s : List Chunk) (start : Nat) :
    ∀ p ∈ collect_semis cfg s start, (chunkAt s p).type = CT_SEMICOLON := by
  unfold collect_semis
  simp only
  apply semis_forward_semis
  have h0 : ∀ p ∈ (if is_for_semi (chunkAt s start) = true then [start] else []),
      (chunkAt s p).type = CT_SEMICOLON := by
    split
    · rename_i hs
      intro p hp
      simp only [List.mem_singleton] at hp
      subst hp
      exact is_for_semi_type _ hs
    · intro p hp; cases hp
  split
  · exact semis_backward_semis s _ _ _ h0
  · exact h0

theorem GetNext_le_length (s : List Chunk) (i : Nat) : GetNext s i ≤ s.length := by
  unfold GetNext; split <;> omega

/-- The semicolon loop of `split_for_stmt` adds no newline after a comma or an assignment. -/
theorem nl_after_split_semis (cfg : Config) (l : List Nat) (f : Nat → Nat) (st : State)
    (h : ∀ p ∈ l, (chunkAt st.chunks (f p)).type = CT_SEMICOLON) :
    nl_after_comma_assign (split_semis cfg l f st).1.chunks
      = nl_after_comma_assign st.chunks := by
  induction l generalizing f st with
  | nil => rfl
  | cons p rest ih =>
    simp only [split_semis]
    have hp := h p (List.mem_cons_self _ _)
    have hplt := lt_length_of_type st.chunks (f p) CT_SEMICOLON (by decide) hp
    rw [ih, nl_after_split_after_semi cfg st (f p) hplt hp]
    intro q hq
    have hq1 := h q (List.mem_cons_of_mem _ hq)
    have hqlt := lt_length_of_type st.chunks (f q) CT_SEMICOLON (by decide) hq1
    rw [(relocate_split_before_chunk cfg st (GetNext st.chunks (f p)) (f q)
      (GetNext_le_length _ _) hqlt).2]
    exact hq1

theorem nl_after_split_for_semis (cfg : Config) (st : State) (start : Nat) :
    nl_after_comma_assign (split_for_semis cfg st start).1.chunks
      = nl_after_comma_assign st.chunks := by
  unfold split_for_semis
  simp only
  split
  · rfl
  · simp only
    apply nl_after_split_semis
    intro p hp
    exact collect_semis_semis cfg st.chunks start p (List.mem_reverse.mp hp)

/-- C10. For-header split order: in `split_for_stmt`, if after the newlines placed after the
collected semicolons the offending chunk is no longer past the width, or if the header held
a newline between its open paren and the offending chunk (`nl_cnt > 0`), the function stops
there, and no newline has been put after a comma or an assignment: the stream has as many
newlines directly after a comma or an assignment as before the call. -/
theorem C10_for_semicolons_suffice (cfg : Config) (st : State) (start : Nat)
    (h : is_past_width cfg
          (chunkAt (split_for_semis cfg st start).1.chunks (split_for_semis cfg st start).2.1)
          = false
        ∨ 0 < (split_for_semis cfg st start).2.2.2) :
    split_for_stmt cfg st start
        = ((split_for_semis cfg st start).1, (split_for_semis cfg st start).2.1)
    ∧ nl_after_comma_assign (split_for_stmt cfg st start).1.chunks
        = nl_after_comma_assign st.chunks := by
  have e : split_for_stmt cfg st start
      = ((split_for_semis cfg st start).1, (split_for_semis cfg st start).2.1) := by
    unfold split_for_stmt
    split
    · rename_i heq; rw [heq]
    · rename_i heq
      rw [heq] at h
      simp only at h
      rw [heq]
      simp only
      rw [if_pos]
      rcases h with h | h
      · simp [h]
      · simp [h]
  refine ⟨e, ?_⟩
  rw [e]
  exact nl_after_split_for_semis cfg st start

theorem C10_for_semicolons_suffice_witness :
    (is_past_width cfg20 (chunkAt for_in 11) = true
      ∧ kinds (split_for_stmt cfg20 ⟨for_in, 0⟩ 11).1.chunks
          = [CT_FOR, CT_SPAREN_OPEN, CT_WORD, CT_ASSIGN, CT_OTHER, CT_COMMA, CT_WORD, CT_ASSIGN,
              CT_OTHER, CT_SEMICOLON, CT_NEWLINE, CT_WORD, CT_COMPARE, CT_WORD, CT_SEMICOLON,
              CT_OTHER, CT_WORD, CT_SPAREN_CLOSE])
    ∧ (split_for_stmt cfg20 ⟨for_in, 0⟩ 11
          = ((split_for_semis cfg20 ⟨for_in, 0⟩ 11).1, (split_for_semis cfg20 ⟨for_in, 0⟩ 11).2.1)
      ∧ nl_after_comma_assign (split_for_stmt cfg20 ⟨for_in, 0⟩ 11).1.chunks
          = nl_after_comma_assign for_in) :=
  ⟨by decide!, C10_for_semicolons_suffice cfg20 ⟨for_in, 0⟩ 11 (Or.inl (by decide!))⟩

/-! ## The width oracle, the newline primitive and the priority table -/

/-- C11. Width oracle: for a chunk with column at least 1 (whose last column fits in
`size_t`), `is_past_width` is true exactly when `column + length - 1 > code_width`; a chunk
whose last character sits exactly at column `code_width` is not past the width. -/
theorem C11_width_oracle (cfg : Config) (c : Chunk) (hcol : 1 ≤ c.column)
    (hfit : c.column + c.Len < 2 ^ 64) :
    (is_past_width cfg c = true ↔ cfg.code_width < c.column + c.Len - 1)
    ∧ (c.column + c.Len - 1 = cfg.code_width → is_past_width cfg c = false) := by
  have hmod : (c.column + c.Len + (2 ^ 64 - 1)) % 2 ^ 64 = c.column + c.Len - 1 := by
    norm_num at hfit ⊢
    omega
  unfold is_past_width
  rw [hmod]
  constructor
  · simp
  · intro h
    simp
    omega

theorem C11_width_oracle_witness :
    (is_past_width cfg20 (tok CT_WORD "abcde" 16) = true ↔ cfg20.code_width < 16 + 5 - 1)
    ∧ (is_past_width cfg20 (tok CT_WORD "abcde" 17) = true) :=
  ⟨(C11_width_oracle cfg20 (tok CT_WORD "abcde" 16) (by decide) (by decide!)).1, by decide!⟩

theorem chunkAt_append_cons (a : List Chunk) (x : Chunk) (b : List Chunk) :
    chunkAt (a ++ x :: b) a.length = x := by
  unfold chunkAt
  rw [List.getD_eq_getElem?_getD, List.getElem?_append_right (Nat.le_refl _)]
  simp

theorem column_reindent_line (s : List Chunk) (pc col : Nat) (h : pc < s.length) :
    (chunkAt (reindent_line s pc col) pc).column = col := by
  unfold reindent_line
  rw [if_pos h]
  have hl : (s.take pc).length = pc := by simp; omega
  have := chunkAt_append_cons (s.take pc) { chunkAt s pc with column := col }
    (shiftLine ((col : Int) - (chunkAt s pc).column) (s.drop (pc + 1)))
  rw [hl] at this
  rw [this]

theorem chunkAt_with_newline_before (s : List Chunk) (pc : Nat) (h : pc ≤ s.length) :
    chunkAt (with_newline_before s pc) pc = mkNewline (chunkAt s (GetPrev s pc))
    ∧ chunkAt (with_newline_before s pc) (pc + 1) = chunkAt s pc := by
  have hl : (s.take pc).length = pc := by simp; omega
  unfold with_newline_before
  constructor
  · have := chunkAt_append_cons (s.take pc) (mkNewline (chunkAt s (GetPrev s pc))) (s.drop pc)
    rw [hl] at this
    exact this
  · unfold chunkAt
    rw [List.getD_eq_getElem?_getD, List.getD_eq_getElem?_getD,
      List.getElem?_append_right (by omega)]
    simp [hl]

theorem length_with_newline_before (s : List Chunk) (pc : Nat) :
    (with_newline_before s pc).length = s.length + 1 := by
  unfold with_newline_before
  simp
  omega

/-- C12. Newline primitive: on a chunk `c` of the stream, `split_before_chunk` changes
neither the stream nor the counter when `c` or its predecessor is a newline; otherwise the
stream gets exactly one new newline chunk, immediately before `c`, nothing else changes but
columns, `c` (now one place further) stands at the column
`c.brace_level * indent_columns + |indent_continue| + 1` as the code computes it, in
`size_t` (modulo `2 ^ 64`), which is that very number whenever it is below `2 ^ 64`, and
the counter grows by 1. -/
theorem C12_newline_primitive (cfg : Config) (st : State) (pc : Nat)
    (hpc : pc < st.chunks.length) :
    ((chunkAt st.chunks pc).IsNewline = true
        ∨ (chunkAt st.chunks (GetPrev st.chunks pc)).IsNewline = true →
      split_before_chunk cfg st pc = st)
    ∧ ((chunkAt st.chunks pc).IsNewline = false →
        (chunkAt st.chunks (GetPrev st.chunks pc)).IsNewline = false →
      (split_before_chunk cfg st pc).chunks.map noCol
          = (with_newline_before st.chunks pc).map noCol
        ∧ (split_before_chunk cfg st pc).chunks.length = st.chunks.length + 1
        ∧ (chunkAt (split_before_chunk cfg st pc).chunks pc).IsNewline = true
        ∧ (chunkAt (split_before_chunk cfg st pc).chunks (pc + 1)).column
            = continuation_col cfg (chunkAt st.chunks pc)
        ∧ ((chunkAt st.chunks pc).brace_level * cfg.indent_columns
              + cfg.indent_continue.natAbs + 1 < 2 ^ 64 →
            (chunkAt (split_before_chunk cfg st pc).chunks (pc + 1)).column
              = (chunkAt st.chunks pc).brace_level * cfg.indent_columns
                  + cfg.indent_continue.natAbs + 1)
        ∧ (split_before_chunk cfg st pc).changes = st.changes + 1) := by
  constructor
  · intro h
    unfold split_before_chunk
    rcases h with h | h <;> simp [h]
  · intro h1 h2
    have hnl : newline_add_before st.chunks pc = with_newline_before st.chunks pc := by
      unfold newline_add_before with_newline_before
      simp [h2]
    have hlen := length_with_newline_before st.chunks pc
    have hrel : relocate st.chunks (with_newline_before st.chunks pc) pc pc = pc + 1 := by
      unfold relocate
      rw [if_pos ⟨by omega, Nat.le_refl _⟩]
    have hat := chunkAt_with_newline_before st.chunks pc (Nat.le_of_lt hpc)
    have e : split_before_chunk cfg st pc
        = { chunks := reindent_line (with_newline_before st.chunks pc) (pc + 1)
              (continuation_col cfg (chunkAt st.chunks pc)),
            changes := st.changes + 1 } := by
      unfold split_before_chunk
      simp only [h1, h2, Bool.not_false, Bool.and_self, if_true, hnl, hrel, hat.2]
      rfl
    rw [e]
    have hcol : (chunkAt (reindent_line (with_newline_before st.chunks pc) (pc + 1)
        (continuation_col cfg (chunkAt st.chunks pc))) (pc + 1)).column
        = continuation_col cfg (chunkAt st.chunks pc) :=
      column_reindent_line _ _ _ (by omega)
    refine ⟨noCol_reindent_line _ _ _, ?_, ?_, hcol, ?_, rfl⟩
    · simp only [length_reindent_line, hlen]
    · have hk := congrArg (fun l => l.getD pc CT_NONE)
        (kinds_reindent_line (with_newline_before st.chunks pc) (pc + 1)
          (continuation_col cfg (chunkAt st.chunks pc)))
      simp only [← chunkAt_type, hat.1] at hk
      unfold Chunk.IsNewline
      rw [hk]
      rfl
    · intro hfit
      show (chunkAt (reindent_line (with_newline_before st.chunks pc) (pc + 1)
        (continuation_col cfg (chunkAt st.chunks pc))) (pc + 1)).column = _
      rw [hcol]
      unfold continuation_col
      exact Nat.mod_eq_of_lt hfit

theorem C12_newline_primitive_witness :
    kinds (split_before_chunk cfg20 ⟨idem_in, 0⟩ 2).chunks
        = [CT_WORD, CT_COMMA, CT_NEWLINE, CT_WORD, CT_ASSIGN, CT_WORD]
    ∧ (chunkAt (split_before_chunk cfg20 ⟨idem_in, 0⟩ 2).chunks (2 + 1)).column
        = continuation_col cfg20 (chunkAt idem_in 2)
    ∧ (chunkAt (split_before_chunk cfg20 ⟨idem_in, 0⟩ 2).chunks (2 + 1)).column
        = (chunkAt idem_in 2).brace_level * cfg20.indent_columns
            + cfg20.indent_continue.natAbs + 1 :=
  ⟨by decide!, ((C12_newline_primitive cfg20 ⟨idem_in, 0⟩ 2 (by decide)).2 (by decide!)
    (by decide!)).2.2.2.1, ((C12_newline_primitive cfg20 ⟨idem_in, 0⟩ 2 (by decide)).2
    (by decide!) (by decide!)).2.2.2.2.1 (by decide!)⟩

/-- At brace level `2 ^ 61` and an indent of 8 columns the continuation column wraps around
in `size_t`: `split_before_chunk` puts the chunk at column 1. -/
theorem split_before_chunk_wraps :
    (chunkAt deep_in 2).brace_level * cfg20.indent_columns
        + cfg20.indent_continue.natAbs + 1 = 2 ^ 64 + 1
    ∧ kinds (split_before_chunk cfg20 ⟨deep_in, 0⟩ 2).chunks
        = [CT_WORD, CT_COMMA, CT_NEWLINE, CT_WORD, CT_ASSIGN, CT_WORD]
    ∧ (chunkAt (split_before_chunk cfg20 ⟨deep_in, 0⟩ 2).chunks 3).column = 1 := by
  decide!

/-- C13. Priority table: `get_split_pri` gives 1 for a semicolon, 2 comma, 3 boolean,
4 compare, 5 shift, 6 arith, 7 caret, 8 assign, 9 string, 10 for-colon, 20 for the ternary
`?` and colon, 21 for a function open paren, 25 for qualifier, class, struct, type,
typename and volatile; for every kind the result is 0 exactly when the kind is not
listed. -/
theorem C13_priority_table :
    (get_split_pri CT_SEMICOLON = 1 ∧ get_split_pri CT_COMMA = 2 ∧ get_split_pri CT_BOOL = 3
      ∧ get_split_pri CT_COMPARE = 4 ∧ get_split_pri CT_SHIFT = 5 ∧ get_split_pri CT_ARITH = 6
      ∧ get_split_pri CT_CARET = 7 ∧ get_split_pri CT_ASSIGN = 8 ∧ get_split_pri CT_STRING = 9
      ∧ get_split_pri CT_FOR_COLON = 10 ∧ get_split_pri CT_QUESTION = 20
      ∧ get_split_pri CT_COND_COLON = 20 ∧ get_split_pri CT_FPAREN_OPEN = 21
      ∧ get_split_pri CT_QUALIFIER = 25 ∧ get_split_pri CT_CLASS = 25
      ∧ get_split_pri CT_STRUCT = 25 ∧ get_split_pri CT_TYPE = 25
      ∧ get_split_pri CT_TYPENAME = 25 ∧ get_split_pri CT_VOLATILE = 25)
    ∧ listed_kinds
        = [CT_SEMICOLON, CT_COMMA, CT_BOOL, CT_COMPARE, CT_SHIFT, CT_ARITH, CT_CARET, CT_ASSIGN,
            CT_STRING, CT_FOR_COLON, CT_QUESTION, CT_COND_COLON, CT_FPAREN_OPEN, CT_QUALIFIER,
            CT_CLASS, CT_STRUCT, CT_TYPE, CT_TYPENAME, CT_VOLATILE]
    ∧ ∀ tok, get_split_pri tok = 0 ↔ tok ∉ listed_kinds := by
  refine ⟨by decide, by decide, ?_⟩
  intro tok
  cases tok <;> decide

/-! ## The fallback and the dispatch of `split_line` -/

theorem no_go_iff (c : Chunk) :
    no_go c = true ↔ c.type ∈ no_break_before_kinds ∨ c.Len = 0 := by
  unfold no_go no_break_before_kinds Chunk.IsSemicolon
  simp only [Bool.or_eq_true, beq_iff_eq, List.mem_cons, List.mem_singleton, List.mem_nil_iff,
    or_false]
  tauto

/-- C14. No-candidate fallback: when the backward scan of `split_line` finds no candidate,
then if `start` is an open or close paren (plain, function or statement), an angle close, a
brace close, a comma, a semicolon or a zero-length chunk, the generic stage returns `start`
with the stream and the counter unchanged; otherwise, when `start` (not a newline) has a
predecessor that is not a newline, it inserts one newline immediately before `start`,
counts one change and returns `start`; and when `start` is the head of the stream or
follows a newline, nothing changes. -/
theorem C14_no_candidate_fallback (cfg : Config) (st : State) (start : Nat)
    (hstart : start < st.chunks.length)
    (hnn : (chunkAt st.chunks start).IsNewline = false)
    (hbest : best_split cfg st.chunks start = none) :
    (no_go (chunkAt st.chunks start) = true ↔
        (chunkAt st.chunks start).type ∈ no_break_before_kinds
          ∨ (chunkAt st.chunks start).Len = 0)
    ∧ (no_go (chunkAt st.chunks start) = true → split_line_generic cfg st start = (st, start))
    ∧ (no_go (chunkAt st.chunks start) = false → 0 < start →
        (chunkAt st.chunks (start - 1)).IsNewline = false →
        (split_line_generic cfg st start).1.chunks.map noCol
            = (with_newline_at st.chunks start).map noCol
          ∧ (split_line_generic cfg st start).1.changes = st.changes + 1
          ∧ (split_line_generic cfg st start).2 = start + 1)
    ∧ (no_go (chunkAt st.chunks start) = false →
        start = 0 ∨ (chunkAt st.chunks (start - 1)).IsNewline = true →
        split_line_generic cfg st start = (st, start)) := by
  refine ⟨no_go_iff _, ?_, ?_, ?_⟩
  · intro hng
    unfold split_line_generic
    simp only [hbest, hng, if_true]
  · intro hng h0 hprev
    have hp : GetPrev st.chunks start = start - 1 := by
      unfold GetPrev; simp [h0, hstart]
    have hplt : start - 1 < st.chunks.length := by omega
    have hgen : split_line_generic cfg st start
        = (split_before_chunk cfg st start,
            relocate st.chunks (split_before_chunk cfg st start).chunks start start) := by
      unfold split_line_generic
      simp only [hbest, hng, Bool.false_eq_true, if_false, hp, hplt, decide_True, hnn, hprev,
        Bool.not_false, Bool.and_self, if_true]
    obtain ⟨hmap, hch, hlen⟩ := split_before_chunk_splits cfg st start ⟨h0, hstart⟩ hnn hprev
    rw [hgen]
    refine ⟨hmap, hch, ?_⟩
    unfold relocate
    simp only
    rw [if_pos ⟨by omega, Nat.le_refl _⟩]
  · intro hng h
    unfold split_line_generic
    simp only [hbest, hng, Bool.false_eq_true, if_false]
    rcases h with h | h
    · subst h
      have : GetPrev st.chunks 0 = st.chunks.length := by
        unfold GetPrev; simp
      simp [this]
    · by_cases h0 : 0 < start
      · have hp : GetPrev st.chunks start = start - 1 := by
          unfold GetPrev; simp [h0, hstart]
        simp [hp, h]
      · have : start = 0 := by omega
        subst this
        have : GetPrev st.chunks 0 = st.chunks.length := by
          unfold GetPrev; simp
        simp [this]

theorem C14_no_candidate_fallback_witness :
    (best_split cfg20 nogo_in 1 = none ∧ no_go (chunkAt nogo_in 1) = true)
    ∧ split_line_generic cfg20 ⟨nogo_in, 0⟩ 1 = (⟨nogo_in, 0⟩, 1) :=
  ⟨by decide!, (C14_no_candidate_fallback cfg20 ⟨nogo_in, 0⟩ 1 (by decide) (by decide!)
    (by decide!)).2.1 (by decide!)⟩

/-- C16, amended. Dispatch to the function-parameter splitter: in strict mode
(`ls_code_width` off), for a `start` chunk that has no `ONE_LINER` flag, is not `IN_FOR`
and passes the function test (`IN_FCN_DEF`, or `IN_FCN_CALL` at level `brace_level + 1`,
or, outside `IN_FCN_CALL`, a function open paren or semicolon whose parent is a function
prototype, definition or call), `split_line` does what the spec says of the function
splitters: the full splitter first when `ls_func_split_full` is on, returning `start` if it
then fits, and otherwise the result of `split_fcn_params`. -/
theorem C16_func_dispatch_strict (cfg : Config) (ext : Ext) (st : State) (start : Nat)
    (hstrict : cfg.ls_code_width = false)
    (hol : (chunkAt st.chunks start).flags.one_liner = false)
    (hfor : (chunkAt st.chunks start).flags.in_for = false)
    (hfunc : in_func_split (chunkAt st.chunks start) = true) :
    split_line cfg ext st start = func_split_by_spec cfg st start := by
  unfold split_line func_split_by_spec
  simp only [hol, hstrict, hfor, hfunc, Bool.false_eq_true, if_false, if_true]
  cases hfull : cfg.ls_func_split_full
  · simp
  · simp only [if_true]
    cases hp : is_past_width cfg
      (chunkAt (split_fcn_params_full cfg st start).1.chunks
        (split_fcn_params_full cfg st start).2)
    · simp
    · simp

theorem C16_func_dispatch_strict_witness :
    (in_func_split (chunkAt call_in 2) = true
      ∧ final_kinds (some (func_split_by_spec cfg12 ⟨call_in, 0⟩ 2).state)
          = some [CT_FUNC_CALL, CT_FPAREN_OPEN, CT_NEWLINE, CT_WORD, CT_COMMA, CT_NEWLINE,
              CT_WORD, CT_FPAREN_CLOSE, CT_SEMICOLON])
    ∧ split_line cfg12 idExt ⟨call_in, 0⟩ 2 = func_split_by_spec cfg12 ⟨call_in, 0⟩ 2 :=
  ⟨by decide!, C16_func_dispatch_strict cfg12 idExt ⟨call_in, 0⟩ 2 rfl (by decide!) (by decide!)
    (by decide!)⟩

/-- C16, as stated, fails: with `ls_code_width` on, `split_line` skips the for, function and
template branches.  On the call `f(aaaaaaaaaaaa, b);` the chunk `aaaaaaaaaaaa` (position 2)
has no `ONE_LINER` flag, is not `IN_FOR` and passes the function test, yet `split_line`
runs the generic scan (one newline, returns `start`) and not the function splitters (two
newlines, return of the closing paren). -/
theorem C16_counterexample :
    cfg12_relaxed.ls_code_width = true
    ∧ (chunkAt call_in 2).flags.one_liner = false
    ∧ (chunkAt call_in 2).flags.in_for = false
    ∧ in_func_split (chunkAt call_in 2) = true
    ∧ split_line cfg12_relaxed idExt ⟨call_in, 0⟩ 2
        = Outcome.ok (split_line_generic cfg12_relaxed ⟨call_in, 0⟩ 2).1 3
    ∧ kinds (split_line cfg12_relaxed idExt ⟨call_in, 0⟩ 2).state.chunks
        = [CT_FUNC_CALL, CT_FPAREN_OPEN, CT_NEWLINE, CT_WORD, CT_COMMA, CT_WORD,
            CT_FPAREN_CLOSE, CT_SEMICOLON]
    ∧ kinds (func_split_by_spec cfg12_relaxed ⟨call_in, 0⟩ 2).state.chunks
        = [CT_FUNC_CALL, CT_FPAREN_OPEN, CT_NEWLINE, CT_WORD, CT_COMMA, CT_NEWLINE, CT_WORD,
            CT_FPAREN_CLOSE, CT_SEMICOLON]
    ∧ split_line cfg12_relaxed idExt ⟨call_in, 0⟩ 2
        ≠ func_split_by_spec cfg12_relaxed ⟨call_in, 0⟩ 2 := by
  decide!

theorem passes_filters_space (cfg : Config) (s : List Chunk) (k : Nat)
    (h : (chunkAt s k).type = CT_SPACE) : passes_filters cfg s k = false := by
  cases hp : passes_filters cfg s k
  · rfl
  · have := passes_filters_pri_pos cfg s k hp
    unfold priAt at this
    rw [h] at this
    exact absurd this (by decide)

/-- In relaxed mode a scan that starts with an empty record ends on the first chunk that
passes the filters. -/
theorem scan_back_relaxed_first (cfg : Config) (s : List Chunk)
    (hrelaxed : cfg.ls_code_width = true) (k : Nat) (ent : cw_entry) (hent : ent.pc = none)
    (e : Nat) (h : (scan_back cfg s k ent).pc = some e) :
    e < k ∧ ∀ j, e < j → j < k → passes_filters cfg s j = false := by
  induction k generalizing ent with
  | zero =>
    unfold scan_back at h
    rw [hent] at h; cases h
  | succ k ih =>
    unfold scan_back at h
    split at h
    · rw [hent] at h; cases h
    · split at h
      · cases hp : passes_filters cfg s k with
        | true =>
          rw [try_split_here_of_passes_none cfg s ent k hp hent] at h
          simp only [Option.isSome_some, hrelaxed, Bool.and_self, if_true,
            Option.some.injEq] at h
          subst h
          exact ⟨Nat.lt_succ_self _, fun j h1 h2 => absurd h1 (by omega)⟩
        | false =>
          rw [try_split_here_of_not_passes cfg s ent k hp] at h
          simp only [hent, Option.isSome_none, Bool.false_and, Bool.false_eq_true,
            if_false] at h
          obtain ⟨h1, h2⟩ := ih ent hent h
          refine ⟨by omega, fun j hj1 hj2 => ?_⟩
          by_cases hjk : j = k
          · subst hjk; exact hp
          · exact h2 j hj1 (by omega)
      · rename_i hsp
        have hsp : (chunkAt s k).type = CT_SPACE := by simpa using hsp
        obtain ⟨h1, h2⟩ := ih ent hent h
        refine ⟨by omega, fun j hj1 hj2 => ?_⟩
        by_cases hjk : j = k
        · subst hjk; exact passes_filters_space cfg s j hsp
        · exact h2 j hj1 (by omega)

/-- C17. Relaxed-mode short circuit: with `ls_code_width` on, the candidate chosen by the
backward scan of `split_line` is the acceptable candidate nearest to `start`: it is an
acceptable candidate of the scanned line, and no chunk strictly between it and `start`
passes the rejection filters of the scorer. -/
theorem C17_relaxed_nearest (cfg : Config) (s : List Chunk) (start e : Nat)
    (hrelaxed : cfg.ls_code_width = true) (hbest : best_split cfg s start = some e) :
    candidate cfg s start e
    ∧ ∀ j, e < j → j < start → passes_filters cfg s j = false := by
  refine ⟨best_split_candidate cfg s start e hbest, ?_⟩
  unfold best_split at hbest
  split at hbest
  · exact (scan_back_relaxed_first cfg s hrelaxed start {} rfl e hbest).2
  · cases hbest

theorem C17_relaxed_nearest_witness :
    (cfg20_relaxed.ls_code_width = true ∧ best_split cfg20_relaxed paren_in 7 = some 4
      ∧ passes_filters cfg20_relaxed paren_in 1 = true)
    ∧ (candidate cfg20_relaxed paren_in 7 4
      ∧ ∀ j, 4 < j → j < 7 → passes_filters cfg20_relaxed paren_in j = false) :=
  ⟨by decide!, C17_relaxed_nearest cfg20_relaxed paren_in 7 4 rfl (by decide!)⟩

/-! ## The template splitter -/

theorem find_template_prev_found (s : List Chunk) (k p : Nat) (hp : p < k)
    (hstop : template_stop s p = true)
    (hbetween : ∀ j, p < j → j < k → template_stop s j = false) :
    find_template_prev s k = p := by
  induction k with
  | zero => omega
  | succ k ih =>
    unfold find_template_prev
    by_cases hpk : p = k
    · subst hpk
      unfold template_stop at hstop
      rw [if_pos hstop]
    · have hk := hbetween k (by omega) (Nat.lt_succ_self _)
      unfold template_stop at hk
      rw [if_neg (by simp [hk])]
      exact ih (by omega) (fun j h1 h2 => hbetween j h1 (by omega))

theorem find_template_prev_none (s : List Chunk) (k : Nat)
    (hnone : ∀ j, j < k → template_stop s j = false) :
    find_template_prev s k = s.length := by
  induction k with
  | zero => rfl
  | succ k ih =>
    unfold find_template_prev
    have hk := hnone k (Nat.lt_succ_self _)
    unfold template_stop at hk
    rw [if_neg (by simp [hk])]
    exact ih (fun j h => hnone j (by omega))

/-- C19. Template splitter: `split_template(start)` walks backward from `start` to the
nearest newline or comma.  If that is a comma at `p`, it inserts exactly one newline
immediately after the comma, changes nothing else but columns, puts the chunk that followed
the comma at column `1 + (indent_columns if indent_continue == 0, else |indent_continue|)`
and adds 1 to the change counter; if it is a newline, or if the head of the stream is
passed first, the stream and the counter are unchanged. -/
theorem C19_template_splitter (cfg : Config) (st : State) (start : Nat)
    (hstart : start < st.chunks.length) :
    (∀ p, p < start → (chunkAt st.chunks p).type = CT_COMMA →
      (∀ j, p < j → j < start → template_stop st.chunks j = false) →
      (split_template cfg st start).1.chunks.map noCol
          = (with_newline_at st.chunks (p + 1)).map noCol
        ∧ (chunkAt (split_template cfg st start).1.chunks (p + 2)).column = template_col cfg
        ∧ (split_template cfg st start).1.changes = st.changes + 1
        ∧ (split_template cfg st start).2 = start + 1)
    ∧ (∀ p, p < start → (chunkAt st.chunks p).IsNewline = true →
      (∀ j, p < j → j < start → template_stop st.chunks j = false) →
      split_template cfg st start = (st, start))
    ∧ ((∀ j, j < start → template_stop st.chunks j = false) →
      split_template cfg st start = (st, start)) := by
  refine ⟨?_, ?_, ?_⟩
  · intro p hp hcomma hbetween
    have hfind : find_template_prev st.chunks start = p :=
      find_template_prev_found st.chunks start p hp (by simp [template_stop, hcomma]) hbetween
    have hpn : (chunkAt st.chunks p).IsNewline = false := by
      simp [Chunk.IsNewline, hcomma]
    have hnext : GetNext st.chunks p = p + 1 := by
      unfold GetNext; split <;> omega
    have hprev : GetPrev st.chunks (p + 1) = p := by
      unfold GetPrev; rw [if_pos ⟨by omega, by omega⟩]; rfl
    have hnl : newline_add_before st.chunks (p + 1) = with_newline_at st.chunks (p + 1) := by
      unfold newline_add_before with_newline_at
      simp [hprev, hpn]
    have hlen : (with_newline_at st.chunks (p + 1)).length = st.chunks.length + 1 := by
      unfold with_newline_at
      simp
      omega
    have e : split_template cfg st start
        = ({ chunks := reindent_line (with_newline_at st.chunks (p + 1)) (p + 2)
                (template_col cfg),
             changes := st.changes + 1 }, start + 1) := by
      have hrel1 : relocate st.chunks (with_newline_at st.chunks (p + 1)) (p + 1) (p + 1)
          = p + 2 := by
        unfold relocate
        rw [if_pos ⟨by omega, Nat.le_refl _⟩]
      have hrel2 : relocate st.chunks (with_newline_at st.chunks (p + 1)) (p + 1) start
          = start + 1 := by
        unfold relocate
        rw [if_pos ⟨by omega, by omega⟩]
      unfold split_template
      simp only [hstart, if_true, hfind, Nat.lt_trans hp hstart, decide_True, hpn, Bool.not_false,
        Bool.and_self, hnext, hnl, hrel1, hrel2]
      rfl
    rw [e]
    exact ⟨noCol_reindent_line _ _ _, column_reindent_line _ _ _ (by omega), rfl, rfl⟩
  · intro p hp hnl hbetween
    have hfind : find_template_prev st.chunks start = p :=
      find_template_prev_found st.chunks start p hp (by simp [template_stop, hnl]) hbetween
    unfold split_template
    simp only [hstart, if_true, hfind, hnl, Bool.not_true, Bool.and_false, Bool.false_eq_true,
      if_false]
  · intro hnone
    have hfind := find_template_prev_none st.chunks start hnone
    unfold split_template
    simp only [hstart, if_true, hfind, Nat.lt_irrefl, decide_False, Bool.false_and,
      Bool.false_eq_true, if_false]

theorem C19_template_splitter_witness :
    kinds (split_template cfg20 ⟨template_in, 0⟩ 5).1.chunks
        = [CT_OTHER, CT_OTHER, CT_TYPENAME, CT_WORD, CT_COMMA, CT_NEWLINE, CT_TYPENAME, CT_WORD,
            CT_ANGLE_CLOSE]
    ∧ ((split_template cfg20 ⟨template_in, 0⟩ 5).1.chunks.map noCol
          = (with_newline_at template_in (4 + 1)).map noCol
      ∧ (chunkAt (split_template cfg20 ⟨template_in, 0⟩ 5).1.chunks (4 + 2)).column
          = template_col cfg20
      ∧ (split_template cfg20 ⟨template_in, 0⟩ 5).1.changes = 0 + 1
      ∧ (split_template cfg20 ⟨template_in, 0⟩ 5).2 = 5 + 1) :=
  ⟨by decide!, (C19_template_splitter cfg20 ⟨template_in, 0⟩ 5 (by decide)).1 4 (by decide)
    (by decide!) (fun j h1 h2 => by
      have : j = 5 := by omega
      omega)⟩

/-! ## The fatal exits of `split_fcn_params` -/

/-- C22. Scorer rejections: `try_split_here(best, c)` leaves the record `best` unchanged
whenever the priority of `c.type` is 0; or `c.prev` is null; or `c.prev` is a newline and
`c` is no string literal; or `c` is a function open paren whose next chunk is a function
close paren; or `c` is a string literal whose next chunk is no string literal; or the
priority is at least 20 and `ls_code_width` is off; or the priority is 25 and `c.next` is
neither a word nor a kind of priority 25. -/
theorem C22_scorer_rejections (cfg : Config) (s : List Chunk) (best : cw_entry) (c : Nat)
    (h : get_split_pri (chunkAt s c).type = 0
      ∨ s.length ≤ GetPrev s c
      ∨ ((chunkAt s (GetPrev s c)).IsNewline = true ∧ (chunkAt s c).type ≠ CT_STRING)
      ∨ ((chunkAt s c).type = CT_FPAREN_OPEN
          ∧ (chunkAt s (GetNext s c)).type = CT_FPAREN_CLOSE)
      ∨ ((chunkAt s c).type = CT_STRING ∧ (chunkAt s (GetNext s c)).type ≠ CT_STRING)
      ∨ (20 ≤ get_split_pri (chunkAt s c).type ∧ cfg.ls_code_width = false)
      ∨ (get_split_pri (chunkAt s c).type = 25
          ∧ (chunkAt s (GetNext s c)).type ≠ CT_WORD
          ∧ get_split_pri (chunkAt s (GetNext s c)).type ≠ 25)) :
    try_split_here cfg s best c = best := by
  apply try_split_here_of_not_passes
  unfold passes_filters
  simp only
  rcases h with h | h | ⟨h1, h2⟩ | ⟨h1, h2⟩ | ⟨h1, h2⟩ | ⟨h1, h2⟩ | ⟨h1, h2, h3⟩
  · simp [h]
  · split
    · rfl
    · simp [h]
  · split
    · rfl
    · simp [h1, h2]
  · split
    · rfl
    · split
      · rfl
      · simp [h1, h2]
  · split
    · rfl
    · split
      · rfl
      · split
        · rfl
        · simp [h1, h2]
  · split
    · rfl
    · split
      · rfl
      · split
        · rfl
        · split
          · rfl
          · simp [h1, h2]
  · split
    · rfl
    · split
      · rfl
      · split
        · rfl
        · split
          · rfl
          · split
            · rfl
            · simp [h1, h2, h3]

theorem C22_scorer_rejections_witness :
    ((chunkAt empty_in 2).type = CT_FPAREN_OPEN
      ∧ (chunkAt empty_in (GetNext empty_in 2)).type = CT_FPAREN_CLOSE)
    ∧ try_split_here cfg20_relaxed empty_in { pc := some 4, pri := 1 } 2
        = { pc := some 4, pri := 1 } :=
  ⟨by decide!, C22_scorer_rejections cfg20_relaxed empty_in { pc := some 4, pri := 1 } 2
    (Or.inr (Or.inr (Or.inr (Or.inl (by decide!)))))⟩

/-- C23, on the code: for a chunk `c` that passes all rejection filters while the record
holds the chunk `e`, `try_split_here` replaces the record by `(c, priority(c))` when `c` is
deeper than `e` (`c.level > e.level`) and the priority of `c` is below the recorded one,
a case in which the rule of the claim leaves the record unchanged: the code compares the
levels only to let a shallower chunk in, and after that the priorities whatever the
levels. -/
theorem C23_deeper_lower_priority_replaces (cfg : Config) (s : List Chunk) (best : cw_entry)
    (c e : Nat) (hpass : passes_filters cfg s c = true) (hbest : best.pc = some e)
    (hdeeper : (chunkAt s e).level < (chunkAt s c).level)
    (hpri : priAt s c < best.pri) :
    try_split_here cfg s best c = { pc := some c, pri := priAt s c }
    ∧ replaces_by_spec s best c = false := by
  refine ⟨?_, ?_⟩
  · rw [try_split_here_of_passes_some cfg s best c e hpass hbest, if_pos (Or.inr hpri)]
  · unfold replaces_by_spec
    rw [hbest]
    simp only [Bool.or_eq_false_iff, Bool.and_eq_false_iff, decide_eq_false_iff_not]
    exact ⟨by omega, Or.inl (by omega)⟩

theorem C23_deeper_lower_priority_replaces_witness :
    ((chunkAt paren_first_in 5).level = 0 ∧ (chunkAt paren_first_in 2).level = 1
      ∧ priAt paren_first_in 5 = 8 ∧ priAt paren_first_in 2 = 2)
    ∧ (try_split_here cfg20 paren_first_in { pc := some 5, pri := 8 } 2
        = { pc := some 2, pri := 2 }
      ∧ replaces_by_spec paren_first_in { pc := some 5, pri := 8 } 2 = false) :=
  ⟨by decide!, C23_deeper_lower_priority_replaces cfg20 paren_first_in
    { pc := some 5, pri := 8 } 2 5 (by decide!) rfl (by decide!) (by decide!)⟩

theorem LatestMin_step (cfg : Config) (s : List Chunk) (start : Nat)
    (hlevel : ∀ a b, candidate cfg s start a → candidate cfg s start b →
      (chunkAt s a).level = (chunkAt s b).level)
    (k : Nat) (ent : cw_entry) (hk : k < start)
    (hnl : ∀ j, j < start → k ≤ j → (chunkAt s j).IsNewline = false)
    (h : LatestMin cfg s start (k + 1) ent) :
    LatestMin cfg s start k (try_split_here cfg s ent k) := by
  obtain ⟨hmin, hlate⟩ := h
  refine ⟨MinPri_step cfg s start hlevel k ent hk hnl hmin, ?_⟩
  obtain ⟨hv, hnone, hsome⟩ := hmin
  cases hp : passes_filters cfg s k with
  | false =>
    rw [try_split_here_of_not_passes cfg s ent k hp]
    intro e hpc x hx hcx hpx
    by_cases e' : x = k
    · subst e'; rw [hcx.2] at hp; cases hp
    · exact hlate e hpc x (by omega) hcx hpx
  | true =>
    have hkc : candidate cfg s start k := ⟨⟨hk, hnl⟩, hp⟩
    cases hpc : ent.pc with
    | none =>
      rw [try_split_here_of_passes_none cfg s ent k hp hpc]
      intro e he x hx hcx _
      simp only [Option.some.injEq] at he
      subst he
      by_cases e' : x = k
      · omega
      · exact absurd hcx (hnone hpc x (by omega))
    | some e =>
      rw [try_split_here_of_passes_some cfg s ent k e hp hpc]
      obtain ⟨hke, hce, hpri⟩ := hv e hpc
      have hlev := hlevel k e hkc hce
      by_cases hch : (chunkAt s k).level < (chunkAt s e).level ∨ priAt s k < ent.pri
      · rw [if_pos hch]
        have hlt : priAt s k < priAt s e := by
          rcases hch with h1 | h1 <;> omega
        intro e2 he x hx hcx hpx
        simp only [Option.some.injEq] at he
        subst he
        by_cases e' : x = k
        · omega
        · have := hsome e hpc x (by omega) hcx
          omega
      · rw [if_neg hch]
        intro e2 he x hx hcx hpx
        rw [hpc] at he
        simp only [Option.some.injEq] at he
        subst he
        by_cases e' : x = k
        · omega
        · exact hlate e hpc x (by omega) hcx hpx

/-- C24, amended. Tie-break: when all acceptable candidates of the scanned line have one
level, the candidate chosen by the backward scan of `split_line` is, among the acceptable
candidates of its priority, the later one, nearest to `start` (the first one that the
backward scan meets): every acceptable candidate with the priority of the chosen one stands
at or before it. -/
theorem C24_tie_keeps_nearest_to_start (cfg : Config) (s : List Chunk) (start e : Nat)
    (hlevel : ∀ a b, candidate cfg s start a → candidate cfg s start b →
      (chunkAt s a).level = (chunkAt s b).level)
    (hbest : best_split cfg s start = some e)
    (c : Nat) (hc : candidate cfg s start c) (hpri : priAt s c = priAt s e) : c ≤ e := by
  have hstart : start < s.length := by
    unfold best_split at hbest
    split at hbest
    · assumption
    · cases hbest
  have hb : best_split cfg s start = (scan_back cfg s start {}).pc := by
    unfold best_split; simp [hstart]
  rw [hb] at hbest
  cases hmode : cfg.ls_code_width with
  | true =>
    have h := (scan_back_relaxed_first cfg s hmode start {} rfl e hbest).2
    by_contra hlt
    have := h c (by omega) hc.1.1
    rw [hc.2] at this
    cases this
  | false =>
    have hP0 : LatestMin cfg s start start {} := by
      refine ⟨⟨fun x hx => (by cases hx), ?_, fun e he => (by cases he)⟩,
        fun e he => (by cases he)⟩
      intro _ x hx hcx
      have := hcx.1.1
      omega
    obtain ⟨m, hm, hml, _, hlate⟩ :=
      scan_back_strict_induction cfg s start hmode (LatestMin cfg s start)
        (LatestMin_step cfg s start hlevel) start {} (Nat.le_refl _)
        (fun j hj hji => absurd hj (by omega)) hP0
    exact hlate e hbest c (candidate_ge_line_start cfg s start m c hm hml hc) hc hpri

theorem C24_tie_keeps_nearest_to_start_witness :
    (best_split cfg20 sum_in 6 = some 5 ∧ candidate cfg20 sum_in 6 3
      ∧ priAt sum_in 3 = priAt sum_in 5)
    ∧ 3 ≤ 5 :=
  ⟨by decide!, C24_tie_keeps_nearest_to_start cfg20 sum_in 6 5
    (fun a b ha hb => by
      have h1 : a < 6 := ha.1.1
      have h2 : b < 6 := hb.1.1
      interval_cases a <;> interval_cases b <;> rfl)
    (by decide!) 3 (by decide!) (by decide!)⟩

/-- C24, as stated, fails: on `r = aaaa + bbbb + cccccccc` (width 20, scan from the last
word) the two `+` are acceptable candidates of equal level and equal priority; the scan
keeps the later one, at position 5, not the earlier one, at position 3, which is closer to
the start of the line.  This holds in strict and in relaxed mode. -/
theorem C24_counterexample :
    candidate cfg20 sum_in 6 3 ∧ candidate cfg20 sum_in 6 5
    ∧ (chunkAt sum_in 3).level = (chunkAt sum_in 5).level
    ∧ priAt sum_in 3 = priAt sum_in 5
    ∧ best_split cfg20 sum_in 6 = some 5
    ∧ best_split cfg20_relaxed sum_in 6 = some 5 := by
  decide!

/-! ## The semicolons of the for-statement splitter -/

theorem range_succ_reverse (k : Nat) :
    (List.range (k + 1)).reverse = k :: (List.range k).reverse := by
  rw [List.range_succ, List.reverse_append]
  rfl

theorem semis_backward_eq (s : List Chunk) (n k : Nat) (semis : List Nat) :
    semis_backward s n k semis
      = semis ++ ((((List.range k).reverse.takeWhile
          (fun j => (chunkAt s j).flags.in_sparen)).filter
          (fun j => is_for_semi (chunkAt s j))).take (n - semis.length)) := by
  induction k generalizing semis with
  | zero => simp [semis_backward]
  | succ k ih =>
    unfold semis_backward
    rw [range_succ_reverse]
    by_cases hlen : semis.length < n
    · cases hP : (chunkAt s k).flags.in_sparen with
      | false => simp [hP, List.takeWhile_cons]
      | true =>
        simp only [hlen, decide_True, hP, Bool.and_self, if_true, List.takeWhile_cons]
        rw [ih]
        cases hQ : is_for_semi (chunkAt s k) with
        | false => simp [hQ, List.filter_cons]
        | true =>
          simp only [if_true, List.filter_cons, hQ, List.length_append, List.length_singleton]
          have : n - semis.length = (n - (semis.length + 1)) + 1 := by omega
          rw [this, List.take_succ_cons]
          simp
    · have h0 : n - semis.length = 0 := by omega
      simp [hlen, h0]

theorem semis_forward_eq (s : List Chunk) (n fuel pc : Nat) (semis : List Nat)
    (hfuel : s.length - (pc + 1) ≤ fuel) :
    semis_forward s n fuel pc semis
      = semis ++ ((((List.range' (pc + 1) (s.length - (pc + 1))).takeWhile
          (fun j => (chunkAt s j).flags.in_sparen)).filter
          (fun j => is_for_semi (chunkAt s j))).take (n - semis.length)) := by
  induction fuel generalizing pc semis with
  | zero =>
    have h0 : s.length - (pc + 1) = 0 := by omega
    simp [semis_forward, h0]
  | succ fuel ih =>
    unfold semis_forward
    simp only
    by_cases hnext : pc + 1 < s.length
    · have hn : GetNext s pc = pc + 1 := by unfold GetNext; simp [hnext]
      have hr : s.length - (pc + 1) = (s.length - (pc + 1 + 1)) + 1 := by omega
      rw [hn, hr, List.range'_succ]
      by_cases hlen : semis.length < n
      · cases hP : (chunkAt s (pc + 1)).flags.in_sparen with
        | false => simp [hP, List.takeWhile_cons]
        | true =>
          simp only [hlen, decide_True, hnext, hP, Bool.and_self, if_true,
            List.takeWhile_cons]
          rw [ih (pc + 1) _ (by omega)]
          cases hQ : is_for_semi (chunkAt s (pc + 1)) with
          | false => simp [hQ, List.filter_cons]
          | true =>
            simp only [if_true, List.filter_cons, hQ, List.length_append,
              List.length_singleton]
            have : n - semis.length = (n - (semis.length + 1)) + 1 := by omega
            rw [this, List.take_succ_cons]
            simp
      · have h0 : n - semis.length = 0 := by omega
        simp [hlen, h0]
    · have hn : GetNext s pc = s.length := by unfold GetNext; simp [hnext]
      have h0 : s.length - (pc + 1) = 0 := by omega
      simp [hn, h0]

theorem append_take_sub {α : Type} (a b : List α) (n : Nat) (h : a.length ≤ n) :
    a ++ b.take (n - a.length) = (a ++ b).take n := by
  rw [List.take_append_eq_append_take, List.take_of_length_le h]

theorem take_append_take_sub {α : Type} (a b : List α) (n : Nat) :
    a.take n ++ b.take (n - (a.take n).length) = (a ++ b).take n := by
  rw [List.take_append_eq_append_take, List.length_take]
  by_cases h : n ≤ a.length
  · have h1 : n - min n a.length = 0 := by omega
    have h2 : n - a.length = 0 := by omega
    rw [h1, h2]
  · have h1 : min n a.length = a.length := by omega
    rw [h1]

/-- The semicolons that `split_for_stmt` collects are those of the claim. -/
theorem collect_semis_eq_spec (cfg : Config) (s : List Chunk) (start : Nat)
    (hstart : start < s.length) :
    collect_semis cfg s start = semis_by_spec cfg s start := by
  unfold collect_semis semis_by_spec
  simp only [hstart, if_true]
  rw [semis_backward_eq, semis_forward_eq _ _ _ _ _ (by omega)]
  have hself : (if is_for_semi (chunkAt s start) = true then [start] else []).length
      ≤ (if cfg.ls_for_split_full = true then 2 else 1) := by
    split <;> split <;> simp
  rw [append_take_sub _ _ _ hself, take_append_take_sub]

theorem find_open_paren_none (s : List Chunk) (k n : Nat) :
    (find_open_paren s k n).1 = none ↔ ∀ j, j < k → (chunkAt s j).type ≠ CT_SPAREN_OPEN := by
  induction k generalizing n with
  | zero => simp [find_open_paren]
  | succ k ih =>
    unfold find_open_paren
    by_cases h : (chunkAt s k).type = CT_SPAREN_OPEN
    · simp only [h, beq_self_eq_true, if_true]
      constructor
      · intro h1; cases h1
      · intro h1; exact absurd h (h1 k (Nat.lt_succ_self _))
    · have hb : ((chunkAt s k).type == CT_SPAREN_OPEN) = false := by simpa using h
      simp only [hb, Bool.false_eq_true, if_false]
      rw [ih]
      constructor
      · intro h1 j hj
        by_cases e : j = k
        · subst e; exact h
        · exact h1 j (by omega)
      · intro h1 j hj
        exact h1 j (by omega)

/-- C25. For-statement semicolon selection: when a statement open paren precedes `start`,
`split_for_stmt` collects at most `N` semicolons whose parent is the for statement (`N` = 2
if `ls_for_split_full`, else 1): `start` itself first if it is one, then those met scanning
backward from `start` while `IN_SPAREN` is set, then those met scanning forward from
`start` while `IN_SPAREN` is set; and it calls `split_before_chunk` on the chunk after each
collected semicolon in reverse collection order.  When no statement open paren precedes
`start` it changes nothing. -/
theorem C25_for_semicolon_selection (cfg : Config) (st : State) (start : Nat) :
    (sparen_open_before st.chunks start →
      collect_semis cfg st.chunks start = semis_by_spec cfg st.chunks start
      ∧ (semis_by_spec cfg st.chunks start).length ≤ (if cfg.ls_for_split_full then 2 else 1)
      ∧ (∀ p ∈ semis_by_spec cfg st.chunks start, is_for_semi (chunkAt st.chunks p) = true)
      ∧ (split_for_semis cfg st start).1
          = (split_semis cfg (semis_by_spec cfg st.chunks start).reverse id st).1)
    ∧ (¬ sparen_open_before st.chunks start → split_for_stmt cfg st start = (st, start)) := by
  constructor
  · rintro ⟨hstart, j, hj, hjt⟩
    have hcol := collect_semis_eq_spec cfg st.chunks start hstart
    refine ⟨hcol, ?_, ?_, ?_⟩
    · unfold semis_by_spec
      simp only [List.length_take]
      omega
    · intro p hp
      unfold semis_by_spec at hp
      simp only at hp
      have hp := List.mem_of_mem_take hp
      simp only [List.mem_append, List.mem_filter] at hp
      rcases hp with (hp | hp) | hp
      · split at hp
        · rename_i hs
          simp only [List.mem_singleton] at hp
          subst hp
          exact hs
        · cases hp
      · exact hp.2
      · exact hp.2
    · unfold split_for_semis
      simp only [hstart, if_true]
      cases hfo : (find_open_paren st.chunks start 0).1 with
      | none =>
        exact absurd hjt ((find_open_paren_none st.chunks start 0).mp hfo j hj)
      | some op =>
        simp only [hcol]
  · intro hno
    have hnone : (if start < st.chunks.length then find_open_paren st.chunks start 0
        else (none, 0)).1 = none := by
      split
      · rename_i hstart
        rw [find_open_paren_none]
        intro j hj hjt
        exact hno ⟨hstart, j, hj, hjt⟩
      · rfl
    have h1 : split_for_semis cfg st start
        = (st, start, none, (if start < st.chunks.length then find_open_paren st.chunks start 0
            else (none, 0)).2) := by
      unfold split_for_semis
      simp only
      split
      · rfl
      · rename_i op hop
        rw [hnone] at hop
        cases hop
    unfold split_for_stmt
    rw [h1]

theorem C25_for_semicolon_selection_witness :
    (sparen_open_before for_in 11
      ∧ semis_by_spec cfg20 for_in 11 = [9]
      ∧ semis_by_spec cfg20_for_full for_in 11 = [9, 13]
      ∧ semis_by_spec cfg20_for_full for_in 13 = [13, 9])
    ∧ (collect_semis cfg20_for_full for_in 11 = semis_by_spec cfg20_for_full for_in 11
      ∧ (semis_by_spec cfg20_for_full for_in 11).length
          ≤ (if cfg20_for_full.ls_for_split_full then 2 else 1)
      ∧ (∀ p ∈ semis_by_spec cfg20_for_full for_in 11, is_for_semi (chunkAt for_in p) = true)
      ∧ (split_for_semis cfg20_for_full ⟨for_in, 0⟩ 11).1
          = (split_semis cfg20_for_full (semis_by_spec cfg20_for_full for_in 11).reverse id
              ⟨for_in, 0⟩).1) :=
  ⟨by decide!, (C25_for_semicolon_selection cfg20_for_full ⟨for_in, 0⟩ 11).1 (by decide!)⟩

theorem semis_backward_length (s : List Chunk) (n k : Nat) (semis : List Nat)
    (h : semis.length ≤ n) : (semis_backward s n k semis).length ≤ n := by
  rw [semis_backward_eq, List.length_append, List.length_take]
  omega

theorem semis_forward_length (s : List Chunk) (n fuel pc : Nat) (semis : List Nat)
    (h : semis.length ≤ n) : (semis_forward s n fuel pc semis).length ≤ n := by
  induction fuel generalizing pc semis with
  | zero => exact h
  | succ fuel ih =>
    unfold semis_forward
    simp only
    split
    · rename_i hc
      simp only [Bool.and_eq_true, decide_eq_true_eq] at hc
      apply ih
      split
      · simp only [List.length_append, List.length_singleton]; omega
      · exact h
    · exact h

theorem HoldsSemis_push (ac : SemiArray × Nat) (semis : List Nat) (pc : Nat)
    (h : HoldsSemis ac semis) (hlt : ac.2 < 2) :
    ∃ ac1, st_push ac pc = some ac1 ∧ HoldsSemis ac1 (semis ++ [pc]) := by
  obtain ⟨a, c⟩ := ac
  obtain ⟨hc, hget⟩ := h
  simp only at hc hget hlt
  have hc2 : c = 0 ∨ c = 1 := by omega
  rcases hc2 with e | e
  · subst e
    refine ⟨({ a with slot0 := some pc }, 1), rfl, ?_⟩
    have hnil : semis = [] := List.eq_nil_of_length_eq_zero hc.symm
    subst hnil
    refine ⟨rfl, ?_⟩
    intro i hi
    have : i = 0 := by simp only at hi; omega
    subst this
    rfl
  · subst e
    refine ⟨({ a with slot1 := some pc }, 2), rfl, ?_⟩
    match semis, hc, hget with
    | [x], _, hget =>
      refine ⟨rfl, ?_⟩
      intro i hi
      have : i = 0 ∨ i = 1 := by simp only at hi; omega
      rcases this with e | e
      · subst e
        have := hget 0 (by omega)
        simpa [SemiArray.get] using this
      · subst e
        rfl

theorem semis_backward_st_holds (s : List Chunk) (n k : Nat) (hn : n ≤ 2)
    (ac : SemiArray × Nat) (semis : List Nat) (h : HoldsSemis ac semis) :
    ∃ ac1, semis_backward_st s n k ac = some ac1
      ∧ HoldsSemis ac1 (semis_backward s n k semis) := by
  induction k generalizing ac semis with
  | zero => exact ⟨ac, rfl, h⟩
  | succ k ih =>
    unfold semis_backward_st semis_backward
    rw [← h.1]
    split
    · rename_i hc
      simp only [Bool.and_eq_true, decide_eq_true_eq] at hc
      split
      · obtain ⟨ac1, h1, h2⟩ := HoldsSemis_push ac semis k h (by omega)
        rw [h1]
        exact ih ac1 _ h2
      · exact ih ac _ h
    · exact ⟨ac, rfl, h⟩

theorem semis_forward_st_holds (s : List Chunk) (n fuel pc : Nat) (hn : n ≤ 2)
    (ac : SemiArray × Nat) (semis : List Nat) (h : HoldsSemis ac semis) :
    ∃ ac1, semis_forward_st s n fuel pc ac = some ac1
      ∧ HoldsSemis ac1 (semis_forward s n fuel pc semis) := by
  induction fuel generalizing pc ac semis with
  | zero => exact ⟨ac, rfl, h⟩
  | succ fuel ih =>
    unfold semis_forward_st semis_forward
    simp only
    rw [← h.1]
    split
    · rename_i hc
      simp only [Bool.and_eq_true, decide_eq_true_eq] at hc
      split
      · obtain ⟨ac1, h1, h2⟩ := HoldsSemis_push ac semis (GetNext s pc) h (by omega)
        rw [h1]
        exact ih _ ac1 _ h2
      · exact ih _ ac _ h
    · exact ⟨ac, rfl, h⟩

theorem collect_semis_st_holds (cfg : Config) (s : List Chunk) (start : Nat) :
    ∃ ac, collect_semis_st cfg s start = some ac
      ∧ HoldsSemis ac (collect_semis cfg s start) := by
  have hn : (if cfg.ls_for_split_full = true then 2 else 1) ≤ 2 := by split <;> omega
  have h0 : ∃ ac0, (if is_for_semi (chunkAt s start) = true then st_push ({}, 0) start
        else some ({}, 0)) = some ac0
      ∧ HoldsSemis ac0 (if is_for_semi (chunkAt s start) = true then [start] else []) := by
    have hempty : HoldsSemis (({} : SemiArray), 0) [] :=
      ⟨rfl, fun i hi => absurd hi (by simp)⟩
    split
    · exact HoldsSemis_push _ _ start hempty (by decide)
    · exact ⟨_, rfl, hempty⟩
  obtain ⟨ac0, e0, hh0⟩ := h0
  unfold collect_semis_st collect_semis
  simp only
  rw [e0]
  by_cases hstart : start < s.length
  · simp only [hstart, if_true, Option.some_bind]
    obtain ⟨ac1, e1, hh1⟩ := semis_backward_st_holds s _ start hn ac0 _ hh0
    rw [e1]
    exact semis_forward_st_holds s _ s.length start hn ac1 _ hh1
  · simp only [hstart, if_false, Option.some_bind]
    exact semis_forward_st_holds s _ s.length start hn ac0 _ hh0

theorem split_semis_st_eq (cfg : Config) (a : SemiArray) (count : Nat) (semis : List Nat)
    (h : HoldsSemis (a, count) semis) (f : Nat → Nat) (st : State) :
    split_semis_st cfg a count f st = some (split_semis cfg semis.reverse f st) := by
  induction count generalizing semis f st with
  | zero =>
    have hnil : semis = [] := List.eq_nil_of_length_eq_zero h.1.symm
    subst hnil
    rfl
  | succ count ih =>
    obtain ⟨hc, hget⟩ := h
    simp only at hc hget
    rcases List.eq_nil_or_concat semis with e | ⟨init, p, e⟩
    · subst e; simp at hc
    · rw [List.concat_eq_append] at e
      subst e
      have hlen : init.length = count := by
        simp only [List.length_append, List.length_singleton] at hc
        omega
      have hp : a.get count = some p := by
        rw [hget count (Nat.lt_succ_self _), ← hlen]
        simp
      have hinit : HoldsSemis (a, count) init := by
        refine ⟨hlen.symm, ?_⟩
        intro i hi
        simp only at hi
        rw [hget i (by omega), List.getElem?_append_left (by omega)]
      unfold split_semis_st
      rw [hp]
      simp only [List.reverse_append, List.reverse_singleton, List.singleton_append,
        split_semis]
      exact ih init hinit _ _

/-- C27. Bounded semicolon array in `split_for_stmt`: for every input and both values of
`ls_for_split_full`, the collection of the semicolons on the two-slot array `st` succeeds
with every write at index 0 or 1 and a final `count` of at most 2; the slots
`st[0 .. count-1]` hold the collected semicolons, so every slot that the splitting loop
reads (indices `count-1` down to 0) was written before, and the loop runs to its end; when
no for-semicolon was collected (`count` is 0) the loop body never runs and nothing
changes. -/
theorem C27_semicolon_array_bounded (cfg : Config) (st : State) (start : Nat) :
    ∃ a count, collect_semis_st cfg st.chunks start = some (a, count)
      ∧ count ≤ 2
      ∧ count = (collect_semis cfg st.chunks start).length
      ∧ (∀ i, i < count →
          ∃ p, a.get i = some p ∧ (collect_semis cfg st.chunks start)[i]? = some p)
      ∧ split_semis_st cfg a count id st
          = some (split_semis cfg (collect_semis cfg st.chunks start).reverse id st)
      ∧ (count = 0 → split_semis_st cfg a count id st = some (st, id)) := by
  obtain ⟨⟨a, count⟩, e, hh⟩ := collect_semis_st_holds cfg st.chunks start
  have hlen : (collect_semis cfg st.chunks start).length ≤ 2 := by
    have hn : (if cfg.ls_for_split_full = true then 2 else 1) ≤ 2 := by split <;> omega
    unfold collect_semis
    simp only
    refine Nat.le_trans (semis_forward_length _ _ _ _ _ ?_) hn
    have h0 : (if is_for_semi (chunkAt st.chunks start) = true then [start] else []).length
        ≤ (if cfg.ls_for_split_full = true then 2 else 1) := by
      split <;> split <;> simp
    split
    · exact semis_backward_length _ _ _ _ h0
    · exact h0
  refine ⟨a, count, e, ?_, hh.1, ?_, split_semis_st_eq cfg a count _ hh id st, ?_⟩
  · have := hh.1
    simp only at this
    omega
  · intro i hi
    have hg := hh.2 i hi
    have hi2 : i < (collect_semis cfg st.chunks start).length := by
      have := hh.1
      simp only at this
      omega
    refine ⟨(collect_semis cfg st.chunks start)[i], ?_, ?_⟩
    · rw [hg]; exact List.getElem?_eq_getElem hi2
    · exact List.getElem?_eq_getElem hi2
  · intro h0
    subst h0
    rfl

/-! ## The loop of the greedy function-parameter splitter -/

theorem greedy_loop_from_zero (cfg : Config) (g : Greedy) :
    greedy_loop_from cfg 0 g = (g.st, g.fpc, g.start) := rfl

/-- The loop with one more unit of fuel does one iteration and goes on. -/
theorem greedy_loop_from_succ (cfg : Config) (fuel : Nat) (g : Greedy) :
    greedy_loop_from cfg (fuel + 1) g =
      match greedy_step cfg g with
      | none => (g.st, g.fpc, g.start)
      | some g1 => greedy_loop_from cfg fuel g1 := by
  unfold greedy_loop_from greedy_step
  simp only [greedy_loop]
  cases hs : g.splitpoint <;> simp only [] <;> split_ifs <;> rfl

theorem split_fcn_params_greedy_eq (cfg : Config) (st : State) (fpo fpc start : Nat) :
    split_fcn_params_greedy cfg st fpo fpc start
      = greedy_loop_from cfg (4 * st.chunks.length + 4) (greedy_init st fpo fpc start) := rfl

--THMS
theorem greedy_step_end (cfg : Config) (g : Greedy) (h : g.pc = g.endp) :
    greedy_step cfg g = none := by
  unfold greedy_step
  simp [h]

theorem greedy_step_newline (cfg : Config) (g : Greedy) (h : g.pc ≠ g.endp)
    (hnl : (chunkAt g.st.chunks g.pc).IsNewline = true) :
    greedy_step cfg g = some { g with pc := GetNext g.st.chunks g.pc, splitpoint := none } := by
  unfold greedy_step
  simp [h, hnl]

theorem greedy_decides_cases (c : Chunk) (h : greedy_decides c = true) :
    c.type = CT_FPAREN_OPEN ∨ c.type = CT_FPAREN_CLOSE ∨ c.type = CT_COMMA := by
  unfold greedy_decides at h
  simpa [or_assoc] using h

theorem greedy_step_skip (cfg : Config) (g : Greedy) (h : g.pc ≠ g.endp)
    (hnl : (chunkAt g.st.chunks g.pc).IsNewline = false)
    (hd : greedy_decides (chunkAt g.st.chunks g.pc) = false) :
    greedy_step cfg g = some { g with pc := GetNext g.st.chunks g.pc } := by
  unfold greedy_decides at hd
  simp only [Bool.or_eq_false_iff, beq_eq_false_iff_ne, ne_eq] at hd
  obtain ⟨⟨h1, h2⟩, h3⟩ := hd
  unfold greedy_step
  simp [h, hnl, h1, h2, h3]

theorem greedy_step_remember (cfg : Config) (g : Greedy) (h : g.pc ≠ g.endp)
    (hnl : (chunkAt g.st.chunks g.pc).IsNewline = false)
    (hd : greedy_decides (chunkAt g.st.chunks g.pc) = true)
    (hr : greedy_remembers cfg g = true) :
    greedy_step cfg g
      = some { g with pc := GetNext g.st.chunks g.pc,
                      splitpoint :=
                        if ok_to_split_at g.st.chunks g.pc then some g.pc else g.splitpoint,
                      min_col := next_min_col cfg g.st.chunks g.pc g.min_col } := by
  unfold greedy_remembers at hr
  unfold greedy_step ok_to_split_at next_min_col
  rcases greedy_decides_cases _ hd with ht | ht | ht
  all_goals
    cases hs : g.splitpoint with
    | none => simp [h, hnl, ht, hs]
    | some sp =>
      rw [hs] at hr
      simp only at hr
      simp only [h, hnl, ht, hs, hr, if_true, if_false, Bool.false_eq_true]
      simp

theorem greedy_step_keep (cfg : Config) (g : Greedy) (sp : Nat) (h : g.pc ≠ g.endp)
    (hnl : (chunkAt g.st.chunks g.pc).IsNewline = false)
    (hd : greedy_decides (chunkAt g.st.chunks g.pc) = true)
    (hs : g.splitpoint = some sp)
    (hr : greedy_remembers cfg g = false)
    (hk : (chunkAt g.st.chunks (GetNext g.st.chunks sp)).IsNewline = true) :
    greedy_step cfg g
      = some { g with pc := GetNext g.st.chunks sp,
                      min_col := next_min_col cfg g.st.chunks g.pc g.min_col } := by
  unfold greedy_remembers at hr
  rw [hs] at hr
  simp only at hr
  unfold greedy_step next_min_col
  rcases greedy_decides_cases _ hd with ht | ht | ht
  all_goals
    simp only [h, hnl, ht, hs, hr, hk]
    simp

theorem greedy_step_insert (cfg : Config) (g : Greedy) (sp : Nat) (h : g.pc ≠ g.endp)
    (hnl : (chunkAt g.st.chunks g.pc).IsNewline = false)
    (hd : greedy_decides (chunkAt g.st.chunks g.pc) = true)
    (hs : g.splitpoint = some sp)
    (hr : greedy_remembers cfg g = false)
    (hk : (chunkAt g.st.chunks (GetNext g.st.chunks sp)).IsNewline = false) :
    greedy_step cfg g
      = some { st := { chunks := split_after g.st.chunks sp
                                   (next_min_col cfg g.st.chunks g.pc g.min_col),
                       changes := g.st.changes + 1 },
               pc := GetNext (split_after g.st.chunks sp
                                (next_min_col cfg g.st.chunks g.pc g.min_col)) sp,
               endp := relocate g.st.chunks
                 (newline_add_before g.st.chunks (GetNext g.st.chunks sp))
                 (GetNext g.st.chunks sp) g.endp,
               fpc := relocate g.st.chunks
                 (newline_add_before g.st.chunks (GetNext g.st.chunks sp))
                 (GetNext g.st.chunks sp) g.fpc,
               start := relocate g.st.chunks
                 (newline_add_before g.st.chunks (GetNext g.st.chunks sp))
                 (GetNext g.st.chunks sp) g.start,
               splitpoint := some sp,
               min_col := next_min_col cfg g.st.chunks g.pc g.min_col,
               added_newlines := g.added_newlines + 1 } := by
  unfold greedy_remembers at hr
  rw [hs] at hr
  simp only at hr
  unfold greedy_step next_min_col split_after
  rcases greedy_decides_cases _ hd with ht | ht | ht
  all_goals
    simp only [h, hnl, ht, hs, hr, hk]
    simp

--THMS
theorem GetNext_eq_succ (s : List Chunk) (i : Nat) (h : i < s.length) : GetNext s i = i + 1 := by
  unfold GetNext
  split <;> omega

theorem IsNewline_of_type (c d : Chunk) (h : c.type = d.type) : c.IsNewline = d.IsNewline := by
  unfold Chunk.IsNewline
  rw [h]

theorem IsNewline_of_type_newline (c : Chunk) (h : c.type = CT_NEWLINE) :
    c.IsNewline = true := by
  unfold Chunk.IsNewline
  rw [h]
  rfl

/-- A newline added before the successor of a chunk `q` that is no newline is a new chunk
right after `q`. -/
theorem newline_add_after (s : List Chunk) (q : Nat) (hq : q < s.length)
    (hnl : (chunkAt s q).IsNewline = false) :
    ∃ nl : Chunk, nl.type = CT_NEWLINE
      ∧ newline_add_before s (GetNext s q) = s.take (q + 1) ++ nl :: s.drop (q + 1) := by
  rw [GetNext_eq_succ s q hq]
  refine ⟨mkNewline (chunkAt s (GetPrev s (q + 1))), rfl, ?_⟩
  unfold newline_add_before
  have hprev : (chunkAt s (GetPrev s (q + 1))).IsNewline = false := by
    unfold GetPrev
    by_cases h1 : q + 1 < s.length
    · simp [h1, hnl]
    · have : chunkAt s s.length = nullChunk := by
        unfold chunkAt
        rw [List.getD_eq_getElem?_getD, List.getElem?_eq_none (Nat.le_refl _)]
        rfl
      simp only [h1, and_false, if_false, this]
      rfl
  simp [hprev]

theorem length_insert {α : Type} (l : List α) (k : Nat) (x : α) :
    (l.take k ++ x :: l.drop k).length = l.length + 1 := by
  have := congrArg List.length (List.take_append_drop k l)
  simp only [List.length_append, List.length_cons] at this ⊢
  omega

theorem split_after_length (s : List Chunk) (q col : Nat) (hq : q < s.length)
    (hnl : (chunkAt s q).IsNewline = false) :
    (split_after s q col).length = s.length + 1 := by
  obtain ⟨nl, _, e⟩ := newline_add_after s q hq hnl
  unfold split_after
  rw [length_reindent_line, e, length_insert]

theorem relocate_after (s : List Chunk) (q : Nat) (hq : q < s.length)
    (hnl : (chunkAt s q).IsNewline = false) (p : Nat) :
    relocate s (newline_add_before s (GetNext s q)) (GetNext s q) p
      = if q < p then p + 1 else p := by
  obtain ⟨nl, _, e⟩ := newline_add_after s q hq hnl
  unfold relocate
  rw [e, length_insert, GetNext_eq_succ s q hq]
  by_cases h : q < p
  · rw [if_pos h, if_pos ⟨by omega, by omega⟩]
  · rw [if_neg h, if_neg (by omega)]

theorem split_after_kinds (s : List Chunk) (q col : Nat) (hq : q < s.length)
    (hnl : (chunkAt s q).IsNewline = false) :
    kinds (split_after s q col)
      = (kinds s).take (q + 1) ++ CT_NEWLINE :: (kinds s).drop (q + 1) := by
  obtain ⟨nl, hnlt, e⟩ := newline_add_after s q hq hnl
  unfold split_after
  rw [kinds_reindent_line, e]
  unfold kinds
  simp [hnlt, List.map_take, List.map_drop]

theorem split_after_type (s : List Chunk) (q col : Nat) (hq : q < s.length)
    (hnl : (chunkAt s q).IsNewline = false) (p : Nat) :
    (chunkAt (split_after s q col) (if q < p then p + 1 else p)).type = (chunkAt s p).type := by
  rw [chunkAt_type, chunkAt_type, split_after_kinds s q col hq hnl]
  have hk : q + 1 ≤ (kinds s).length := by unfold kinds; simp; omega
  have := getD_insert (kinds s) (q + 1) p CT_NEWLINE CT_NONE hk
  by_cases h : q < p
  · rw [if_pos h]
    rw [if_pos (by omega)] at this
    exact this
  · rw [if_neg h]
    rw [if_neg (by omega)] at this
    exact this

theorem split_after_type_le (s : List Chunk) (q col : Nat) (hq : q < s.length)
    (hnl : (chunkAt s q).IsNewline = false) (p : Nat) (hp : p ≤ q) :
    (chunkAt (split_after s q col) p).type = (chunkAt s p).type := by
  have := split_after_type s q col hq hnl p
  rw [if_neg (by omega)] at this
  exact this

theorem split_after_type_gt (s : List Chunk) (q col : Nat) (hq : q < s.length)
    (hnl : (chunkAt s q).IsNewline = false) (p : Nat) (hp : q < p) :
    (chunkAt (split_after s q col) (p + 1)).type = (chunkAt s p).type := by
  have := split_after_type s q col hq hnl p
  rw [if_pos hp] at this
  exact this

theorem split_after_type_newline (s : List Chunk) (q col : Nat) (hq : q < s.length)
    (hnl : (chunkAt s q).IsNewline = false) :
    (chunkAt (split_after s q col) (q + 1)).type = CT_NEWLINE := by
  rw [chunkAt_type, split_after_kinds s q col hq hnl]
  have hl : ((kinds s).take (q + 1)).length = q + 1 := by
    unfold kinds; simp; omega
  rw [List.getD_eq_getElem?_getD, List.getElem?_append_right (by omega)]
  simp [hl]

theorem split_after_noCol (s : List Chunk) (q col : Nat) (hq : q + 1 < s.length)
    (hnl : (chunkAt s q).IsNewline = false) :
    (split_after s q col).map noCol = (with_newline_at s (q + 1)).map noCol := by
  unfold split_after
  rw [noCol_reindent_line, GetNext_eq_succ s q (by omega)]
  unfold newline_add_before with_newline_at
  have hprev : GetPrev s (q + 1) = q := by
    unfold GetPrev; simp [hq]
  simp [hprev, hnl]

theorem split_after_column (s : List Chunk) (q col : Nat) (hq : q + 1 < s.length)
    (hnl : (chunkAt s q).IsNewline = false) :
    (chunkAt (split_after s q col) (q + 2)).column = col := by
  have hq0 : q < s.length := by omega
  obtain ⟨nl, _, e⟩ := newline_add_after s q hq0 hnl
  have hr := relocate_after s q hq0 hnl (q + 1)
  rw [if_pos (Nat.lt_succ_self _)] at hr
  rw [GetNext_eq_succ s q hq0] at hr
  unfold split_after
  rw [GetNext_eq_succ s q hq0, hr]
  apply column_reindent_line
  rw [GetNext_eq_succ s q hq0] at e
  rw [e, length_insert]
  omega

theorem greedy_remembers_none (cfg : Config) (g : Greedy) (h : g.splitpoint = none) :
    greedy_remembers cfg g = true := by
  unfold greedy_remembers
  rw [h]

/-- C26. Greedy splitter decision step: at a comma, function open paren or function close
paren `c` met by the loop of `split_fcn_params_greedy`, the iteration only records `c` as
the next splitpoint (when `c` is a comma or an open paren not directly followed by its close
paren) if `splitpoint` is null, or `c` is not past the width and (`c` is not `fpc` or
`added_newlines > 0`); otherwise it inserts a newline directly after the recorded
splitpoint unless one is already there, reindents the chunk after it to `min_col`,
increments the change counter and `added_newlines`, and resumes the iteration at
`splitpoint`: the iteration of the code is the step `greedy_decision_by_spec`, and the loop
goes on from there.  A recorded splitpoint is taken to be a chunk of the stream that is
neither its last chunk nor a newline, as it is in every state that the loop reaches. -/
theorem C26_greedy_decision_step (cfg : Config) (g : Greedy)
    (hpc : g.pc ≠ g.endp) (hlen : g.pc < g.st.chunks.length)
    (hnl : (chunkAt g.st.chunks g.pc).IsNewline = false)
    (hd : greedy_decides (chunkAt g.st.chunks g.pc) = true)
    (hsp : ∀ sp, g.splitpoint = some sp →
      sp + 1 < g.st.chunks.length ∧ (chunkAt g.st.chunks sp).IsNewline = false) :
    greedy_step cfg g = some (greedy_decision_by_spec cfg g)
    ∧ ∀ fuel, greedy_loop_from cfg (fuel + 1) g
        = greedy_loop_from cfg fuel (greedy_decision_by_spec cfg g) := by
  have main : greedy_step cfg g = some (greedy_decision_by_spec cfg g) := by
    have hnext : GetNext g.st.chunks g.pc = g.pc + 1 := GetNext_eq_succ _ _ hlen
    cases hr : greedy_remembers cfg g with
    | true =>
      rw [greedy_step_remember cfg g hpc hnl hd hr]
      unfold greedy_remembers at hr
      unfold greedy_decision_by_spec ok_to_split_at
      simp only [hr, hnext]
      rfl
    | false =>
      cases hs : g.splitpoint with
      | none => rw [greedy_remembers_none cfg g hs] at hr; cases hr
      | some sp =>
        obtain ⟨hsp1, hspnl⟩ := hsp sp hs
        have hsp0 : sp < g.st.chunks.length := by omega
        have hnsp : GetNext g.st.chunks sp = sp + 1 := GetNext_eq_succ _ _ hsp0
        have hr2 := hr
        unfold greedy_remembers at hr2
        rw [hs] at hr2
        simp only at hr2
        cases hk : (chunkAt g.st.chunks (sp + 1)).IsNewline with
        | true =>
          rw [greedy_step_keep cfg g sp hpc hnl hd hs hr (by rw [hnsp]; exact hk)]
          unfold greedy_decision_by_spec
          simp only [hs, hr2, hk, hnsp, if_true]
        | false =>
          rw [greedy_step_insert cfg g sp hpc hnl hd hs hr (by rw [hnsp]; exact hk)]
          unfold greedy_decision_by_spec
          simp only [hs, hr2, hk, Bool.false_eq_true, if_false]
          have hstream : split_after g.st.chunks sp
                (next_min_col cfg g.st.chunks g.pc g.min_col)
              = reindent_line (with_newline_at g.st.chunks (sp + 1)) (sp + 2)
                (next_min_col cfg g.st.chunks g.pc g.min_col) := by
            have hrel := relocate_after g.st.chunks sp hsp0 hspnl (sp + 1)
            rw [if_pos (Nat.lt_succ_self _), hnsp] at hrel
            have hnab : newline_add_before g.st.chunks (sp + 1)
                = with_newline_at g.st.chunks (sp + 1) := by
              unfold newline_add_before with_newline_at
              have hprev : GetPrev g.st.chunks (sp + 1) = sp := by
                unfold GetPrev; simp [hsp1]
              simp [hprev, hspnl]
            unfold split_after
            rw [hnsp, hrel, hnab]
          have hlen2 := split_after_length g.st.chunks sp
            (next_min_col cfg g.st.chunks g.pc g.min_col) hsp0 hspnl
          have hpc2 : GetNext (split_after g.st.chunks sp
              (next_min_col cfg g.st.chunks g.pc g.min_col)) sp = sp + 1 :=
            GetNext_eq_succ _ _ (by omega)
          rw [hpc2, relocate_after _ _ hsp0 hspnl, relocate_after _ _ hsp0 hspnl,
            relocate_after _ _ hsp0 hspnl, hstream]
          rfl
  refine ⟨main, ?_⟩
  intro fuel
  rw [greedy_loop_from_succ, main]

theorem C26_greedy_decision_step_witness :
    (greedy_at_comma.pc ≠ greedy_at_comma.endp
      ∧ (chunkAt greedy_at_comma.st.chunks greedy_at_comma.pc).type = CT_COMMA
      ∧ is_past_width cfg12 (chunkAt greedy_at_comma.st.chunks greedy_at_comma.pc) = true
      ∧ (greedy_step cfg12 (greedy_init ⟨call_in, 0⟩ 1 5 3)).bind (greedy_step cfg12)
          = some greedy_at_comma
      ∧ texts (greedy_decision_by_spec cfg12 greedy_at_comma).st.chunks
          = ["f", "(", "\n", "aaaaaaaaaaaa", ",", "b", ")", ";"]
      ∧ (greedy_decision_by_spec cfg12 greedy_at_comma).pc = 2
      ∧ (greedy_decision_by_spec cfg12 greedy_at_comma).st.changes = 1)
    ∧ (greedy_step cfg12 greedy_at_comma = some (greedy_decision_by_spec cfg12 greedy_at_comma)
      ∧ ∀ fuel, greedy_loop_from cfg12 (fuel + 1) greedy_at_comma
          = greedy_loop_from cfg12 fuel (greedy_decision_by_spec cfg12 greedy_at_comma)) :=
  ⟨by decide!, C26_greedy_decision_step cfg12 greedy_at_comma (by decide!) (by decide!)
    (by decide!) (by decide!) (fun sp h => by
      have : sp = 1 := by
        have h' : some 1 = some sp := h
        simpa using h'.symm
      subst this
      decide!)⟩

/-! ## The change counter -/

theorem Balanced.refl (st : State) : Balanced st st := rfl

theorem Balanced.trans {a b c : State} (h1 : Balanced a b) (h2 : Balanced b c) :
    Balanced a c := by
  unfold Balanced at *
  omega

theorem bal_split_before_chunk (cfg : Config) (st : State) (pc : Nat) :
    Balanced st (split_before_chunk cfg st pc) := by
  unfold split_before_chunk
  split
  · rename_i h
    simp only [Bool.and_eq_true, Bool.not_eq_true'] at h
    unfold Balanced
    simp only [length_reindent_line]
    unfold newline_add_before
    rw [if_neg (by simp [h.2]), length_insert]
    omega
  · exact Balanced.refl st

theorem bal_split_line_generic (cfg : Config) (st : State) (start : Nat) :
    Balanced st (split_line_generic cfg st start).1 := by
  unfold split_line_generic
  simp only
  split <;> (repeat' split) <;>
    first
      | exact Balanced.refl st
      | exact bal_split_before_chunk cfg st _

theorem bal_split_semis (cfg : Config) (l : List Nat) (g : Nat → Nat) (st : State) :
    Balanced st (split_semis cfg l g st).1 := by
  induction l generalizing g st with
  | nil => exact Balanced.refl st
  | cons p rest ih =>
    simp only [split_semis]
    exact Balanced.trans (bal_split_before_chunk cfg st _) (ih _ _)

theorem bal_for_scan (cfg : Config) (tok : E_Token) (fuel : Nat) (st : State)
    (op pc start : Nat) : Balanced st (for_scan cfg tok fuel st op pc start).1 := by
  induction fuel generalizing st op pc start with
  | zero => exact Balanced.refl st
  | succ n ih =>
    simp only [for_scan]
    split
    · exact Balanced.refl st
    · split
      · split
        · exact bal_split_before_chunk cfg st _
        · exact Balanced.trans (bal_split_before_chunk cfg st _) (ih _ _ _ _)
      · exact ih _ _ _ _

theorem bal_split_for_semis (cfg : Config) (st : State) (start : Nat) :
    Balanced st (split_for_semis cfg st start).1 := by
  unfold split_for_semis
  simp only
  split
  · exact Balanced.refl st
  · exact bal_split_semis cfg _ _ st

theorem bal_split_for_stmt (cfg : Config) (st : State) (start : Nat) :
    Balanced st (split_for_stmt cfg st start).1 := by
  have h := bal_split_for_semis cfg st start
  unfold split_for_stmt
  split
  · rename_i e; rw [e] at h; exact h
  · rename_i e; rw [e] at h
    simp only
    split
    · exact h
    · split
      · exact Balanced.trans h (bal_for_scan _ _ _ _ _ _ _)
      · exact Balanced.trans h
          (Balanced.trans (bal_for_scan _ _ _ _ _ _ _) (bal_for_scan _ _ _ _ _ _ _))

theorem bal_full_loop (cfg : Config) (fuel : Nat) (st : State) (fpo pc start : Nat) :
    Balanced st (full_loop cfg fuel st fpo pc start).1 := by
  induction fuel generalizing st fpo pc start with
  | zero => exact Balanced.refl st
  | succ n ih =>
    simp only [full_loop]
    repeat' split
    · exact Balanced.refl st
    · exact Balanced.refl st
    · exact Balanced.trans (bal_split_before_chunk cfg st _) (ih _ _ _ _)
    · exact ih _ _ _ _

theorem bal_split_fcn_params_full (cfg : Config) (st : State) (start : Nat) :
    Balanced st (split_fcn_params_full cfg st start).1 := by
  unfold split_fcn_params_full
  exact bal_full_loop _ _ _ _ _ _

theorem not_newline_of_splittable (c : Chunk) (h : splittable_kind c = true) :
    c.IsNewline = false := by
  unfold splittable_kind at h
  simp only [Bool.or_eq_true, beq_iff_eq] at h
  unfold Chunk.IsNewline
  rcases h with h | h <;> rw [h] <;> rfl

theorem bal_split_template (cfg : Config) (st : State) (start : Nat) :
    Balanced st (split_template cfg st start).1 := by
  unfold split_template
  simp only
  generalize (if start < st.chunks.length then find_template_prev st.chunks start
    else st.chunks.length) = prev
  by_cases h : (decide (prev < st.chunks.length) && !(chunkAt st.chunks prev).IsNewline) = true
  · rw [if_pos h]
    simp only [Bool.and_eq_true, decide_eq_true_eq, Bool.not_eq_true'] at h
    obtain ⟨nl, _, e⟩ := newline_add_after st.chunks _ h.1 h.2
    unfold Balanced
    simp only [length_reindent_line]
    rw [e, length_insert]
    omega
  · rw [if_neg h]
    exact Balanced.refl st

theorem splittable_kind_of_type (c d : Chunk) (h : c.type = d.type) :
    splittable_kind c = splittable_kind d := by
  unfold splittable_kind
  rw [h]

theorem splittable_of_ok (s : List Chunk) (pc : Nat) (h : ok_to_split_at s pc = true) :
    splittable_kind (chunkAt s pc) = true := by
  unfold ok_to_split_at at h
  unfold splittable_kind
  simp only [Bool.or_eq_true, Bool.and_eq_true, beq_iff_eq] at h ⊢
  rcases h with h | h
  · exact Or.inl h
  · exact Or.inr h.1

theorem not_ok_of_not_decides (s : List Chunk) (pc : Nat)
    (h : greedy_decides (chunkAt s pc) = false) : ok_to_split_at s pc = false := by
  unfold greedy_decides at h
  simp only [Bool.or_eq_false_iff, beq_eq_false_iff_ne, ne_eq] at h
  unfold ok_to_split_at
  simp [h.1.1, h.2]

/-- The invariant of the greedy loop goes from one iteration to the next. -/
theorem GreedyInv_step (cfg : Config) (g g1 : Greedy) (hinv : GreedyInv g)
    (hstep : greedy_step cfg g = some g1) : GreedyInv g1 := by
  by_cases hpc : g.pc = g.endp
  · rw [greedy_step_end cfg g hpc] at hstep; cases hstep
  have hlt : g.pc < g.endp := Nat.lt_of_le_of_ne hinv.pc_le hpc
  have hlen : g.pc < g.st.chunks.length := Nat.lt_of_lt_of_le hlt hinv.endp_le
  have hnext : GetNext g.st.chunks g.pc = g.pc + 1 := GetNext_eq_succ _ _ hlen
  cases hnl : (chunkAt g.st.chunks g.pc).IsNewline with
  | true =>
    rw [greedy_step_newline cfg g hpc hnl, hnext] at hstep
    simp only [Option.some.injEq] at hstep
    subst hstep
    exact ⟨hlt, hinv.endp_le, fun q h => (by cases h), fun q h => (by cases h),
      fun q h => (by cases h)⟩
  | false =>
    cases hd : greedy_decides (chunkAt g.st.chunks g.pc) with
    | false =>
      rw [greedy_step_skip cfg g hpc hnl hd, hnext] at hstep
      simp only [Option.some.injEq] at hstep
      subst hstep
      have hok := not_ok_of_not_decides _ _ hd
      refine ⟨hlt, hinv.endp_le, ?_, hinv.sp_kind, ?_⟩
      · intro q hq
        have := hinv.sp_le q hq
        show q ≤ g.pc + 1
        omega
      · intro q hq j hj1 hj2
        have hj2 : j < g.pc + 1 := hj2
        by_cases e : j = g.pc
        · subst e; exact ⟨hnl, hok⟩
        · exact hinv.gap q hq j hj1 (by omega)
    | true =>
      cases hr : greedy_remembers cfg g with
      | true =>
        rw [greedy_step_remember cfg g hpc hnl hd hr, hnext] at hstep
        simp only [Option.some.injEq] at hstep
        subst hstep
        cases hok : ok_to_split_at g.st.chunks g.pc with
        | true =>
          refine ⟨hlt, hinv.endp_le, ?_, ?_, ?_⟩
          · intro q hq
            simp only [if_true, Option.some.injEq] at hq
            subst hq
            exact Nat.le_succ _
          · intro q hq
            simp only [if_true, Option.some.injEq] at hq
            subst hq
            exact splittable_of_ok _ _ hok
          · intro q hq j hj1 hj2
            simp only [if_true, Option.some.injEq] at hq
            subst hq
            have hj2 : j < g.pc + 1 := hj2
            omega
        | false =>
          refine ⟨hlt, hinv.endp_le, ?_, ?_, ?_⟩
          · intro q hq
            simp only [Bool.false_eq_true, if_false] at hq
            have := hinv.sp_le q hq
            show q ≤ g.pc + 1
            omega
          · intro q hq
            simp only [Bool.false_eq_true, if_false] at hq
            exact hinv.sp_kind q hq
          · intro q hq j hj1 hj2
            simp only [Bool.false_eq_true, if_false] at hq
            have hj2 : j < g.pc + 1 := hj2
            by_cases e : j = g.pc
            · subst e; exact ⟨hnl, hok⟩
            · exact hinv.gap q hq j hj1 (by omega)
      | false =>
        cases hs : g.splitpoint with
        | none => rw [greedy_remembers_none cfg g hs] at hr; cases hr
        | some sp =>
          have hsple := hinv.sp_le sp hs
          have hsp0 : sp < g.st.chunks.length := by omega
          have hspnl := not_newline_of_splittable _ (hinv.sp_kind sp hs)
          have hnsp : GetNext g.st.chunks sp = sp + 1 := GetNext_eq_succ _ _ hsp0
          cases hk : (chunkAt g.st.chunks (GetNext g.st.chunks sp)).IsNewline with
          | true =>
            rw [greedy_step_keep cfg g sp hpc hnl hd hs hr hk, hnsp] at hstep
            simp only [Option.some.injEq] at hstep
            subst hstep
            refine ⟨?_, hinv.endp_le, ?_, hinv.sp_kind, ?_⟩
            · show sp + 1 ≤ g.endp
              omega
            · intro q hq
              have hq : g.splitpoint = some q := hq
              rw [hs] at hq
              simp only [Option.some.injEq] at hq
              subst hq
              exact Nat.le_succ _
            · intro q hq j hj1 hj2
              have hq : g.splitpoint = some q := hq
              rw [hs] at hq
              simp only [Option.some.injEq] at hq
              subst hq
              have hj2 : j < sp + 1 := hj2
              omega
          | false =>
            rw [greedy_step_insert cfg g sp hpc hnl hd hs hr hk] at hstep
            simp only [Option.some.injEq] at hstep
            subst hstep
            have hlen2 := split_after_length g.st.chunks sp
              (next_min_col cfg g.st.chunks g.pc g.min_col) hsp0 hspnl
            have hpc2 : GetNext (split_after g.st.chunks sp
                (next_min_col cfg g.st.chunks g.pc g.min_col)) sp = sp + 1 :=
              GetNext_eq_succ _ _ (by omega)
            refine ⟨?_, ?_, ?_, ?_, ?_⟩
            · show GetNext _ sp ≤ relocate _ _ _ g.endp
              rw [hpc2, relocate_after _ _ hsp0 hspnl, if_pos (by omega)]
              omega
            · show relocate _ _ _ g.endp ≤ (split_after _ _ _).length
              rw [relocate_after _ _ hsp0 hspnl, if_pos (by omega), hlen2]
              have := hinv.endp_le
              omega
            · intro q hq
              simp only [Option.some.injEq] at hq
              subst hq
              show sp ≤ GetNext _ sp
              rw [hpc2]
              exact Nat.le_succ _
            · intro q hq
              simp only [Option.some.injEq] at hq
              subst hq
              show splittable_kind (chunkAt (split_after _ _ _) sp) = true
              rw [splittable_kind_of_type _ _
                (split_after_type_le _ _ _ hsp0 hspnl sp (Nat.le_refl _))]
              exact hinv.sp_kind sp hs
            · intro q hq j hj1 hj2
              simp only [Option.some.injEq] at hq
              subst hq
              have hj2 : j < GetNext _ sp := hj2
              rw [hpc2] at hj2
              omega

/-- One iteration of the greedy loop counts one change for every chunk it inserts. -/
theorem bal_greedy_step (cfg : Config) (g g1 : Greedy) (hinv : GreedyInv g)
    (hstep : greedy_step cfg g = some g1) : Balanced g.st g1.st := by
  by_cases hpc : g.pc = g.endp
  · rw [greedy_step_end cfg g hpc] at hstep; cases hstep
  have hlt : g.pc < g.endp := Nat.lt_of_le_of_ne hinv.pc_le hpc
  cases hnl : (chunkAt g.st.chunks g.pc).IsNewline with
  | true =>
    rw [greedy_step_newline cfg g hpc hnl] at hstep
    simp only [Option.some.injEq] at hstep
    subst hstep
    exact Balanced.refl _
  | false =>
    cases hd : greedy_decides (chunkAt g.st.chunks g.pc) with
    | false =>
      rw [greedy_step_skip cfg g hpc hnl hd] at hstep
      simp only [Option.some.injEq] at hstep
      subst hstep
      exact Balanced.refl _
    | true =>
      cases hr : greedy_remembers cfg g with
      | true =>
        rw [greedy_step_remember cfg g hpc hnl hd hr] at hstep
        simp only [Option.some.injEq] at hstep
        subst hstep
        exact Balanced.refl _
      | false =>
        cases hs : g.splitpoint with
        | none => rw [greedy_remembers_none cfg g hs] at hr; cases hr
        | some sp =>
          have hsple := hinv.sp_le sp hs
          have hsp0 : sp < g.st.chunks.length := by
            have := hinv.endp_le
            omega
          have hspnl := not_newline_of_splittable _ (hinv.sp_kind sp hs)
          cases hk : (chunkAt g.st.chunks (GetNext g.st.chunks sp)).IsNewline with
          | true =>
            rw [greedy_step_keep cfg g sp hpc hnl hd hs hr hk] at hstep
            simp only [Option.some.injEq] at hstep
            subst hstep
            exact Balanced.refl _
          | false =>
            rw [greedy_step_insert cfg g sp hpc hnl hd hs hr hk] at hstep
            simp only [Option.some.injEq] at hstep
            subst hstep
            have hlen2 := split_after_length g.st.chunks sp
              (next_min_col cfg g.st.chunks g.pc g.min_col) hsp0 hspnl
            unfold Balanced
            simp only [hlen2]
            omega

theorem bal_greedy_loop_from (cfg : Config) (fuel : Nat) (g : Greedy) (hinv : GreedyInv g) :
    Balanced g.st (greedy_loop_from cfg fuel g).1 := by
  induction fuel generalizing g with
  | zero => exact Balanced.refl _
  | succ n ih =>
    rw [greedy_loop_from_succ]
    cases hstep : greedy_step cfg g with
    | none => exact Balanced.refl _
    | some g1 =>
      exact Balanced.trans (bal_greedy_step cfg g g1 hinv hstep)
        (ih g1 (GreedyInv_step cfg g g1 hinv hstep))

theorem GreedyInv_init (st : State) (fpo fpc start : Nat) (hle : fpo ≤ fpc)
    (hfpc : fpc < st.chunks.length) (hkind : (chunkAt st.chunks fpo).type = CT_FPAREN_OPEN) :
    GreedyInv (greedy_init st fpo fpc start) := by
  have hn : GetNext st.chunks fpc = fpc + 1 := GetNext_eq_succ _ _ hfpc
  unfold greedy_init
  refine ⟨?_, ?_, ?_, ?_, ?_⟩
  · show fpo ≤ GetNext st.chunks fpc
    omega
  · show GetNext st.chunks fpc ≤ st.chunks.length
    omega
  · intro q hq
    simp only [Option.some.injEq] at hq
    subst hq
    exact Nat.le_refl _
  · intro q hq
    simp only [Option.some.injEq] at hq
    subst hq
    unfold splittable_kind
    simp [hkind]
  · intro q hq j hj1 hj2
    simp only [Option.some.injEq] at hq
    subst hq
    have hj2 : j < fpo := hj2
    omega

theorem prevTypeFrom_found (s : List Chunk) (t : E_Token) (lvl : Int) (k : Nat)
    (hk : k ≤ s.length) (h : prevTypeFrom s t lvl k < s.length) :
    prevTypeFrom s t lvl k < k ∧ (chunkAt s (prevTypeFrom s t lvl k)).type = t := by
  induction k with
  | zero => simp [prevTypeFrom] at h
  | succ k ih =>
    unfold prevTypeFrom at h ⊢
    split
    · rename_i hm
      simp only [Bool.and_eq_true, beq_iff_eq] at hm
      exact ⟨Nat.lt_succ_self _, hm.1⟩
    · rename_i hm
      rw [if_neg hm] at h
      have := ih (by omega) h
      exact ⟨by omega, this.2⟩

theorem GetPrevType_found (s : List Chunk) (i : Nat) (t : E_Token) (lvl : Int)
    (h : GetPrevType s i t lvl < s.length) : (chunkAt s (GetPrevType s i t lvl)).type = t := by
  unfold GetPrevType at h ⊢
  split
  · rename_i hs
    rw [if_pos hs] at h
    exact (prevTypeFrom_found s _ _ i (by omega) h).2
  · rename_i hs
    rw [if_neg hs] at h
    omega

theorem le_GetNextType (s : List Chunk) (i : Nat) (t : E_Token) (lvl : Int)
    (h : GetNextType s i t lvl < s.length) : i ≤ GetNextType s i t lvl := by
  unfold GetNextType at h ⊢
  split
  · omega
  · rename_i hs
    rw [if_neg hs] at h
    omega

theorem bal_split_fcn_params_greedy (cfg : Config) (st : State) (fpo fpc start : Nat)
    (hle : fpo ≤ fpc) (hfpc : fpc < st.chunks.length)
    (hkind : (chunkAt st.chunks fpo).type = CT_FPAREN_OPEN) :
    Balanced st (split_fcn_params_greedy cfg st fpo fpc start).1 := by
  rw [split_fcn_params_greedy_eq]
  exact bal_greedy_loop_from cfg _ _ (GreedyInv_init st fpo fpc start hle hfpc hkind)

theorem bal_split_fcn_params (cfg : Config) (st : State) (start : Nat) :
    Balanced st (split_fcn_params cfg st start).state := by
  unfold split_fcn_params
  simp only
  split_ifs with h0 h1 h2 h3 h4 h5 h6
  all_goals first
    | exact Balanced.refl st
    | exact bal_split_fcn_params_greedy cfg st _ _ _ (le_GetNextType _ _ _ _ (by omega))
        (by omega) (by simpa using h0)
    | exact bal_split_fcn_params_greedy cfg st _ _ _ (le_GetNextType _ _ _ _ (by omega))
        (by omega) (GetPrevType_found _ _ _ _ (by omega))

theorem split_line_ext_irrelevant (cfg : Config) (ext ext1 : Ext) (st : State) (start : Nat)
    (h : (chunkAt st.chunks start).flags.one_liner = false) :
    split_line cfg ext st start = split_line cfg ext1 st start := by
  unfold split_line
  simp [h]

theorem bal_split_line (cfg : Config) (ext : Ext) (st : State) (start : Nat)
    (h : (chunkAt st.chunks start).flags.one_liner = false) :
    Balanced st (split_line cfg ext st start).state := by
  unfold split_line
  simp only [h, Bool.false_eq_true, if_false]
  split_ifs
  all_goals first
    | exact bal_split_line_generic cfg st start
    | exact bal_split_for_stmt cfg st start
    | exact Balanced.trans (bal_split_for_stmt cfg st start) (bal_split_line_generic _ _ _)
    | exact bal_split_fcn_params_full cfg st start
    | exact Balanced.trans (bal_split_fcn_params_full cfg st start) (bal_split_fcn_params _ _ _)
    | exact bal_split_fcn_params cfg st start
    | exact bal_split_template cfg st start

theorem idExt_stable {α : Type} (f : List Chunk → α) : ExtStable f idExt :=
  ⟨fun _ _ => rfl, fun _ _ => rfl⟩

/-- An iteration of the loop of `do_code_width` that splits no one-liner counts one change
for every chunk it inserts and keeps the token sequence. -/
theorem bal_do_code_width_step (cfg : Config) (ext : Ext) (d : Driver)
    (h : splits_one_liner cfg d = false) :
    Balanced d.st (do_code_width_step cfg ext d).st
    ∧ tokens (do_code_width_step cfg ext d).st.chunks = tokens d.st.chunks := by
  unfold do_code_width_step
  split
  · rename_i hrun
    simp only
    split_ifs with h1 h2 h3
    · exact ⟨Balanced.refl _, rfl⟩
    · exact ⟨Balanced.refl _, rfl⟩
    · have hone : (chunkAt d.st.chunks d.pc).flags.one_liner = false := by
        unfold splits_one_liner offending at h
        simp only [hrun, decide_True, Bool.true_and, Nat.not_le.mp h1, h2] at h
        have h3' : ((chunkAt d.st.chunks d.pc).type == CT_VBRACE_CLOSE
            && IsLastChunkOnLine d.st.chunks d.pc) = false := by
          cases hv : ((chunkAt d.st.chunks d.pc).type == CT_VBRACE_CLOSE
            && IsLastChunkOnLine d.st.chunks d.pc) with
          | true => exact absurd hv h3
          | false => rfl
        rw [h3'] at h
        simpa using h
      have hb := bal_split_line cfg ext d.st d.pc hone
      have ht := stable_split_line tokens_stable cfg idExt (idExt_stable tokens) d.st d.pc
      rw [← split_line_ext_irrelevant cfg ext idExt d.st d.pc hone] at ht
      split
      · rename_i e; rw [e] at hb ht; exact ⟨hb, ht⟩
      · rename_i e; rw [e] at hb ht; exact ⟨hb, ht⟩
    · exact ⟨Balanced.refl _, rfl⟩
  · exact ⟨Balanced.refl _, rfl⟩

theorem length_eq_newlines_add_tokens (s : List Chunk) :
    s.length = newline_count s + (tokens s).length := by
  unfold newline_count tokens
  rw [List.length_map]
  induction s with
  | nil => rfl
  | cons c rest ih =>
    simp only [List.filter_cons, List.length_cons]
    cases c.IsNewline <;> simp <;> omega

/-- C21. Change counter accounting: over any run of the loop of `do_code_width` in which
`split_line` is never called on a `ONE_LINER` chunk, after every iteration the change
counter has grown by exactly the number of chunks inserted into the stream, these chunks
are newline chunks, and nothing else was inserted or removed. -/
theorem C21_change_counter_accounting (cfg : Config) (ext : Ext) (st : State)
    (hno : ∀ n, splits_one_liner cfg (do_code_width_run cfg ext st n) = false) (n : Nat) :
    (do_code_width_run cfg ext st n).st.changes + st.chunks.length
        = st.changes + (do_code_width_run cfg ext st n).st.chunks.length
    ∧ (do_code_width_run cfg ext st n).st.changes + newline_count st.chunks
        = st.changes + newline_count (do_code_width_run cfg ext st n).st.chunks
    ∧ tokens (do_code_width_run cfg ext st n).st.chunks = tokens st.chunks := by
  have main : Balanced st (do_code_width_run cfg ext st n).st
      ∧ tokens (do_code_width_run cfg ext st n).st.chunks = tokens st.chunks := by
    induction n with
    | zero => exact ⟨Balanced.refl _, rfl⟩
    | succ n ih =>
      have hs := bal_do_code_width_step cfg ext _ (hno n)
      have e : do_code_width_run cfg ext st (n + 1)
          = do_code_width_step cfg ext (do_code_width_run cfg ext st n) := by
        unfold do_code_width_run
        rw [Function.iterate_succ_apply']
      rw [e]
      exact ⟨Balanced.trans ih.1 hs.1, hs.2.trans ih.2⟩
  obtain ⟨hb, ht⟩ := main
  refine ⟨hb, ?_, ht⟩
  have h1 := length_eq_newlines_add_tokens st.chunks
  have h2 := length_eq_newlines_add_tokens (do_code_width_run cfg ext st n).st.chunks
  rw [ht] at h2
  unfold Balanced at hb
  omega

theorem no_one_liner_stable : Stable no_one_liner := by
  constructor
  · intro s pc
    unfold newline_add_before
    split
    · rfl
    · unfold no_one_liner
      cases hall : s.all (fun c => !c.flags.one_liner) with
      | true =>
        have hprev : (chunkAt s (GetPrev s pc)).flags.one_liner = false := by
          unfold chunkAt
          rw [List.getD_eq_getElem?_getD]
          cases hg : s[GetPrev s pc]? with
          | none => rfl
          | some c =>
            have hmem : c ∈ s := List.getElem?_mem hg
            have := List.all_eq_true.mp hall c hmem
            simpa using this
        have h2 : (s.take pc ++ s.drop pc).all (fun c => !c.flags.one_liner) = true := by
          rw [List.take_append_drop]; exact hall
        rw [List.all_append] at h2 ⊢
        simp only [Bool.and_eq_true] at h2
        simp [List.all_cons, mkNewline, hprev, h2.1, h2.2]
      | false =>
        have h2 : (s.take pc ++ s.drop pc).all (fun c => !c.flags.one_liner) = false := by
          rw [List.take_append_drop]; exact hall
        rw [List.all_append] at h2 ⊢
        rw [List.all_cons]
        cases h3 : (s.take pc).all (fun c => !c.flags.one_liner) with
        | false => rfl
        | true =>
          rw [h3] at h2
          simp only [Bool.true_and] at h2
          rw [h2]
          simp
  · intro s pc col
    have h : ∀ l : List Chunk, no_one_liner l = (l.map noCol).all (fun c => !c.flags.one_liner) := by
      intro l
      unfold no_one_liner
      rw [List.all_map]
      rfl
    rw [h, h, noCol_reindent_line]

/-- On a stream without `ONE_LINER` chunks no iteration splits a one-liner. -/
theorem run_splits_no_one_liner (cfg : Config) (ext : Ext) (st : State)
    (h : no_one_liner st.chunks = true) (n : Nat) :
    splits_one_liner cfg (do_code_width_run cfg ext st n) = false := by
  have hrun : do_code_width_run cfg ext st n = do_code_width_run cfg idExt st n
      ∧ no_one_liner (do_code_width_run cfg ext st n).st.chunks = true := by
    induction n with
    | zero => exact ⟨rfl, h⟩
    | succ n ih =>
      have e : ∀ x : Ext, do_code_width_run cfg x st (n + 1)
          = do_code_width_step cfg x (do_code_width_run cfg x st n) := by
        intro x
        unfold do_code_width_run
        rw [Function.iterate_succ_apply']
      have hflag : ∀ i, (chunkAt (do_code_width_run cfg idExt st n).st.chunks i).flags.one_liner
          = false := by
        intro i
        have hall := ih.2
        rw [ih.1] at hall
        unfold chunkAt
        rw [List.getD_eq_getElem?_getD]
        cases hg : (do_code_width_run cfg idExt st n).st.chunks[i]? with
        | none => rfl
        | some c =>
          have hmem := List.getElem?_mem hg
          have := List.all_eq_true.mp hall c hmem
          simpa using this
      have hstep : do_code_width_step cfg ext (do_code_width_run cfg idExt st n)
          = do_code_width_step cfg idExt (do_code_width_run cfg idExt st n) := by
        unfold do_code_width_step
        rw [split_line_ext_irrelevant cfg ext idExt _ _ (hflag _)]
      rw [e ext, e idExt, ih.1, hstep]
      refine ⟨rfl, ?_⟩
      rw [stable_do_code_width_step no_one_liner_stable cfg idExt (idExt_stable _)]
      rw [← ih.1]
      exact ih.2
  unfold splits_one_liner
  have hflag : (chunkAt (do_code_width_run cfg ext st n).st.chunks
      (do_code_width_run cfg ext st n).pc).flags.one_liner = false := by
    unfold chunkAt
    rw [List.getD_eq_getElem?_getD]
    cases hg : (do_code_width_run cfg ext st n).st.chunks[(do_code_width_run cfg ext st n).pc]? with
    | none => rfl
    | some c =>
      have hmem := List.getElem?_mem hg
      have := List.all_eq_true.mp hrun.2 c hmem
      simpa using this
  rw [hflag]
  simp

theorem C21_change_counter_accounting_witness :
    ((do_code_width_run cfg20 idExt ⟨idem_in, 0⟩ 10).st.changes = 1
      ∧ (do_code_width_run cfg20 idExt ⟨idem_in, 0⟩ 10).st.chunks.length = 6)
    ∧ ((do_code_width_run cfg20 idExt ⟨idem_in, 0⟩ 10).st.changes + idem_in.length
        = 0 + (do_code_width_run cfg20 idExt ⟨idem_in, 0⟩ 10).st.chunks.length
      ∧ (do_code_width_run cfg20 idExt ⟨idem_in, 0⟩ 10).st.changes + newline_count idem_in
          = 0 + newline_count (do_code_width_run cfg20 idExt ⟨idem_in, 0⟩ 10).st.chunks
      ∧ tokens (do_code_width_run cfg20 idExt ⟨idem_in, 0⟩ 10).st.chunks = tokens idem_in) :=
  ⟨by decide!, C21_change_counter_accounting cfg20 idExt ⟨idem_in, 0⟩
    (run_splits_no_one_liner cfg20 idExt ⟨idem_in, 0⟩ (by decide!)) 10⟩

/-! ## Termination of the greedy function-parameter splitter -/

theorem count_splittable_add (s : List Chunk) (lo a b : Nat) :
    count_splittable s lo (a + b) = count_splittable s lo a + count_splittable s (lo + a) b := by
  induction a generalizing lo with
  | zero => simp [count_splittable]
  | succ a ih =>
    have e : a + 1 + b = (a + b) + 1 := by omega
    rw [e]
    simp only [count_splittable]
    rw [ih (lo + 1)]
    have e2 : lo + 1 + a = lo + (a + 1) := by omega
    rw [e2]
    omega

theorem count_splittable_le (s : List Chunk) (lo n : Nat) : count_splittable s lo n ≤ n := by
  induction n generalizing lo with
  | zero => simp [count_splittable]
  | succ n ih =>
    simp only [count_splittable]
    have := ih (lo + 1)
    split <;> omega

theorem splittable_between_le (s : List Chunk) (lo hi : Nat) :
    splittable_between s lo hi ≤ hi - lo := count_splittable_le s lo _

theorem splittable_between_mono (s : List Chunk) (lo lo1 hi : Nat) (h : lo ≤ lo1) :
    splittable_between s lo1 hi ≤ splittable_between s lo hi := by
  unfold splittable_between
  by_cases h1 : lo1 ≤ hi
  · have e : hi - lo = (lo1 - lo) + (hi - lo1) := by omega
    rw [e, count_splittable_add]
    have e2 : lo + (lo1 - lo) = lo1 := by omega
    rw [e2]
    omega
  · have e : hi - lo1 = 0 := by omega
    rw [e]
    simp [count_splittable]

theorem splittable_between_succ (s : List Chunk) (lo hi : Nat) (h : lo < hi)
    (hk : splittable_kind (chunkAt s lo) = true) :
    splittable_between s lo hi = splittable_between s (lo + 1) hi + 1 := by
  unfold splittable_between
  have e : hi - lo = (hi - (lo + 1)) + 1 := by omega
  rw [e]
  simp only [count_splittable, hk, if_true]
  omega

theorem count_splittable_shift (s : List Chunk) (q col : Nat) (hq : q < s.length)
    (hnl : (chunkAt s q).IsNewline = false) (n lo : Nat) (hlo : q < lo) :
    count_splittable (split_after s q col) (lo + 1) n = count_splittable s lo n := by
  induction n generalizing lo with
  | zero => rfl
  | succ n ih =>
    simp only [count_splittable]
    rw [ih (lo + 1) (by omega),
      splittable_kind_of_type _ _ (split_after_type_gt s q col hq hnl lo hlo)]

theorem splittable_between_shift (s : List Chunk) (q col : Nat) (hq : q < s.length)
    (hnl : (chunkAt s q).IsNewline = false) (lo hi : Nat) (hlo : q < lo) :
    splittable_between (split_after s q col) (lo + 1) (hi + 1) = splittable_between s lo hi := by
  unfold splittable_between
  have e : hi + 1 - (lo + 1) = hi - lo := by omega
  rw [e]
  exact count_splittable_shift s q col hq hnl _ lo hlo

theorem chunkAt_of_length_le (s : List Chunk) (i : Nat) (h : s.length ≤ i) :
    chunkAt s i = nullChunk := by
  unfold chunkAt
  rw [List.getD_eq_getElem?_getD, List.getElem?_eq_none h]
  rfl

theorem chunkAt_GetNext (s : List Chunk) (i : Nat) :
    chunkAt s (GetNext s i) = chunkAt s (i + 1) := by
  unfold GetNext
  split
  · rfl
  · rw [chunkAt_of_length_le s _ (Nat.le_refl _), chunkAt_of_length_le s _ (by omega)]

theorem ok_to_split_at_shift (s : List Chunk) (q col : Nat) (hq : q < s.length)
    (hnl : (chunkAt s q).IsNewline = false) (p : Nat) (hp : q < p) :
    ok_to_split_at (split_after s q col) (p + 1) = ok_to_split_at s p := by
  unfold ok_to_split_at
  rw [chunkAt_GetNext, chunkAt_GetNext, split_after_type_gt s q col hq hnl p hp,
    split_after_type_gt s q col hq hnl (p + 1) (by omega)]

theorem greedy_run_none (cfg : Config) (n : Nat) (g : Greedy) (h : greedy_step cfg g = none) :
    greedy_run cfg (n + 1) g = some (g, []) := by
  simp only [greedy_run, h]

theorem greedy_run_step (cfg : Config) (n : Nat) (g g1 : Greedy)
    (h : greedy_step cfg g = some g1) :
    greedy_run cfg (n + 1) g
      = (greedy_run cfg n g1).map (fun r => (r.1, (rewind_of cfg g).toList ++ r.2)) := by
  simp only [greedy_run, h]

theorem greedy_run_step_quiet (cfg : Config) (n : Nat) (g g1 : Greedy)
    (h : greedy_step cfg g = some g1) (hr : rewind_of cfg g = none) :
    greedy_run cfg (n + 1) g = greedy_run cfg n g1 := by
  rw [greedy_run_step cfg n g g1 h, hr]
  cases greedy_run cfg n g1 with
  | none => rfl
  | some r => rfl

/-- A finished run is what the loop returns, with the same fuel. -/
theorem greedy_loop_from_of_run (cfg : Config) (fuel : Nat) (g gf : Greedy) (l : List Nat)
    (h : greedy_run cfg fuel g = some (gf, l)) :
    greedy_loop_from cfg fuel g = (gf.st, gf.fpc, gf.start) := by
  induction fuel generalizing g l with
  | zero => simp [greedy_run] at h
  | succ n ih =>
    rw [greedy_loop_from_succ]
    cases hs : greedy_step cfg g with
    | none =>
      rw [greedy_run_none cfg n g hs] at h
      simp only [Option.some.injEq, Prod.mk.injEq] at h
      rw [← h.1]
    | some g1 =>
      rw [greedy_run_step cfg n g g1 hs] at h
      cases hr : greedy_run cfg n g1 with
      | none => rw [hr] at h; cases h
      | some r =>
        obtain ⟨r1, r2⟩ := r
        rw [hr] at h
        simp only [Option.map_some', Option.some.injEq, Prod.mk.injEq] at h
        obtain ⟨h1, _⟩ := h
        subst h1
        exact ih g1 r2 hr

/-- More fuel does not change a finished run. -/
theorem greedy_run_mono (cfg : Config) (fuel more : Nat) (g : Greedy) (r : Greedy × List Nat)
    (h : greedy_run cfg fuel g = some r) : greedy_run cfg (fuel + more) g = some r := by
  induction fuel generalizing g r with
  | zero => simp [greedy_run] at h
  | succ n ih =>
    have e : n + 1 + more = (n + more) + 1 := by omega
    rw [e]
    cases hs : greedy_step cfg g with
    | none =>
      rw [greedy_run_none cfg n g hs] at h
      rw [greedy_run_none cfg _ g hs, h]
    | some g1 =>
      rw [greedy_run_step cfg n g g1 hs] at h
      rw [greedy_run_step cfg _ g g1 hs]
      cases hr : greedy_run cfg n g1 with
      | none => rw [hr] at h; cases h
      | some r1 =>
        rw [ih g1 r1 hr]
        rw [hr] at h
        exact h

theorem rewind_of_newline (cfg : Config) (g : Greedy)
    (h : (chunkAt g.st.chunks g.pc).IsNewline = true) : rewind_of cfg g = none := by
  unfold rewind_of
  simp [h]

theorem rewind_of_skip (cfg : Config) (g : Greedy)
    (h : greedy_decides (chunkAt g.st.chunks g.pc) = false) : rewind_of cfg g = none := by
  unfold rewind_of
  simp [h]

theorem rewind_of_remember (cfg : Config) (g : Greedy)
    (h : greedy_remembers cfg g = true) : rewind_of cfg g = none := by
  unfold rewind_of
  simp [h]

theorem rewind_of_split (cfg : Config) (g : Greedy) (hpc : g.pc ≠ g.endp)
    (hnl : (chunkAt g.st.chunks g.pc).IsNewline = false)
    (hd : greedy_decides (chunkAt g.st.chunks g.pc) = true)
    (hr : greedy_remembers cfg g = false) : rewind_of cfg g = g.splitpoint := by
  unfold rewind_of
  simp [hpc, hnl, hd, hr]

/-- With no splitpoint recorded, the loop walks over chunks that it would not record
without doing anything but recomputing `min_col`. -/
theorem greedy_run_gap (cfg : Config) (k : Nat) (g : Greedy) (hs : g.splitpoint = none)
    (hk : g.pc + k ≤ g.endp) (hend : g.endp ≤ g.st.chunks.length)
    (hgap : ∀ j, g.pc ≤ j → j < g.pc + k → ok_to_split_at g.st.chunks j = false) (n : Nat) :
    ∃ m, greedy_run cfg (n + k) g = greedy_run cfg n { g with pc := g.pc + k, min_col := m } := by
  induction k generalizing g with
  | zero => exact ⟨g.min_col, rfl⟩
  | succ k ih =>
    have hpc : g.pc ≠ g.endp := by omega
    have hlen : g.pc < g.st.chunks.length := by omega
    have hnext : GetNext g.st.chunks g.pc = g.pc + 1 := GetNext_eq_succ _ _ hlen
    have hok := hgap g.pc (Nat.le_refl _) (by omega)
    have key : ∃ m, greedy_step cfg g = some { g with pc := g.pc + 1, min_col := m }
        ∧ rewind_of cfg g = none := by
      cases hnl : (chunkAt g.st.chunks g.pc).IsNewline with
      | true =>
        refine ⟨g.min_col, ?_, rewind_of_newline cfg g hnl⟩
        rw [greedy_step_newline cfg g hpc hnl, hnext, ← hs]
      | false =>
        cases hd : greedy_decides (chunkAt g.st.chunks g.pc) with
        | false =>
          refine ⟨g.min_col, ?_, rewind_of_skip cfg g hd⟩
          rw [greedy_step_skip cfg g hpc hnl hd, hnext]
        | true =>
          have hr := greedy_remembers_none cfg g hs
          refine ⟨next_min_col cfg g.st.chunks g.pc g.min_col, ?_, rewind_of_remember cfg g hr⟩
          rw [greedy_step_remember cfg g hpc hnl hd hr, hnext, hok]
          simp only [Bool.false_eq_true, if_false]
    obtain ⟨m1, hstep, hrw⟩ := key
    have e : n + (k + 1) = (n + k) + 1 := by omega
    rw [e, greedy_run_step_quiet cfg _ g _ hstep hrw]
    obtain ⟨m, hm⟩ := ih { g with pc := g.pc + 1, min_col := m1 } hs
      (by show g.pc + 1 + k ≤ g.endp; omega) hend
      (fun j h1 h2 => hgap j (by have h1 : g.pc + 1 ≤ j := h1; omega)
        (by have h2 : j < g.pc + 1 + k := h2; omega))
    refine ⟨m, ?_⟩
    rw [hm]
    have e2 : g.pc + 1 + k = g.pc + (k + 1) := by omega
    simp only [e2]

--THMS
theorem greedy_low_none (g : Greedy) (h : g.splitpoint = none) : greedy_low g = g.pc := by
  unfold greedy_low
  rw [h]

theorem greedy_low_some (g : Greedy) (q : Nat) (h : g.splitpoint = some q) :
    greedy_low g = q := by
  unfold greedy_low
  rw [h]

theorem greedy_low_le_pc (g : Greedy) (hinv : GreedyInv g) : greedy_low g ≤ g.pc := by
  cases hs : g.splitpoint with
  | none => rw [greedy_low_none g hs]
  | some q => rw [greedy_low_some g q hs]; exact hinv.sp_le q hs

theorem greedy_low_le_lb (g : Greedy) (hinv : GreedyInv g) : greedy_low g ≤ greedy_lb g := by
  have := greedy_low_le_pc g hinv
  unfold greedy_lb
  split <;> omega

theorem greedy_lb_of_not_newline (g : Greedy)
    (h : (chunkAt g.st.chunks g.pc).IsNewline = false) : greedy_lb g = greedy_low g := by
  unfold greedy_lb
  simp [h]

theorem greedy_lb_of_newline (g : Greedy)
    (h : (chunkAt g.st.chunks g.pc).IsNewline = true) : greedy_lb g = g.pc + 1 := by
  unfold greedy_lb
  simp [h]

/-- What a run has done since `g` follows from what it has done since a later state `g1`
reached with the resumption points `t`. -/
theorem GreedyPost_of (g g1 gf : Greedy) (t l : List Nat)
    (ha : g1.added_newlines + g.st.chunks.length = g.added_newlines + g1.st.chunks.length)
    (hc : g1.st.changes + g.added_newlines = g.st.changes + g1.added_newlines)
    (hb : g1.added_newlines + splittable_between g1.st.chunks (greedy_low g1) g1.endp
      ≤ g.added_newlines + splittable_between g.st.chunks (greedy_low g) g.endp)
    (ht : ∀ x ∈ t, greedy_lb g ≤ x ∧ x < greedy_lb g1)
    (htp : t.Pairwise (fun a b => a < b))
    (hlb : greedy_lb g ≤ greedy_lb g1)
    (hpost : GreedyPost g1 gf l) : GreedyPost g gf (t ++ l) := by
  obtain ⟨h1, h2, h3, h4, h5, h6⟩ := hpost
  refine ⟨h1, by omega, by omega, by omega, ?_, ?_⟩
  · intro x hx
    rcases List.mem_append.mp hx with hx | hx
    · exact (ht x hx).1
    · exact Nat.le_trans hlb (h5 x hx)
  · rw [List.pairwise_append]
    refine ⟨htp, h6, ?_⟩
    intro a ha' b hb'
    exact Nat.lt_of_lt_of_le (ht a ha').2 (h5 b hb')

/-- An iteration that inserts nothing passes a finished run on. -/
theorem greedy_quiet_progress (cfg : Config) (g g1 gf : Greedy) (l : List Nat) (n : Nat)
    (hstep : greedy_step cfg g = some g1)
    (hst : g1.st = g.st) (hendp : g1.endp = g.endp)
    (hadd : g1.added_newlines = g.added_newlines)
    (hlow : greedy_low g ≤ greedy_low g1)
    (hlb : greedy_lb g ≤ greedy_lb g1)
    (hrw : ∀ q, rewind_of cfg g = some q → greedy_lb g ≤ q ∧ q < greedy_lb g1)
    (hrun : greedy_run cfg n g1 = some (gf, l)) (hpost : GreedyPost g1 gf l) :
    ∃ l1, greedy_run cfg (n + 1) g = some (gf, l1) ∧ GreedyPost g gf l1 := by
  refine ⟨(rewind_of cfg g).toList ++ l, ?_, ?_⟩
  · rw [greedy_run_step cfg n g g1 hstep, hrun]
    rfl
  · apply GreedyPost_of g g1 gf _ l _ _ _ _ _ hlb hpost
    · rw [hst, hadd]
    · rw [hst, hadd]
    · rw [hst, hendp, hadd]
      have := splittable_between_mono g.st.chunks _ _ g.endp hlow
      omega
    · intro x hx
      cases hq : rewind_of cfg g with
      | none => rw [hq] at hx; cases hx
      | some q =>
        rw [hq] at hx
        simp only [Option.toList_some, List.mem_singleton] at hx
        subst hx
        exact hrw x hq
    · cases rewind_of cfg g with
      | none => exact List.Pairwise.nil
      | some q => exact List.pairwise_singleton _ _

/-- The split branch with its insertion, on loop variables that satisfy the invariant. -/
theorem greedy_step_insert_norm (cfg : Config) (g : Greedy) (q : Nat) (hinv : GreedyInv g)
    (hpc : g.pc ≠ g.endp)
    (hnl : (chunkAt g.st.chunks g.pc).IsNewline = false)
    (hd : greedy_decides (chunkAt g.st.chunks g.pc) = true)
    (hs : g.splitpoint = some q)
    (hr : greedy_remembers cfg g = false)
    (hk : (chunkAt g.st.chunks (q + 1)).IsNewline = false) :
    greedy_step cfg g
      = some { st := { chunks := split_after g.st.chunks q
                                   (next_min_col cfg g.st.chunks g.pc g.min_col),
                       changes := g.st.changes + 1 },
               pc := q + 1, endp := g.endp + 1, fpc := shift_after q g.fpc,
               start := shift_after q g.start, splitpoint := some q,
               min_col := next_min_col cfg g.st.chunks g.pc g.min_col,
               added_newlines := g.added_newlines + 1 } := by
  have hlt : g.pc < g.endp := Nat.lt_of_le_of_ne hinv.pc_le hpc
  have hq := hinv.sp_le q hs
  have hq0 : q < g.st.chunks.length := by
    have := hinv.endp_le
    omega
  have hqnl := not_newline_of_splittable _ (hinv.sp_kind q hs)
  have hnq : GetNext g.st.chunks q = q + 1 := GetNext_eq_succ _ _ hq0
  rw [greedy_step_insert cfg g q hpc hnl hd hs hr (by rw [hnq]; exact hk)]
  have hlen2 := split_after_length g.st.chunks q
    (next_min_col cfg g.st.chunks g.pc g.min_col) hq0 hqnl
  have hpc2 : GetNext (split_after g.st.chunks q
      (next_min_col cfg g.st.chunks g.pc g.min_col)) q = q + 1 :=
    GetNext_eq_succ _ _ (by omega)
  rw [hpc2, relocate_after _ _ hq0 hqnl, relocate_after _ _ hq0 hqnl,
    relocate_after _ _ hq0 hqnl, if_pos (show q < g.endp by omega)]
  rfl

--THMS
/-- The loop of `split_fcn_params_greedy` ends: from loop variables that satisfy the
invariant, a run with more fuel than `greedy_measure` reaches `pc == end`. -/
theorem greedy_run_total (cfg : Config) (fuel : Nat) :
    ∀ g, GreedyInv g → greedy_measure g < fuel →
      ∃ gf l, greedy_run cfg fuel g = some (gf, l) ∧ GreedyPost g gf l := by
  induction fuel using Nat.strong_induction_on with
  | _ fuel ih =>
    intro g hinv hm
    cases fuel with
    | zero => omega
    | succ n =>
      by_cases hpc : g.pc = g.endp
      · exact ⟨g, [], greedy_run_none cfg n g (greedy_step_end cfg g hpc),
          ⟨hpc, rfl, rfl, Nat.le_add_right _ _, fun x hx => (by cases hx), List.Pairwise.nil⟩⟩
      have hlt : g.pc < g.endp := Nat.lt_of_le_of_ne hinv.pc_le hpc
      have hendp := hinv.endp_le
      have hlen : g.pc < g.st.chunks.length := by omega
      have hnext : GetNext g.st.chunks g.pc = g.pc + 1 := GetNext_eq_succ _ _ hlen
      have hlow := greedy_low_le_pc g hinv
      have quiet : ∀ g1, greedy_step cfg g = some g1 → g1.st = g.st → g1.endp = g.endp →
          g1.added_newlines = g.added_newlines → g1.pc = g.pc + 1 →
          greedy_low g ≤ greedy_low g1 → greedy_lb g ≤ greedy_low g1 →
          (∀ q, rewind_of cfg g = some q → greedy_lb g ≤ q ∧ q < greedy_lb g1) →
          ∃ gf l, greedy_run cfg (n + 1) g = some (gf, l) ∧ GreedyPost g gf l := by
        intro g1 hstep hst hend1 hadd hpc1 hlow1 hlb1 hrw
        have hinv1 := GreedyInv_step cfg g g1 hinv hstep
        have hl1 := greedy_low_le_pc g1 hinv1
        have hm1 : greedy_measure g1 < n := by
          have hW := splittable_between_mono g.st.chunks _ _ g.endp hlow1
          unfold greedy_measure at hm ⊢
          rw [hst, hend1, hpc1]
          rw [hpc1] at hl1
          omega
        obtain ⟨gf, l, hrun, hpost⟩ := ih n (Nat.lt_succ_self n) g1 hinv1 hm1
        obtain ⟨l1, h1, h2⟩ := greedy_quiet_progress cfg g g1 gf l n hstep hst hend1 hadd hlow1
          (Nat.le_trans hlb1 (greedy_low_le_lb g1 hinv1)) hrw hrun hpost
        exact ⟨gf, l1, h1, h2⟩
      cases hnl : (chunkAt g.st.chunks g.pc).IsNewline with
      | true =>
        have hstep := greedy_step_newline cfg g hpc hnl
        rw [hnext] at hstep
        have e1 : greedy_low { g with pc := g.pc + 1, splitpoint := none } = g.pc + 1 :=
          greedy_low_none _ rfl
        refine quiet _ hstep rfl rfl rfl rfl ?_ ?_ ?_
        · rw [e1]
          omega
        · rw [e1, greedy_lb_of_newline g hnl]
        · intro q hq
          rw [rewind_of_newline cfg g hnl] at hq
          cases hq
      | false =>
        have hlbg := greedy_lb_of_not_newline g hnl
        have same_sp : ∀ g1 : Greedy, g1.splitpoint = g.splitpoint → g1.pc = g.pc + 1 →
            greedy_low g ≤ greedy_low g1 := by
          intro g1 h1 h2
          cases hs : g.splitpoint with
          | none =>
            rw [greedy_low_none g hs, greedy_low_none g1 (by rw [h1, hs]), h2]
            omega
          | some q =>
            rw [greedy_low_some g q hs, greedy_low_some g1 q (by rw [h1, hs])]
        cases hd : greedy_decides (chunkAt g.st.chunks g.pc) with
        | false =>
          have hstep := greedy_step_skip cfg g hpc hnl hd
          rw [hnext] at hstep
          have h1 := same_sp { g with pc := g.pc + 1 } rfl rfl
          refine quiet _ hstep rfl rfl rfl rfl h1 (by rw [hlbg]; exact h1) ?_
          intro q hq
          rw [rewind_of_skip cfg g hd] at hq
          cases hq
        | true =>
          cases hr : greedy_remembers cfg g with
          | true =>
            have hstep := greedy_step_remember cfg g hpc hnl hd hr
            rw [hnext] at hstep
            have h1 : greedy_low g ≤ greedy_low
                { g with pc := g.pc + 1,
                         splitpoint := if ok_to_split_at g.st.chunks g.pc = true
                                       then some g.pc else g.splitpoint,
                         min_col := next_min_col cfg g.st.chunks g.pc g.min_col } := by
              cases hok : ok_to_split_at g.st.chunks g.pc with
              | true =>
                have e1 : greedy_low
                    { g with pc := g.pc + 1,
                             splitpoint := if true = true then some g.pc else g.splitpoint,
                             min_col := next_min_col cfg g.st.chunks g.pc g.min_col }
                    = g.pc := greedy_low_some _ g.pc rfl
                rw [e1]
                exact hlow
              | false =>
                exact same_sp _ rfl rfl
            refine quiet _ hstep rfl rfl rfl rfl h1 (by rw [hlbg]; exact h1) ?_
            intro q hq
            rw [rewind_of_remember cfg g hr] at hq
            cases hq
          | false =>
            cases hs : g.splitpoint with
            | none => rw [greedy_remembers_none cfg g hs] at hr; cases hr
            | some q =>
              have hq := hinv.sp_le q hs
              have hq0 : q < g.st.chunks.length := by omega
              have hqk := hinv.sp_kind q hs
              have hqnl := not_newline_of_splittable _ hqk
              have hnq : GetNext g.st.chunks q = q + 1 := GetNext_eq_succ _ _ hq0
              have hlowq := greedy_low_some g q hs
              have hrwq : rewind_of cfg g = some q := by
                rw [rewind_of_split cfg g hpc hnl hd hr, hs]
              cases hk : (chunkAt g.st.chunks (q + 1)).IsNewline with
              | true =>
                have hpcq : g.pc = q := by
                  by_contra hne
                  by_cases h1 : q + 1 < g.pc
                  · have := (hinv.gap q hs (q + 1) (Nat.lt_succ_self _) h1).1
                    rw [hk] at this
                    cases this
                  · have h2 : g.pc = q + 1 := by omega
                    rw [h2, hk] at hnl
                    cases hnl
                have hstep := greedy_step_keep cfg g q hpc hnl hd hs hr (by rw [hnq]; exact hk)
                rw [hnq] at hstep
                have hlow1 : greedy_low
                    { g with pc := q + 1,
                             min_col := next_min_col cfg g.st.chunks g.pc g.min_col } = q :=
                  greedy_low_some _ q hs
                refine quiet _ hstep rfl rfl rfl (by show q + 1 = g.pc + 1; omega) ?_ ?_ ?_
                · rw [hlow1, hlowq]
                · rw [hlow1, hlbg, hlowq]
                · intro x hx
                  rw [hrwq] at hx
                  simp only [Option.some.injEq] at hx
                  subst hx
                  rw [hlbg, hlowq]
                  refine ⟨Nat.le_refl _, ?_⟩
                  rw [greedy_lb_of_newline _ (by exact hk)]
                  show q < q + 1 + 1
                  omega
              | false =>
                have hstep := greedy_step_insert_norm cfg g q hinv hpc hnl hd hs hr hk
                generalize hmc : next_min_col cfg g.st.chunks g.pc g.min_col = mc at hstep
                have hlen2 := split_after_length g.st.chunks q mc hq0 hqnl
                have hnl2 : (chunkAt (split_after g.st.chunks q mc) (q + 1)).IsNewline = true :=
                  IsNewline_of_type_newline _ (split_after_type_newline _ _ _ hq0 hqnl)
                -- the iteration on the new newline
                have hstep2 := greedy_step_newline cfg
                  { st := { chunks := split_after g.st.chunks q mc, changes := g.st.changes + 1 },
                    pc := q + 1, endp := g.endp + 1, fpc := shift_after q g.fpc,
                    start := shift_after q g.start, splitpoint := some q, min_col := mc,
                    added_newlines := g.added_newlines + 1 }
                  (by show q + 1 ≠ g.endp + 1; omega) hnl2
                have hn2 : GetNext (split_after g.st.chunks q mc) (q + 1) = q + 2 :=
                  GetNext_eq_succ _ _ (by omega)
                simp only [hn2] at hstep2
                -- the walk over the chunks between the splitpoint and the old cursor
                have hWpos : splittable_between g.st.chunks q g.endp
                    = splittable_between g.st.chunks (q + 1) g.endp + 1 :=
                  splittable_between_succ _ _ _ (by omega) hqk
                have hfuel : g.pc - q - 1 + 2 ≤ n := by
                  unfold greedy_measure at hm
                  rw [hlowq] at hm
                  omega
                obtain ⟨m, hgap⟩ := greedy_run_gap cfg (g.pc - q - 1)
                  { st := { chunks := split_after g.st.chunks q mc, changes := g.st.changes + 1 },
                    pc := q + 2, endp := g.endp + 1, fpc := shift_after q g.fpc,
                    start := shift_after q g.start, splitpoint := none, min_col := mc,
                    added_newlines := g.added_newlines + 1 }
                  rfl (by show q + 2 + (g.pc - q - 1) ≤ g.endp + 1; omega)
                  (by show g.endp + 1 ≤ (split_after g.st.chunks q mc).length; omega)
                  (by
                    intro j hj1 hj2
                    have hj1 : q + 2 ≤ j := hj1
                    have hj2 : j < q + 2 + (g.pc - q - 1) := hj2
                    have e : j = (j - 1) + 1 := by omega
                    rw [e]
                    show ok_to_split_at (split_after g.st.chunks q mc) (j - 1 + 1) = false
                    rw [ok_to_split_at_shift _ _ _ hq0 hqnl (j - 1) (by omega)]
                    exact (hinv.gap q hs (j - 1) (by omega) (by omega)).2)
                  (n - (g.pc - q - 1 + 1))
                simp only at hgap
                have hinv3 : GreedyInv
                    { st := { chunks := split_after g.st.chunks q mc,
                              changes := g.st.changes + 1 },
                      pc := q + 2 + (g.pc - q - 1), endp := g.endp + 1,
                      fpc := shift_after q g.fpc, start := shift_after q g.start,
                      splitpoint := none, min_col := m,
                      added_newlines := g.added_newlines + 1 } := by
                  refine ⟨?_, ?_, fun x hx => (by cases hx), fun x hx => (by cases hx),
                    fun x hx => (by cases hx)⟩
                  · show q + 2 + (g.pc - q - 1) ≤ g.endp + 1
                    omega
                  · show g.endp + 1 ≤ (split_after g.st.chunks q mc).length
                    omega
                have hshift : splittable_between (split_after g.st.chunks q mc)
                    (q + 2 + (g.pc - q - 1)) (g.endp + 1)
                    = splittable_between g.st.chunks (q + 1 + (g.pc - q - 1)) g.endp := by
                  have := splittable_between_shift g.st.chunks q mc hq0 hqnl
                    (q + 1 + (g.pc - q - 1)) g.endp (by omega)
                  rw [← this]
                  have e : q + 1 + (g.pc - q - 1) + 1 = q + 2 + (g.pc - q - 1) := by omega
                  rw [e]
                have hmono := splittable_between_mono g.st.chunks (q + 1)
                  (q + 1 + (g.pc - q - 1)) g.endp (by omega)
                have hm3 : greedy_measure
                    { st := { chunks := split_after g.st.chunks q mc,
                              changes := g.st.changes + 1 },
                      pc := q + 2 + (g.pc - q - 1), endp := g.endp + 1,
                      fpc := shift_after q g.fpc, start := shift_after q g.start,
                      splitpoint := none, min_col := m,
                      added_newlines := g.added_newlines + 1 }
                    < n - (g.pc - q - 1 + 1) := by
                  unfold greedy_measure at hm ⊢
                  rw [greedy_low_none _ rfl]
                  rw [hlowq] at hm
                  simp only
                  rw [hshift]
                  omega
                obtain ⟨gf, l, hrun3, hpost3⟩ :=
                  ih (n - (g.pc - q - 1 + 1)) (by omega) _ hinv3 hm3
                have hl3 := greedy_low_le_lb _ hinv3
                rw [greedy_low_none _ rfl] at hl3
                have hl3 : q + 2 + (g.pc - q - 1) ≤ greedy_lb
                    { st := { chunks := split_after g.st.chunks q mc,
                              changes := g.st.changes + 1 },
                      pc := q + 2 + (g.pc - q - 1), endp := g.endp + 1,
                      fpc := shift_after q g.fpc, start := shift_after q g.start,
                      splitpoint := none, min_col := m,
                      added_newlines := g.added_newlines + 1 } := hl3
                refine ⟨gf, [q] ++ l, ?_, ?_⟩
                · rw [greedy_run_step cfg n g _ hstep, hrwq]
                  have e1 : n = (n - (g.pc - q - 1 + 1) + (g.pc - q - 1)) + 1 := by omega
                  conv_lhs => rw [e1]
                  rw [greedy_run_step_quiet cfg _ _ _ hstep2 (rewind_of_newline cfg _ hnl2),
                    hgap, hrun3]
                  rfl
                · apply GreedyPost_of g _ gf [q] l _ _ _ _ _ _ hpost3
                  · show g.added_newlines + 1 + g.st.chunks.length
                        = g.added_newlines + (split_after g.st.chunks q mc).length
                    omega
                  · show g.st.changes + 1 + g.added_newlines
                        = g.st.changes + (g.added_newlines + 1)
                    omega
                  · rw [greedy_low_none _ rfl, hlowq]
                    show g.added_newlines + 1 + splittable_between
                        (split_after g.st.chunks q mc) (q + 2 + (g.pc - q - 1)) (g.endp + 1)
                      ≤ g.added_newlines + splittable_between g.st.chunks q g.endp
                    rw [hshift]
                    omega
                  · intro x hx
                    simp only [List.mem_singleton] at hx
                    subst hx
                    rw [hlbg, hlowq]
                    exact ⟨Nat.le_refl _, by omega⟩
                  · exact List.pairwise_singleton _ _
                  · rw [hlbg, hlowq]
                    omega

--THMS
theorem rewind_of_some (cfg : Config) (g : Greedy) (q : Nat) (h : rewind_of cfg g = some q) :
    g.pc ≠ g.endp ∧ (chunkAt g.st.chunks g.pc).IsNewline = false
    ∧ greedy_decides (chunkAt g.st.chunks g.pc) = true ∧ greedy_remembers cfg g = false
    ∧ g.splitpoint = some q := by
  unfold rewind_of at h
  split_ifs at h with h1 h2 h3 h4
  refine ⟨h1, by simpa using h2, by simpa using h3, by simpa using h4, h⟩

theorem GreedyEnd_init (st : State) (fpo fpc start : Nat) (hfpc : fpc < st.chunks.length)
    (hkind : (chunkAt st.chunks fpc).type = CT_FPAREN_CLOSE) :
    GreedyEnd (greedy_init st fpo fpc start) :=
  ⟨hfpc, GetNext_eq_succ _ _ hfpc, hkind⟩

/-- A recorded splitpoint stands before `fpc`. -/
theorem splitpoint_lt_fpc (g : Greedy) (q : Nat) (hinv : GreedyInv g) (hend : GreedyEnd g)
    (hpc : g.pc ≠ g.endp) (hs : g.splitpoint = some q) : q < g.fpc := by
  have h1 := hinv.sp_le q hs
  have h2 := hinv.pc_le
  have h3 := hend.endp_eq
  have hne : q ≠ g.fpc := by
    intro e
    have hk := hinv.sp_kind q hs
    rw [e] at hk
    unfold splittable_kind at hk
    rw [hend.fpc_kind] at hk
    cases hk
  omega

/-- The facts about `fpc` and `end` go from one iteration of the greedy loop to the next. -/
theorem GreedyEnd_step (cfg : Config) (g g1 : Greedy) (hinv : GreedyInv g)
    (hend : GreedyEnd g) (hstep : greedy_step cfg g = some g1) : GreedyEnd g1 := by
  by_cases hpc : g.pc = g.endp
  · rw [greedy_step_end cfg g hpc] at hstep; cases hstep
  cases hnl : (chunkAt g.st.chunks g.pc).IsNewline with
  | true =>
    rw [greedy_step_newline cfg g hpc hnl] at hstep
    simp only [Option.some.injEq] at hstep
    subst hstep
    exact ⟨hend.fpc_lt, hend.endp_eq, hend.fpc_kind⟩
  | false =>
    cases hd : greedy_decides (chunkAt g.st.chunks g.pc) with
    | false =>
      rw [greedy_step_skip cfg g hpc hnl hd] at hstep
      simp only [Option.some.injEq] at hstep
      subst hstep
      exact ⟨hend.fpc_lt, hend.endp_eq, hend.fpc_kind⟩
    | true =>
      cases hr : greedy_remembers cfg g with
      | true =>
        rw [greedy_step_remember cfg g hpc hnl hd hr] at hstep
        simp only [Option.some.injEq] at hstep
        subst hstep
        exact ⟨hend.fpc_lt, hend.endp_eq, hend.fpc_kind⟩
      | false =>
        cases hs : g.splitpoint with
        | none => rw [greedy_remembers_none cfg g hs] at hr; cases hr
        | some q =>
          have hqf := splitpoint_lt_fpc g q hinv hend hpc hs
          have hq0 : q < g.st.chunks.length := by
            have := hend.fpc_lt
            omega
          have hqnl := not_newline_of_splittable _ (hinv.sp_kind q hs)
          have hnq : GetNext g.st.chunks q = q + 1 := GetNext_eq_succ _ _ hq0
          cases hk : (chunkAt g.st.chunks (q + 1)).IsNewline with
          | true =>
            rw [greedy_step_keep cfg g q hpc hnl hd hs hr (by rw [hnq]; exact hk)] at hstep
            simp only [Option.some.injEq] at hstep
            subst hstep
            exact ⟨hend.fpc_lt, hend.endp_eq, hend.fpc_kind⟩
          | false =>
            rw [greedy_step_insert_norm cfg g q hinv hpc hnl hd hs hr hk] at hstep
            simp only [Option.some.injEq] at hstep
            subst hstep
            have hsh : shift_after q g.fpc = g.fpc + 1 := by
              unfold shift_after
              rw [if_pos hqf]
            refine ⟨?_, ?_, ?_⟩
            · show shift_after q g.fpc < (split_after _ _ _).length
              rw [hsh, split_after_length _ _ _ hq0 hqnl]
              have := hend.fpc_lt
              omega
            · show g.endp + 1 = shift_after q g.fpc + 1
              rw [hsh, hend.endp_eq]
            · show (chunkAt (split_after _ _ _) (shift_after q g.fpc)).type = CT_FPAREN_CLOSE
              rw [hsh, split_after_type_gt _ _ _ hq0 hqnl g.fpc hqf]
              exact hend.fpc_kind

/-- Every state that the greedy loop reaches satisfies its invariants. -/
theorem greedy_after_inv (cfg : Config) (n : Nat) (g0 g : Greedy) (hinv : GreedyInv g0)
    (hend : GreedyEnd g0) (h : greedy_after cfg n g0 = some g) : GreedyInv g ∧ GreedyEnd g := by
  induction n generalizing g0 with
  | zero =>
    simp only [greedy_after, Option.some.injEq] at h
    subst h
    exact ⟨hinv, hend⟩
  | succ n ih =>
    unfold greedy_after at h
    cases hs : greedy_step cfg g0 with
    | none => rw [hs] at h; cases h
    | some g1 =>
      rw [hs] at h
      exact ih g1 (GreedyInv_step cfg g0 g1 hinv hs) (GreedyEnd_step cfg g0 g1 hinv hend hs) h

/-- After the split branch the cursor is on a newline right after the splitpoint, and the
next iteration clears the splitpoint. -/
theorem rewind_then_newline (cfg : Config) (g : Greedy) (q : Nat) (hinv : GreedyInv g)
    (hend : GreedyEnd g) (h : rewind_of cfg g = some q) :
    ∃ g1 g2, greedy_step cfg g = some g1 ∧ g1.pc = q + 1
      ∧ (chunkAt g1.st.chunks g1.pc).IsNewline = true
      ∧ greedy_step cfg g1 = some g2 ∧ g2.splitpoint = none := by
  obtain ⟨hpc, hnl, hd, hr, hs⟩ := rewind_of_some cfg g q h
  have hqf := splitpoint_lt_fpc g q hinv hend hpc hs
  have hfl := hend.fpc_lt
  have he := hend.endp_eq
  have hq0 : q < g.st.chunks.length := by omega
  have hqnl := not_newline_of_splittable _ (hinv.sp_kind q hs)
  have hnq : GetNext g.st.chunks q = q + 1 := GetNext_eq_succ _ _ hq0
  cases hk : (chunkAt g.st.chunks (q + 1)).IsNewline with
  | true =>
    have hstep := greedy_step_keep cfg g q hpc hnl hd hs hr (by rw [hnq]; exact hk)
    rw [hnq] at hstep
    have hstep2 := greedy_step_newline cfg
      { g with pc := q + 1, min_col := next_min_col cfg g.st.chunks g.pc g.min_col }
      (by show q + 1 ≠ g.endp; omega) hk
    exact ⟨_, _, hstep, rfl, hk, hstep2, rfl⟩
  | false =>
    have hstep := greedy_step_insert_norm cfg g q hinv hpc hnl hd hs hr hk
    have hnl2 : (chunkAt (split_after g.st.chunks q
        (next_min_col cfg g.st.chunks g.pc g.min_col)) (q + 1)).IsNewline = true :=
      IsNewline_of_type_newline _ (split_after_type_newline _ _ _ hq0 hqnl)
    have hstep2 := greedy_step_newline cfg
      { st := { chunks := split_after g.st.chunks q
                  (next_min_col cfg g.st.chunks g.pc g.min_col),
                changes := g.st.changes + 1 },
        pc := q + 1, endp := g.endp + 1, fpc := shift_after q g.fpc,
        start := shift_after q g.start, splitpoint := some q,
        min_col := next_min_col cfg g.st.chunks g.pc g.min_col,
        added_newlines := g.added_newlines + 1 }
      (by show q + 1 ≠ g.endp + 1; omega) hnl2
    exact ⟨_, _, hstep, rfl, hnl2, hstep2, rfl⟩

theorem greedy_measure_init (st : State) (fpo fpc start : Nat) (hle : fpo ≤ fpc)
    (hfpc : fpc < st.chunks.length) :
    greedy_measure (greedy_init st fpo fpc start) < 4 * st.chunks.length + 4 := by
  have hn : GetNext st.chunks fpc = fpc + 1 := GetNext_eq_succ _ _ hfpc
  have hlow : greedy_low (greedy_init st fpo fpc start) = fpo := greedy_low_some _ fpo rfl
  unfold greedy_measure
  rw [hlow]
  show 2 * (GetNext st.chunks fpc - fpo) + (fpo - fpo)
    + 2 * splittable_between st.chunks fpo (GetNext st.chunks fpc) < _
  rw [hn]
  have := splittable_between_le st.chunks fpo (fpc + 1)
  omega

/-- C28. Greedy splitter termination: for every chunk list with a function open paren `fpo`
and a function close paren `fpc` at or after it, the loop of `split_fcn_params_greedy`
reaches `pc == end` within the fuel of the function (and more fuel changes nothing), so
the function returns the result of the finished loop, even though the cursor goes back to
`splitpoint` after each split; the splitpoints from which it resumes are strictly
increasing positions (each taken in the stream of its time; the later insertions are all
further on and do not move it); every added newline is one chunk and one change more, and their
number is at most the number of commas and function open parens from `fpo` to `fpc`; and
in every state that the loop reaches, a resumption puts the cursor on a newline right after
the splitpoint, on which the next iteration clears `splitpoint`. -/
theorem C28_greedy_termination (cfg : Config) (st : State) (fpo fpc start : Nat)
    (hle : fpo ≤ fpc) (hfpc : fpc < st.chunks.length)
    (hfpo_kind : (chunkAt st.chunks fpo).type = CT_FPAREN_OPEN)
    (hfpc_kind : (chunkAt st.chunks fpc).type = CT_FPAREN_CLOSE) :
    (∃ gf l, greedy_run cfg (4 * st.chunks.length + 4) (greedy_init st fpo fpc start)
          = some (gf, l)
        ∧ (∀ more, greedy_run cfg (4 * st.chunks.length + 4 + more)
            (greedy_init st fpo fpc start) = some (gf, l))
        ∧ split_fcn_params_greedy cfg st fpo fpc start = (gf.st, gf.fpc, gf.start)
        ∧ gf.pc = gf.endp
        ∧ l.Pairwise (fun a b => a < b)
        ∧ gf.st.chunks.length = st.chunks.length + gf.added_newlines
        ∧ gf.st.changes = st.changes + gf.added_newlines
        ∧ gf.added_newlines ≤ splittable_between st.chunks fpo (fpc + 1))
    ∧ (∀ n g q, greedy_after cfg n (greedy_init st fpo fpc start) = some g →
        rewind_of cfg g = some q →
        ∃ g1 g2, greedy_step cfg g = some g1 ∧ g1.pc = q + 1
          ∧ (chunkAt g1.st.chunks g1.pc).IsNewline = true
          ∧ greedy_step cfg g1 = some g2 ∧ g2.splitpoint = none) := by
  have hinv := GreedyInv_init st fpo fpc start hle hfpc hfpo_kind
  have hend := GreedyEnd_init st fpo fpc start hfpc hfpc_kind
  constructor
  · obtain ⟨gf, l, hrun, hpost⟩ := greedy_run_total cfg (4 * st.chunks.length + 4)
      (greedy_init st fpo fpc start) hinv (greedy_measure_init st fpo fpc start hle hfpc)
    have hn : GetNext st.chunks fpc = fpc + 1 := GetNext_eq_succ _ _ hfpc
    have hlow : greedy_low (greedy_init st fpo fpc start) = fpo := greedy_low_some _ fpo rfl
    have h1 := hpost.inserted
    have h2 := hpost.counted
    have h3 := hpost.bounded
    rw [hlow] at h3
    have h1 : gf.added_newlines + st.chunks.length = 0 + gf.st.chunks.length := h1
    have h2 : gf.st.changes + 0 = st.changes + gf.added_newlines := h2
    have h3 : gf.added_newlines
        ≤ 0 + splittable_between st.chunks fpo (GetNext st.chunks fpc) := h3
    rw [hn] at h3
    refine ⟨gf, l, hrun, fun more => greedy_run_mono cfg _ more _ _ hrun, ?_, hpost.finished,
      hpost.increasing, by omega, by omega, by omega⟩
    rw [split_fcn_params_greedy_eq]
    exact greedy_loop_from_of_run cfg _ _ gf l hrun
  · intro n g q hg hq
    obtain ⟨hi, he⟩ := greedy_after_inv cfg n _ g hinv hend hg
    exact rewind_then_newline cfg g q hi he hq

theorem C28_greedy_termination_witness :
    ((1 ≤ 7 ∧ 7 < call3_in.length ∧ (chunkAt call3_in 1).type = CT_FPAREN_OPEN
        ∧ (chunkAt call3_in 7).type = CT_FPAREN_CLOSE)
      ∧ (greedy_run cfg12 40 (greedy_init ⟨call3_in, 0⟩ 1 7 5)).map
            (fun r => (texts r.1.st.chunks, r.2, r.1.added_newlines))
          = some (["f", "(", "aaaa", ",", "\n", "bbbb", ",", "\n", "cccc", ")", ";"], [3, 6], 2)
      ∧ splittable_between call3_in 1 (7 + 1) = 3)
    ∧ ((∃ gf l, greedy_run cfg12 (4 * call3_in.length + 4) (greedy_init ⟨call3_in, 0⟩ 1 7 5)
            = some (gf, l)
          ∧ (∀ more, greedy_run cfg12 (4 * call3_in.length + 4 + more)
              (greedy_init ⟨call3_in, 0⟩ 1 7 5) = some (gf, l))
          ∧ split_fcn_params_greedy cfg12 ⟨call3_in, 0⟩ 1 7 5 = (gf.st, gf.fpc, gf.start)
          ∧ gf.pc = gf.endp
          ∧ l.Pairwise (fun a b => a < b)
          ∧ gf.st.chunks.length = call3_in.length + gf.added_newlines
          ∧ gf.st.changes = 0 + gf.added_newlines
          ∧ gf.added_newlines ≤ splittable_between call3_in 1 (7 + 1))
      ∧ (∀ n g q, greedy_after cfg12 n (greedy_init ⟨call3_in, 0⟩ 1 7 5) = some g →
          rewind_of cfg12 g = some q →
          ∃ g1 g2, greedy_step cfg12 g = some g1 ∧ g1.pc = q + 1
            ∧ (chunkAt g1.st.chunks g1.pc).IsNewline = true
            ∧ greedy_step cfg12 g1 = some g2 ∧ g2.splitpoint = none)) :=
  ⟨by decide!, C28_greedy_termination cfg12 ⟨call3_in, 0⟩ 1 7 5 (by decide) (by decide)
    (by decide!) (by decide!)⟩

end Width
